import Mathlib

/-! # Checkerboard calibration: a shallow embedding of `Calibration.cpp`

The definitions below follow `src/calibration/Calibration/Calibration.cpp`
function by function.

Modelling conventions.

* `cv::Point` has `int` coordinates; they are modelled by `Int`. Where the
  source multiplies, adds or subtracts coordinates on the way to a square root
  (`L2norm`, the difference of two points, the row test of
  `TransformAndNumberQuads`) the 32-bit wrap-around is modelled (`wrapInt32`).
  The corner average of the linking loop is taken without wrap-around.
* `float` is modelled by its finite values: a result is rounded to the nearest
  value with a 24-bit significand, ties to even (`roundFloat`, `floatSqrt`);
  the range of the exponent is not modelled (no overflow to infinity, no
  subnormal numbers). `sqrt` is computed in `double` (53-bit significand) and
  then stored in a `float`. The square root of a negative `int` is NaN.
* The conversion `float -> int` truncates toward zero; a value that does not
  fit into an `int`, and NaN, give `INT_MIN`, as the conversion instructions
  of x86 do.
* The entries of a homography are rationals. The reprojection of
  `TransformAndNumberQuads` rounds the coordinates, every product and every
  sum to `float`; the decomposition
  `ComputeIntrinsicsAndExtrinsicFromHomography` is modelled in exact rational
  arithmetic.
* The distance test of the linking loop (`tooFar`) is carried out on the
  squares of the two lengths, which is exact.
* C arrays of four entries (`points`, `associatedCorners`) are lists of
  length four; `std::vector<Quad>` is `List Quad`.
* A loop whose number of passes the source does not bound takes a bound as
  its first argument. For the loops of `TransformAndNumberQuads` the bound
  chosen is never reached (`collectRow_eq`, `numberLoop_fuel_irrelevant`); the
  walk of `FindCornerFromEdgeQuad` need not end, and reports `timeout` when
  the bound is used up.
* Assignments that no later statement of the function reads (the `number` of
  the local copies in `MatchCornersForHomography`) and the debug drawing are
  left out.
-/

namespace Calibration

set_option maxRecDepth 10000

/-! ## Data model (`Calibration.h`, reconstructed from its uses) -/

/-- Pixel position, `cv::Point`. -/
structure Point where
  x : Int
  y : Int
deriving DecidableEq, Repr

/-- Modelled from the spec: the record `Quad` is declared in `Calibration.h`,
which is not part of the sources; the fields are the ones `Calibration.cpp`
reads and writes (identifier, four corners, centre, grid number, four
association slots `(neighbour id, neighbour corner index)`, link degree). -/
structure Quad where
  id : Int
  points : List Point
  centre : Point
  number : Int
  associatedCorners : List (Int × Int)
  numLinkedCorners : Int
deriving DecidableEq, Repr

/-- A default-constructed `Quad` (`Quad q;`): the `cv::Point` members are
zero-initialised by their constructor and the pairs are value-initialised; the
plain `int` members are indeterminate in C++ and are taken to be `0` here. -/
def defaultQuad : Quad :=
  { id := 0
    points := [⟨0, 0⟩, ⟨0, 0⟩, ⟨0, 0⟩, ⟨0, 0⟩]
    centre := ⟨0, 0⟩
    number := 0
    associatedCorners := [(0, 0), (0, 0), (0, 0), (0, 0)]
    numLinkedCorners := 0 }

/-- Homography `Eigen::Matrix3f`, row-major entries. -/
structure Matrix3f where
  m00 : ℚ
  m01 : ℚ
  m02 : ℚ
  m10 : ℚ
  m11 : ℚ
  m12 : ℚ
  m20 : ℚ
  m21 : ℚ
  m22 : ℚ

/-- The identity homography. -/
def Matrix3f.identity : Matrix3f :=
  { m00 := 1, m01 := 0, m02 := 0
    m10 := 0, m11 := 1, m12 := 0
    m20 := 0, m21 := 0, m22 := 1 }

/-! ## Machine arithmetic: `int` and `float` -/

/-- Wrap-around of 32-bit `int` arithmetic: the value congruent to `z` modulo
`2^32` in the range `-2^31 .. 2^31 - 1`. -/
def wrapInt32 (z : Int) : Int :=
  (z + 2147483648) % 4294967296 - 2147483648

/-- Truncation toward zero. -/
def truncToInt (r : ℚ) : Int :=
  if 0 ≤ r then Int.floor r else Int.ceil r

/-- Conversion `float -> int`: truncation toward zero when the result fits
into an `int`, `INT_MIN` otherwise. -/
def floatToInt (r : ℚ) : Int :=
  if -2147483648 ≤ truncToInt r ∧ truncToInt r ≤ 2147483647 then truncToInt r
  else -2147483648

/-- Rounding of a rational to the nearest integer, ties to the even one. -/
def roundHalfEven (r : ℚ) : Int :=
  if r - (Int.floor r : ℚ) < 1 / 2 then Int.floor r
  else if 1 / 2 < r - (Int.floor r : ℚ) then Int.floor r + 1
  else if Int.floor r % 2 = 0 then Int.floor r
  else Int.floor r + 1

/-- Rounding to `float`: the nearest value with a 24-bit significand, ties to
even. For `2^e ≤ |r| < 2^(e+1)` the values of `float` are the multiples of
`2^(e-23)`. -/
def roundFloat (r : ℚ) : ℚ :=
  if r = 0 then 0
  else (roundHalfEven (r / 2 ^ (Int.log 2 |r| - 23)) : ℚ) * 2 ^ (Int.log 2 |r| - 23)

/-- One entry of the product `H * x` of two `float` operands, the row
`(a0, a1, a2)` of `H` times `(x0, x1, x2)`: the three products are rounded,
then summed as `p0 + (p1 + p2)`, every sum rounded. The product is computed by
`Eigen`, outside `Calibration.cpp`, and the source does not fix the order of
the sums; this is one order. The properties below that use it do so for the
homographies `I` and `2 * I`, where two of the three products are zero and
every order gives the same value; `numbering_keeps_every_quad` is proved for
every way of computing the product. -/
def floatDot (a0 a1 a2 x0 x1 x2 : ℚ) : ℚ :=
  roundFloat (roundFloat (a0 * x0) + roundFloat (roundFloat (a1 * x1) + roundFloat (a2 * x2)))

/-! ## Square roots in `double` and `float` -/

/-- Bitwise search for the integer square root: `acc` is the part found so
far, the first argument the number of lower bits still to decide. -/
def isqrtAux (n : Nat) : Nat → Nat → Nat
  | 0, acc => acc
  | b + 1, acc =>
    if (acc + 2 ^ b) * (acc + 2 ^ b) ≤ n then isqrtAux n b (acc + 2 ^ b)
    else isqrtAux n b acc

/-- Number of binary digits of `n` (the first argument bounds the recursion). -/
def bitLength : Nat → Nat → Nat
  | 0, _ => 0
  | fuel + 1, n => if n = 0 then 0 else bitLength fuel (n / 2) + 1

/-- Integer part of the square root. -/
def isqrt (n : Nat) : Nat :=
  isqrtAux n (bitLength n n) 0

/-- A finite non-negative floating-point value, `mant / 2 ^ scale`. -/
structure FloatValue where
  mant : Nat
  scale : Nat
deriving DecidableEq, Repr

/-- Comparison `a < b` of two floating-point values. -/
def FloatValue.lt (a b : FloatValue) : Bool :=
  decide (a.mant * 2 ^ b.scale < b.mant * 2 ^ a.scale)

/-- Integer part of a floating-point value. -/
def FloatValue.toNat (a : FloatValue) : Nat :=
  a.mant / 2 ^ a.scale

/-- Division by `4.f`; it is exact. -/
def FloatValue.quarter (a : FloatValue) : FloatValue :=
  ⟨a.mant, a.scale + 2⟩

/-- The floating-point value `m * 2 ^ drop / 2 ^ k`. -/
def FloatValue.ofScaled (m drop k : Nat) : FloatValue :=
  if drop ≤ k then ⟨m, k - drop⟩ else ⟨m * 2 ^ (drop - k), 0⟩

/-- Rounding of `mant` (plus, when `sticky` is set, a positive fraction below
one) to `p` significant bits, to nearest, ties to even. The result `(q, drop)`
stands for `q * 2 ^ drop`. -/
def roundToBits (p mant : Nat) (sticky : Bool) : Nat × Nat :=
  if bitLength mant mant ≤ p then (mant, 0)
  else if mant % 2 ^ (bitLength mant mant - p) < 2 ^ (bitLength mant mant - p - 1) then
    (mant / 2 ^ (bitLength mant mant - p), bitLength mant mant - p)
  else if 2 ^ (bitLength mant mant - p - 1) < mant % 2 ^ (bitLength mant mant - p)
      ∨ sticky = true then
    (mant / 2 ^ (bitLength mant mant - p) + 1, bitLength mant mant - p)
  else if mant / 2 ^ (bitLength mant mant - p) % 2 = 0 then
    (mant / 2 ^ (bitLength mant mant - p), bitLength mant mant - p)
  else (mant / 2 ^ (bitLength mant mant - p) + 1, bitLength mant mant - p)

/-- Rounding of a floating-point value to `p` significant bits. -/
def FloatValue.round (p : Nat) (a : FloatValue) : FloatValue :=
  FloatValue.ofScaled (roundToBits p a.mant false).1 (roundToBits p a.mant false).2 a.scale

/-- The square root of `s`, correctly rounded to `p` significant bits: `k` is
chosen so that the integer square root of `s * 4 ^ k` has at least `p + 2`
bits; that integer is rounded to `p` bits, the flag telling `roundToBits`
that the root is not exact (`sqrtRounded_nearest`). -/
def sqrtRounded (p s : Nat) : FloatValue :=
  FloatValue.ofScaled
    (roundToBits p (isqrt (s * 4 ^ ((2 * p + 4 - bitLength s s) / 2)))
      (decide (isqrt (s * 4 ^ ((2 * p + 4 - bitLength s s) / 2))
          * isqrt (s * 4 ^ ((2 * p + 4 - bitLength s s) / 2))
        ≠ s * 4 ^ ((2 * p + 4 - bitLength s s) / 2)))).1
    (roundToBits p (isqrt (s * 4 ^ ((2 * p + 4 - bitLength s s) / 2)))
      (decide (isqrt (s * 4 ^ ((2 * p + 4 - bitLength s s) / 2))
          * isqrt (s * 4 ^ ((2 * p + 4 - bitLength s s) / 2))
        ≠ s * 4 ^ ((2 * p + 4 - bitLength s s) / 2)))).2
    ((2 * p + 4 - bitLength s s) / 2)

/-- The call `sqrt(s)` with a non-negative `int` argument, stored in a `float`:
the root is computed in `double` and then rounded to `float`. -/
def floatSqrt (s : Nat) : FloatValue :=
  (sqrtRounded 53 s).round 24

/-- `operator-` of `cv::Point`, on `int` coordinates. -/
def Point.sub (a b : Point) : Point :=
  ⟨wrapInt32 (a.x - b.x), wrapInt32 (a.y - b.y)⟩

/-- `float L2norm(Point a) { return sqrt(a.x*a.x + a.y*a.y); }`. The sum of
the squares is an `int` and wraps around; `none` stands for NaN, the root of
a negative sum. -/
def L2norm (a : Point) : Option FloatValue :=
  if wrapInt32 (wrapInt32 (a.x * a.x) + wrapInt32 (a.y * a.y)) < 0 then none
  else some (floatSqrt (wrapInt32 (wrapInt32 (a.x * a.x) + wrapInt32 (a.y * a.y))).toNat)

/-- Conversion of the value returned by `L2norm` to `int`
(`int margin = L2norm(...)`): the integer part, `INT_MIN` for NaN. -/
def floatValueToInt : Option FloatValue → Int
  | none => -2147483648
  | some v => if v.toNat ≤ 2147483647 then (v.toNat : Int) else -2147483648

/-! ## Helpers of `CheckerDetection` declared outside `Calibration.cpp` -/

/-- Modelled from the spec: `DistBetweenPoints` is not part of
`Calibration.cpp`; it is the Euclidean distance of two points. This is its
square, which is an exact integer. -/
def distSq (a b : Point) : Int :=
  (a.x - b.x) * (a.x - b.x) + (a.y - b.y) * (a.y - b.y)

/-- Modelled from the spec: the value returned by `DistBetweenPoints`, taken
to be a `float` like the value of `L2norm`: the Euclidean distance, rounded. -/
def DistBetweenPoints (a b : Point) : FloatValue :=
  floatSqrt (distSq a b).toNat

/-- Modelled from the spec: `GetLongestDiagonal` is not part of
`Calibration.cpp`; it is the length of the longer of the two diagonals
(corner 0 to corner 2, corner 1 to corner 3). This is its square. -/
def longestDiagonalSq (q : Quad) : Int :=
  max (distSq (q.points.getD 0 ⟨0, 0⟩) (q.points.getD 2 ⟨0, 0⟩))
    (distSq (q.points.getD 1 ⟨0, 0⟩) (q.points.getD 3 ⟨0, 0⟩))

/-- Modelled from the spec: the value returned by `GetLongestDiagonal`, a
`float` (`const float diag1 = GetLongestDiagonal(q1)`): the length of the
longer diagonal, rounded. -/
def GetLongestDiagonal (q : Quad) : FloatValue :=
  floatSqrt (longestDiagonalSq q).toNat

/-- Modelled from the spec: `DoesPointLieWithinQuadOfTwoCentres` is not part of
`Calibration.cpp`; it tests "membership inside the axis-aligned rectangle
spanned by the two centroids" (border included). -/
def DoesPointLieWithinQuadOfTwoCentres (p : Point) (q1 q2 : Quad) : Bool :=
  decide (min q1.centre.x q2.centre.x ≤ p.x) && decide (p.x ≤ max q1.centre.x q2.centre.x)
    && decide (min q1.centre.y q2.centre.y ≤ p.y) && decide (p.y ≤ max q1.centre.y q2.centre.y)

/-! ## `CheckerDetection`: merging the quads of one iteration into the pool -/

/-- The test of the merge loop:
`float diagLength = GetLongestDiagonal(q2) / 4.f;` and then
`DistBetweenPoints(q1.centre, q2.centre) < diagLength`, a comparison of two
`float` values. -/
def closeTo (q1 q2 : Quad) : Bool :=
  (DistBetweenPoints q1.centre q2.centre).lt (GetLongestDiagonal q2).quarter

/-- The inner loop `for (const Quad& q2 : quads)` with its `break`: is some
quad of the pool close to `q1`? -/
def foundInPool (q1 : Quad) : List Quad → Bool
  | [] => false
  | q2 :: rest => if closeTo q1 q2 then true else foundInPool q1 rest

/-- Body of `for (const Quad& q1 : quadsThisIteration)`: `q1` is appended to
the pool unless a quad of the pool is close to it. -/
def mergeOne (quads : List Quad) (q1 : Quad) : List Quad :=
  if foundInPool q1 quads then quads else quads ++ [q1]

/-- The merge step of one erosion iteration (`if (!quads.empty()) ... else ...`):
with a non-empty pool every new quad is matched against the pool; with an empty
pool all quads of the iteration are kept. -/
def mergeDetections (quads quadsThisIteration : List Quad) : List Quad :=
  if !quads.isEmpty then quadsThisIteration.foldl mergeOne quads
  else quads ++ quadsThisIteration

/-- The merge steps of successive iterations, starting from an empty pool;
`sets` holds `quadsThisIteration` of every iteration that reaches the merge. -/
def mergeAll (sets : List (List Quad)) : List Quad :=
  sets.foldl mergeDetections []

/-! ## `CheckerDetection`: linking corners -/

/-- The test `DistBetweenPoints(q1.centre, q2.centre) > 1.5 * diag1` on the
squares: `4 * dist^2 > 9 * diag1^2`. -/
def tooFar (diag1Sq : Int) (q1 q2 : Quad) : Bool :=
  decide (4 * distSq q1.centre q2.centre > 9 * diag1Sq)

/-- The loops `for (int k = 0; k < 4; ++k)` with their `break`: index of the
first of the four corners `pts` inside the rectangle of the two centres. -/
def firstCornerWithin (pts : List Point) (q1 q2 : Quad) : Option Nat :=
  (pts.take 4).findIdx? (fun p => DoesPointLieWithinQuadOfTwoCentres p q1 q2)

/-- Assignment through a reference into the vector: `quads[i]` becomes
`f quads[i]`. -/
def updateQuad (quads : List Quad) (i : Nat) (f : Quad → Quad) : List Quad :=
  quads.modify f i

/-- Body of the loop over `j` for the pair `(i, j)`. `q1` and `q2` are
references to `quads[i]` and `quads[j]` (the same object when `i = j`), so
the six assignments of a match are applied to the vector one after the
other. `diag1Sq` is `diag1`, taken when the pass for `i` starts. -/
def linkPair (diag1Sq : Int) (i j : Nat) (quads : List Quad) : List Quad :=
  match quads.get? i, quads.get? j with
  | some q1, some q2 =>
    if tooFar diag1Sq q1 q2 then quads
    else
      match firstCornerWithin q1.points q1 q2 with
      | none => quads
      | some index1 =>
        match firstCornerWithin q2.points q1 q2 with
        | none => quads
        | some index2 =>
          let corner1 := q1.points.getD index1 ⟨0, 0⟩
          let corner2 := q2.points.getD index2 ⟨0, 0⟩
          let corner : Point :=
            ⟨Int.tdiv (corner1.x + corner2.x) 2, Int.tdiv (corner1.y + corner2.y) 2⟩
          let s1 := updateQuad quads i (fun q => { q with points := q.points.set index1 corner })
          let s2 := updateQuad s1 j (fun q => { q with points := q.points.set index2 corner })
          let s3 := updateQuad s2 i (fun q =>
            { q with associatedCorners := q.associatedCorners.set index1 (q2.id, (index2 : Int)) })
          let s4 := updateQuad s3 j (fun q =>
            { q with associatedCorners := q.associatedCorners.set index2 (q1.id, (index1 : Int)) })
          let s5 := updateQuad s4 i (fun q => { q with numLinkedCorners := q.numLinkedCorners + 1 })
          updateQuad s5 j (fun q => { q with numLinkedCorners := q.numLinkedCorners + 1 })
  | _, _ => quads

/-- The pass of the outer loop for index `i`: `diag1` is taken once, then `j`
runs from `i` to the end. -/
def linkFrom (i : Nat) (quads : List Quad) : List Quad :=
  let diag1Sq := longestDiagonalSq (quads.getD i defaultQuad)
  (List.range' i (quads.length - i)).foldl (fun s j => linkPair diag1Sq i j s) quads

/-- The corner-linking loop of `CheckerDetection` (`for (int i = 0; ...)`). -/
def linkCorners (quads : List Quad) : List Quad :=
  (List.range quads.length).foldl (fun s i => linkFrom i s) quads

/-- Number of non-empty association slots of a quad (first component
different from `-1`). -/
def linkedSlots (q : Quad) : Nat :=
  (q.associatedCorners.filter (fun s => decide (s.1 ≠ -1))).length
/-! ## `FindCornerFromEdgeQuad` -/

/-- Element access `quads[k]` with an `int` index; `none` stands for an access
outside the vector (undefined behaviour). -/
def quadAt (quads : List Quad) (k : Int) : Option Quad :=
  if 0 ≤ k then quads.get? k.toNat else none

/-- Slot `i` of the association table, `q.associatedCorners[i]`. -/
def slotOf (q : Quad) (i : Nat) : Int × Int :=
  q.associatedCorners.getD i (0, 0)

/-- The loop `for (int i = 0; i < 4; ++i)` of `FindCornerFromEdgeQuad`, from
the slots listed in the first argument on, with the current `curQuad` and
`newIndex`. The result is `curQuad`, `newIndex` and, when the loop was left
by `break`, the corner quad that was stored into `corner`. -/
def walkSlots (root : Quad) (quads : List Quad) :
    List Nat → Quad → Int → Option (Quad × Int × Option Quad)
  | [], curQuad, newIndex => some (curQuad, newIndex, none)
  | i :: rest, curQuad, newIndex =>
    if (slotOf curQuad i).1 ≠ -1 then
      match quadAt quads (slotOf curQuad i).2 with
      | none => none
      | some nextQuad =>
        if nextQuad.centre = root.centre then
          walkSlots root quads rest curQuad newIndex
        else if curQuad.numLinkedCorners = 4 ∧ nextQuad.numLinkedCorners = 2 then
          walkSlots root quads rest nextQuad (slotOf nextQuad i).2
        else if curQuad.numLinkedCorners = 2 ∧ nextQuad.numLinkedCorners = 4 then
          walkSlots root quads rest nextQuad (slotOf nextQuad i).2
        else if nextQuad.numLinkedCorners = 1 then
          some (nextQuad, newIndex, some nextQuad)
        else
          walkSlots root quads rest curQuad (slotOf curQuad i).2
    else walkSlots root quads rest curQuad newIndex

/-- Outcome of a loop that need not end. -/
inductive Outcome (α : Type) where
  | done (value : α)
  | fault
  | timeout
deriving DecidableEq, Repr

/-- The `do ... while (curQuad.numLinkedCorners != 1)` loop of
`FindCornerFromEdgeQuad`. The first argument bounds the number of passes
(`timeout` when it is used up); `fault` is an access outside `quads`. The
value is `numQuadsAlongSide` and the quad stored into `corner`, if any. -/
def cornerWalk (root : Quad) (quads : List Quad) :
    Nat → Quad → Int → Option Quad → Outcome (Int × Option Quad)
  | 0, _, _, _ => Outcome.timeout
  | fuel + 1, curQuad, numQuadsAlongSide, corner =>
    match walkSlots root quads [0, 1, 2, 3] curQuad (-1) with
    | none => Outcome.fault
    | some (curQuad', newIndex, found) =>
      let corner' := if found.isSome then found else corner
      let num' := if newIndex < 0 then numQuadsAlongSide else numQuadsAlongSide + 1
      if curQuad'.numLinkedCorners ≠ 1 then cornerWalk root quads fuel curQuad' num' corner'
      else Outcome.done (num', corner')

/-- The function `FindCornerFromEdgeQuad(root, branch, quads, corner)`: the
returned count and the quad written to `corner` (`none`: `corner` is left as
the caller passed it). -/
def FindCornerFromEdgeQuad (fuel : Nat) (root branch : Quad) (quads : List Quad) :
    Outcome (Int × Option Quad) :=
  cornerWalk root quads fuel branch 1 none

/-! ## `MatchCornersForHomography` -/

/-- The four extreme quads of the ground truth, in the order of the source. -/
structure GroundTruthCorners where
  topleft : Quad
  topright : Quad
  bottomleft : Quad
  bottomright : Quad

/-- Body of the loop over `gtQuads`. The factors `0.9f` and `1.1f` are taken
as the decimals `9/10` and `11/10`, and the products as exact. -/
def gtStep (e : GroundTruthCorners) (q : Quad) : GroundTruthCorners :=
  { topleft :=
      if 10 * q.centre.x < 9 * e.topleft.centre.x ∨ 10 * q.centre.y < 9 * e.topleft.centre.y
      then q else e.topleft
    topright :=
      if 10 * q.centre.x > 11 * e.topright.centre.x ∨ 10 * q.centre.y < 9 * e.topright.centre.y
      then q else e.topright
    bottomleft :=
      if 10 * q.centre.x < 9 * e.bottomleft.centre.x
          ∨ 10 * q.centre.y > 11 * e.bottomleft.centre.y
      then q else e.bottomleft
    bottomright :=
      if 10 * q.centre.x > 11 * e.bottomright.centre.x
          ∨ 10 * q.centre.y > 11 * e.bottomright.centre.y
      then q else e.bottomright }

/-- The scan of the ground truth for its four extreme quads; `none` when
`gtQuads` is empty (`gtQuads[0]` does not exist). -/
def groundTruthCorners (gtQuads : List Quad) : Option GroundTruthCorners :=
  match gtQuads with
  | [] => none
  | q0 :: _ =>
    some (gtQuads.foldl gtStep
      { topleft := q0, topright := q0, bottomleft := q0, bottomright := q0 })

/-- The array `corners`: the first four quads of link degree 1. -/
def detectedCorners (quads : List Quad) : List Quad :=
  (quads.filter (fun q => decide (q.numLinkedCorners = 1))).take 4

/-- The value `cornerIndex`: the first used slot of `corners[0]`, `0` if none. -/
def firstUsedSlot (q : Quad) : Nat :=
  (([0, 1, 2, 3] : List Nat).find? (fun i => decide ((slotOf q i).1 ≠ -1))).getD 0

/-- The loop that fills `branches`, from the slots listed in the first
argument on: the quads of degree 2 found through the slots of
`connectedQuad`, at most two (the third argument counts down from 2). `none`
is an access outside `quads`. -/
def findBranches (connectedQuad : Quad) (quads : List Quad) :
    List Nat → Nat → Option (List Quad)
  | [], _ => some []
  | _ :: _, 0 => some []
  | i :: rest, room + 1 =>
    if 0 ≤ (slotOf connectedQuad i).2 then
      match quadAt quads (slotOf connectedQuad i).2 with
      | none => none
      | some q =>
        if q.numLinkedCorners = 2 then
          (findBranches connectedQuad quads rest room).map (fun l => q :: l)
        else findBranches connectedQuad quads rest (room + 1)
    else findBranches connectedQuad quads rest (room + 1)

/-- The loops `for (int i = 1; i < 4; ++i)` that pair the remaining corners,
from the indices listed in the second argument on. `roles` holds the centres
of the ground-truth quads for "close", "far" and "other" (bottom-left,
top-right, bottom-right in the first branch of the source; top-right,
bottom-left, top-left in the second). Every branch of the body ends with
`break`. -/
def pairRemaining (corners : List Quad) (closeCorner farCorner : Quad)
    (roles : Point × Point × Point) : List Nat → List (Point × Point)
  | [] => []
  | i :: _ =>
    let ci := corners.getD i defaultQuad
    if ci.centre = closeCorner.centre then [(roles.1, ci.centre)] -- break
    else if ci.centre = farCorner.centre then [(roles.2.1, ci.centre)] -- break
    else [(roles.2.2, ci.centre)] -- break

/-- What `MatchCornersForHomography` computes before it builds `matches`. -/
structure CornerSearch where
  gt : GroundTruthCorners
  corners : List Quad
  closeCorner : Quad
  farCorner : Quad

/-- First part of `MatchCornersForHomography(gtQuads, quads)`, up to
`closeCorner` and `farCorner`. `fault`: an access outside a vector, or fewer
than two branches (the walk would start from an uninitialised quad);
`timeout`: a corner walk did not end within `fuel` passes. -/
def searchCorners (fuel : Nat) (gtQuads quads : List Quad) : Outcome CornerSearch :=
  match groundTruthCorners gtQuads with
  | none => Outcome.fault
  | some gt =>
    let corners := detectedCorners quads
    let corner0 := corners.getD 0 defaultQuad
    let cornerIndex := firstUsedSlot corner0
    match quadAt quads (slotOf corner0 cornerIndex).2 with
    | none => Outcome.fault
    | some connectedQuad =>
      match findBranches connectedQuad quads [0, 1, 2, 3] 2 with
      | some [branch0, branch1] =>
        match FindCornerFromEdgeQuad fuel connectedQuad branch0 quads with
        | Outcome.done (n1, c1) =>
          match FindCornerFromEdgeQuad fuel connectedQuad branch1 quads with
          | Outcome.done (n2, c2) =>
            let corner1 := c1.getD defaultQuad
            let corner2 := c2.getD defaultQuad
            let stepsToCorner1 := n1 + 2
            let stepsToCorner2 := n2 + 2
            Outcome.done
              { gt := gt
                corners := corners
                closeCorner := if stepsToCorner1 > stepsToCorner2 then corner2 else corner1
                farCorner := if stepsToCorner1 > stepsToCorner2 then corner1 else corner2 }
          | Outcome.fault => Outcome.fault
          | Outcome.timeout => Outcome.timeout
        | Outcome.fault => Outcome.fault
        | Outcome.timeout => Outcome.timeout
      | _ => Outcome.fault

/-- Second part of `MatchCornersForHomography`: the vector `matches`. -/
def buildMatches (s : CornerSearch) : List (Point × Point) :=
  let corner0 := s.corners.getD 0 defaultQuad
  if corner0.centre.y < s.closeCorner.centre.y then
    (s.gt.topleft.centre, corner0.centre) ::
      pairRemaining s.corners s.closeCorner s.farCorner
        (s.gt.bottomleft.centre, s.gt.topright.centre, s.gt.bottomright.centre) [1, 2, 3]
  else
    (s.gt.bottomright.centre, corner0.centre) ::
      pairRemaining s.corners s.closeCorner s.farCorner
        (s.gt.topright.centre, s.gt.bottomleft.centre, s.gt.topleft.centre) [1, 2, 3]

/-- The function `MatchCornersForHomography(gtQuads, quads)`. -/
def MatchCornersForHomography (fuel : Nat) (gtQuads quads : List Quad) :
    Outcome (List (Point × Point)) :=
  match searchCorners fuel gtQuads quads with
  | Outcome.done s => Outcome.done (buildMatches s)
  | Outcome.fault => Outcome.fault
  | Outcome.timeout => Outcome.timeout

/-! ## `TransformAndNumberQuads` -/

/-- First loop of `TransformAndNumberQuads`, one quad:
`Vector3f x(cx, cy, 1)` converts the coordinates to `float`, `Hx = H * x` is
computed in `float`, the statement `Hx / Hx(2);` has its value discarded (so
`Hx` is unchanged), and `q.centre = Point(Hx(0), Hx(1))` converts back to
`int`. The way `Eigen` computes an entry of `H * x` from a row of `H` and the
vector is the argument `dot`. -/
def transformQuadWith (dot : ℚ → ℚ → ℚ → ℚ → ℚ → ℚ → ℚ) (H : Matrix3f) (q : Quad) : Quad :=
  { q with
    centre :=
      ⟨floatToInt (dot H.m00 H.m01 H.m02
          (roundFloat (q.centre.x : ℚ)) (roundFloat (q.centre.y : ℚ)) 1),
        floatToInt (dot H.m10 H.m11 H.m12
          (roundFloat (q.centre.x : ℚ)) (roundFloat (q.centre.y : ℚ)) 1)⟩ }

/-- First loop of `TransformAndNumberQuads`, one quad, with the product
`H * x` computed entry by entry as `floatDot` does. -/
def transformQuad (H : Matrix3f) (q : Quad) : Quad :=
  transformQuadWith floatDot H q

/-- Third component of `H * (cx, cy, 1)`, the homogeneous coordinate. -/
def homogeneousCoord (H : Matrix3f) (q : Quad) : ℚ :=
  floatDot H.m20 H.m21 H.m22 (roundFloat (q.centre.x : ℚ)) (roundFloat (q.centre.y : ℚ)) 1

/-- The scan for the top quad: `topQuad`/`topIndex` are replaced by every quad
whose centre is strictly higher than the current `topQuad`. The last argument
is the loop index `i`. -/
def findTop : List Quad → Quad → Nat → Nat → Quad × Nat
  | [], topQuad, topIndex, _ => (topQuad, topIndex)
  | q :: rest, topQuad, topIndex, i =>
    if q.centre.y < topQuad.centre.y then findTop rest q i (i + 1)
    else findTop rest topQuad topIndex (i + 1)

/-- Initial value of `topQuad`: default-constructed, centre `(100000, 100000)`. -/
def initialTopQuad : Quad :=
  { defaultQuad with centre := ⟨100000, 100000⟩ }

/-- The value `margin`: `int margin = L2norm(topQuad.centre - topQuad.points[0])`. -/
def rowMargin (topQuad : Quad) : Int :=
  floatValueToInt (L2norm (topQuad.centre.sub (topQuad.points.getD 0 ⟨0, 0⟩)))

/-- Row test of the inner loop:
`abs(q.centre.y - topQuad.centre.y) < margin / 2 && q.centre != topQuad.centre`,
in `int` arithmetic (the division truncates toward zero). -/
def inRow (topQuad : Quad) (margin : Int) (q : Quad) : Bool :=
  decide (wrapInt32 ((wrapInt32 (q.centre.y - topQuad.centre.y)).natAbs : Int)
      < Int.tdiv margin 2)
    && decide (q.centre ≠ topQuad.centre)

/-- The inner `while (true)` loop: each pass looks for the first remaining
quad of the row, appends it to `thisRow` and erases it; the loop ends with the
first pass that finds none. The first argument bounds the number of passes. -/
def collectRow (topQuad : Quad) (margin : Int) : Nat → List Quad → List Quad → List Quad × List Quad
  | 0, localQuads, thisRow => (localQuads, thisRow)
  | fuel + 1, localQuads, thisRow =>
    match localQuads.findIdx? (inRow topQuad margin) with
    | none => (localQuads, thisRow)
    | some i =>
      match localQuads.get? i with
      | none => (localQuads, thisRow)
      | some q => collectRow topQuad margin fuel (localQuads.eraseIdx i) (thisRow ++ [q])

/-- Modelled from the spec: the comparator `OrderTwoQuadsByAscendingCentreX`
is declared outside `Calibration.cpp`; the row is sorted "by ascending
horizontal coordinate". -/
def OrderTwoQuadsByAscendingCentreX (a b : Quad) : Bool :=
  decide (a.centre.x < b.centre.x)

/-- Order produced by `std::sort` with that comparator: `a` may stand before
`b` when `b` is not strictly before `a`. -/
def notAfter (a b : Quad) : Prop :=
  OrderTwoQuadsByAscendingCentreX b a = false

instance notAfterDecidable : DecidableRel notAfter :=
  fun a b => inferInstanceAs (Decidable (OrderTwoQuadsByAscendingCentreX b a = false))

/-- The call `sort(thisRow.begin(), thisRow.end(), OrderTwoQuadsByAscendingCentreX)`. -/
def sortRow (thisRow : List Quad) : List Quad :=
  List.insertionSort notAfter thisRow

/-- The numbering loop: `thisRow[n].number = quadNumber; quadNumber++`. -/
def assignNumbers : List Quad → Nat → List Quad
  | [], _ => []
  | q :: rest, quadNumber =>
    { q with number := (quadNumber : Int) } :: assignNumbers rest (quadNumber + 1)

/-- One pass of the outer loop on a non-empty `localQuads`: returns the
remaining quads and the sorted, numbered row. -/
def rowPass (localQuads : List Quad) (quadNumber : Nat) : List Quad × List Quad :=
  let top := findTop localQuads initialTopQuad 0 0
  let topQuad := top.1
  let afterErase := localQuads.eraseIdx top.2
  let margin := rowMargin topQuad
  let collected := collectRow topQuad margin afterErase.length afterErase [topQuad]
  (collected.1, assignNumbers (sortRow collected.2) quadNumber)

/-- The outer loop `while (!localQuads.empty())` with its cap
`if (quadNumber > 200) break;`. The first argument bounds the number of
passes; every pass erases at least one quad, so `localQuads.length` passes
are enough. -/
def numberLoop : Nat → List Quad → List Quad → Nat → List Quad
  | 0, _, orderedQuads, _ => orderedQuads
  | fuel + 1, localQuads, orderedQuads, quadNumber =>
    if localQuads.isEmpty then orderedQuads
    else if quadNumber > 200 then orderedQuads
    else
      let pass := rowPass localQuads quadNumber
      numberLoop fuel pass.1 (orderedQuads ++ pass.2) (quadNumber + pass.2.length)

/-- Second and third part of `TransformAndNumberQuads`: the numbering of the
already transformed quads; the result is the final content of `quads`. -/
def numberQuads (quads : List Quad) : List Quad :=
  numberLoop quads.length quads [] 1

/-- The function `TransformAndNumberQuads(H, quads)`; the result is the content
of `quads` when the function returns. -/
def TransformAndNumberQuads (H : Matrix3f) (quads : List Quad) : List Quad :=
  numberQuads (quads.map (transformQuad H))

/-- The function `TransformAndNumberQuads(H, quads)` for any way `dot` of
computing the entries of `H * x` (any order of the `float` sums, with or
without fused multiply-add). `TransformAndNumberQuads H quads` is
`TransformAndNumberQuadsWith floatDot H quads`. -/
def TransformAndNumberQuadsWith (dot : ℚ → ℚ → ℚ → ℚ → ℚ → ℚ → ℚ) (H : Matrix3f)
    (quads : List Quad) : List Quad :=
  numberQuads (quads.map (transformQuadWith dot H))

/-! ## Notions used to state the properties -/

/-- A quad with its grid number reset: two quads are the same quad, numbers
apart, when they agree after `eraseNumber`. -/
def eraseNumber (q : Quad) : Quad :=
  { q with number := 0 }

/-- Row `r` of a grid given by its cells `g r c`, columns `0 ≤ c < W`, left to
right. -/
def gridRow (g : Nat → Nat → Quad) (W r : Nat) : List Quad :=
  (List.range W).map (g r)

/-- Row-major list of `n` rows of the grid, starting with row `r`. -/
def gridRows (g : Nat → Nat → Quad) (W : Nat) : Nat → Nat → List Quad
  | _, 0 => []
  | r, n + 1 => gridRow g W r ++ gridRows g W (r + 1) n

/-- The `W * H` quads of a grid in row-major order. -/
def gridList (g : Nat → Nat → Quad) (W H : Nat) : List Quad :=
  gridRows g W 0 H

/-- An axis-aligned grid of `H` rows and `W` columns: the quads of one row
share one centre `y`, centre `y` strictly increases with the row index and
centre `x` strictly increases with the column index. -/
structure AxisAlignedGrid (g : Nat → Nat → Quad) (W H : Nat) : Prop where
  sameRow : ∀ r < H, ∀ c < W, ∀ c' < W, (g r c).centre.y = (g r c').centre.y
  rowsDown : ∀ r < H, ∀ r' < H, r < r' → ∀ c < W, ∀ c' < W,
    (g r c).centre.y < (g r' c').centre.y
  columnsRight : ∀ r < H, ∀ c < W, ∀ c' < W, c < c' → (g r c).centre.x < (g r c').centre.x

/-- The centre of a quad is kept by the conversion to `float` and back: both
coordinates are at most `2^24` in absolute value. -/
def CentreExact (q : Quad) : Prop :=
  -16777216 ≤ q.centre.x ∧ q.centre.x ≤ 16777216
    ∧ -16777216 ≤ q.centre.y ∧ q.centre.y ≤ 16777216

instance centreExactDecidable (q : Quad) : Decidable (CentreExact q) :=
  inferInstanceAs (Decidable (_ ∧ _ ∧ _ ∧ _))

/-- What the reprojection and the row test of `TransformAndNumberQuads` need
from the grid: all centres are kept by the conversion to `float`, all centres
are above the initial `topQuad` (`y < 100000`), half the margin of every quad
(the value `margin / 2` the code computes) is at least one pixel, and at most
the distance down to any lower row. -/
structure RowsResolved (g : Nat → Nat → Quad) (W H : Nat) : Prop where
  centreExact : ∀ r < H, ∀ c < W, CentreExact (g r c)
  belowSentinel : ∀ r < H, ∀ c < W, (g r c).centre.y < 100000
  marginWide : ∀ r < H, ∀ c < W, 1 ≤ Int.tdiv (rowMargin (g r c)) 2
  marginNarrow : ∀ r < H, ∀ r' < H, r < r' → ∀ c < W, ∀ c' < W,
    Int.tdiv (rowMargin (g r c)) 2 ≤ (g r' c').centre.y - (g r c).centre.y

/-- The identity-homography numbering claim for one grid cell: the quad of
row `r`, column `c` stands at position `r * W + c` of the list left by
`TransformAndNumberQuads` and carries the number `r * W + c + 1`. -/
def NumberedRowMajor (g : Nat → Nat → Quad) (W : Nat) (quads : List Quad) (r c : Nat) : Prop :=
  (TransformAndNumberQuads Matrix3f.identity quads).get? (r * W + c)
    = some { g r c with number := ((r * W + c + 1 : Nat) : Int) }

/-- The pool is deduplicated: for every two quads `a`, `b` with `a` stored
before `b`, the distance between the centres is not less than one quarter of
the longest diagonal of `a` (`dist^2 < diag^2 / 16` does not hold). -/
def Deduplicated (pool : List Quad) : Prop :=
  pool.Pairwise (fun a b => ¬ 16 * distSq b.centre a.centre < longestDiagonalSq a)

/-- The first non-empty detection set of a run: the one the merge step keeps
whole, because the pool is still empty when it arrives. -/
def firstBatch : List (List Quad) → List Quad
  | [] => []
  | s :: rest => if s.isEmpty then firstBatch rest else s

/-- Invariant of the merge loop over a pool `base ++ added`: the quads added
after `base` are far from everything stored before them. -/
def AddedFar (base added : List Quad) : Prop :=
  added.Pairwise (fun a b => closeTo b a = false)
    ∧ ∀ a ∈ base, ∀ b ∈ added, closeTo b a = false

/-- Every used association slot is answered: if slot `k` of `A` holds
`(B, j)`, then slot `j` of the quad with identifier `B` holds `(A, k)`. -/
def SymmetricLinks (quads : List Quad) : Prop :=
  ∀ A ∈ quads, ∀ k < 4, (slotOf A k).1 ≠ -1 →
    ∀ B ∈ quads, B.id = (slotOf A k).1 →
      slotOf B (slotOf A k).2.toNat = (A.id, (k : Int))

/-- The link degree of every quad is the number of its non-empty association
slots, and lies between 0 and 4. -/
def DegreeCountsSlots (quads : List Quad) : Prop :=
  ∀ q ∈ quads, q.numLinkedCorners = (linkedSlots q : Int)
    ∧ 0 ≤ q.numLinkedCorners ∧ q.numLinkedCorners ≤ 4

/-- Result of a finished run, mapped; `fault` and `timeout` are kept. -/
def Outcome.map {α β : Type} (f : α → β) : Outcome α → Outcome β
  | Outcome.done a => Outcome.done (f a)
  | Outcome.fault => Outcome.fault
  | Outcome.timeout => Outcome.timeout

/-! ## `CheckerDetection` as a whole -/

/-- The function `CheckerDetection(checkerboard, quads, debug)` in terms of
what its collaborators deliver: `thresholdOk` is the result of
`GaussianThreshold`, `sets` holds `quadsThisIteration` of every erosion
iteration that reaches the merge step (an iteration whose `Erode` or
`FindContours` fails is left by `continue` and contributes nothing), `quads`
is the content of the vector passed in. The result is the returned flag and
the content of `quads` on return. -/
def CheckerDetection (thresholdOk : Bool) (sets : List (List Quad)) (quads : List Quad) :
    Bool × List Quad :=
  if !thresholdOk then (false, quads)
  else
    let pool := sets.foldl mergeDetections quads
    let linked := linkCorners pool
    if linked.length < 24 then (false, linked) else (true, linked)

/-- The outer numbering loop of `TransformAndNumberQuads` once more, reporting
`timeout` when the bound on the number of passes is used up before the loop
has ended. -/
def numberLoopBounded : Nat → List Quad → List Quad → Nat → Outcome (List Quad)
  | 0, _, _, _ => Outcome.timeout
  | fuel + 1, localQuads, orderedQuads, quadNumber =>
    if localQuads.isEmpty then Outcome.done orderedQuads
    else if quadNumber > 200 then Outcome.done orderedQuads
    else
      let pass := rowPass localQuads quadNumber
      numberLoopBounded fuel pass.1 (orderedQuads ++ pass.2) (quadNumber + pass.2.length)

/-- The inner loop `while (true)` of `TransformAndNumberQuads` once more,
reporting `timeout` when the bound on the number of passes is used up before
a pass has found no further quad of the row. -/
def collectRowBounded (topQuad : Quad) (margin : Int) :
    Nat → List Quad → List Quad → Outcome (List Quad × List Quad)
  | 0, _, _ => Outcome.timeout
  | fuel + 1, localQuads, thisRow =>
    match localQuads.findIdx? (inRow topQuad margin) with
    | none => Outcome.done (localQuads, thisRow)
    | some i =>
      match localQuads.get? i with
      | none => Outcome.done (localQuads, thisRow)
      | some q =>
        collectRowBounded topQuad margin fuel (localQuads.eraseIdx i) (thisRow ++ [q])

/-! ## `ComputeIntrinsicsAndExtrinsicFromHomography` -/

/-- Product of two 3x3 matrices, `A * B`. -/
def Matrix3f.mul (A B : Matrix3f) : Matrix3f :=
  { m00 := A.m00 * B.m00 + A.m01 * B.m10 + A.m02 * B.m20
    m01 := A.m00 * B.m01 + A.m01 * B.m11 + A.m02 * B.m21
    m02 := A.m00 * B.m02 + A.m01 * B.m12 + A.m02 * B.m22
    m10 := A.m10 * B.m00 + A.m11 * B.m10 + A.m12 * B.m20
    m11 := A.m10 * B.m01 + A.m11 * B.m11 + A.m12 * B.m21
    m12 := A.m10 * B.m02 + A.m11 * B.m12 + A.m12 * B.m22
    m20 := A.m20 * B.m00 + A.m21 * B.m10 + A.m22 * B.m20
    m21 := A.m20 * B.m01 + A.m21 * B.m11 + A.m22 * B.m21
    m22 := A.m20 * B.m02 + A.m21 * B.m12 + A.m22 * B.m22 }

/-- Determinant of a 3x3 matrix. -/
def Matrix3f.det (A : Matrix3f) : ℚ :=
  A.m00 * (A.m11 * A.m22 - A.m12 * A.m21) - A.m01 * (A.m10 * A.m22 - A.m12 * A.m20)
    + A.m02 * (A.m10 * A.m21 - A.m11 * A.m20)

/-- The call `A.inverse()` for a fixed-size 3x3 matrix: the cofactors divided
by the determinant. -/
def Matrix3f.inverse (A : Matrix3f) : Matrix3f :=
  { m00 := (A.m11 * A.m22 - A.m12 * A.m21) / A.det
    m01 := (A.m02 * A.m21 - A.m01 * A.m22) / A.det
    m02 := (A.m01 * A.m12 - A.m02 * A.m11) / A.det
    m10 := (A.m12 * A.m20 - A.m10 * A.m22) / A.det
    m11 := (A.m00 * A.m22 - A.m02 * A.m20) / A.det
    m12 := (A.m02 * A.m10 - A.m00 * A.m12) / A.det
    m20 := (A.m10 * A.m21 - A.m11 * A.m20) / A.det
    m21 := (A.m01 * A.m20 - A.m00 * A.m21) / A.det
    m22 := (A.m00 * A.m11 - A.m01 * A.m10) / A.det }

/-- Dot product of the first two columns of `T`, `T.col(0).dot(T.col(1))`. -/
def Matrix3f.dotCol01 (T : Matrix3f) : ℚ :=
  T.m00 * T.m01 + T.m10 * T.m11 + T.m20 * T.m21

/-- The function `ComputeIntrinsicsAndExtrinsicFromHomography(H, K, T)`.
`matrixL` stands for the library calls `ldlt.compute(H); ldlt.matrixL()` of
Eigen; `K` and `T` are the contents of the output matrices before the call.
The result is the returned flag and the contents of `K` and `T` on return:
`K = L` and `T = DLT` are assigned before the test of the dot product. -/
def ComputeIntrinsicsAndExtrinsicFromHomography (matrixL : Matrix3f → Matrix3f)
    (H _K _T : Matrix3f) : Bool × Matrix3f × Matrix3f :=
  let K1 := matrixL H
  let DLT := K1.inverse.mul H
  let T1 := DLT
  if T1.dotCol01 ≠ 0 then (false, K1, T1) else (true, K1, T1)

/-- The unit lower-triangular factor `L` of the decomposition
`H = L D L^T`, computed from the lower triangle of `H` as Eigen's `LDLT`
does when it has no rows to exchange (Eigen first moves the largest
remaining diagonal entry to the front; the model covers the matrices for
which that entry is already in front, and non-zero pivots). -/
def ldltMatrixL (H : Matrix3f) : Matrix3f :=
  let d0 := H.m00
  let l10 := H.m10 / d0
  let l20 := H.m20 / d0
  let d1 := H.m11 - l10 * (d0 * l10)
  let l21 := (H.m21 - l20 * (d0 * l10)) / d1
  { m00 := 1, m01 := 0, m02 := 0
    m10 := l10, m11 := 1, m12 := 0
    m20 := l20, m21 := l21, m22 := 1 }

/-- A matrix is upper-triangular: every entry below the diagonal is zero. -/
def Matrix3f.IsUpperTriangular (A : Matrix3f) : Prop :=
  A.m10 = 0 ∧ A.m20 = 0 ∧ A.m21 = 0

/-- The walk of `FindCornerFromEdgeQuad` from `branch` never ends: whatever
the number of passes allowed, the loop is still running. -/
def NeverReturns (root branch : Quad) (quads : List Quad) : Prop :=
  ∀ fuel, FindCornerFromEdgeQuad fuel root branch quads = Outcome.timeout

/-- The detected corner that `MatchCornersForHomography` starts from:
`corners[0]`, the first quad of link degree 1. -/
def startCorner (quads : List Quad) : Quad :=
  (detectedCorners quads).getD 0 defaultQuad

/-- In the list of correspondences `m`, every detected corner paired with the
ground-truth point `topLeft` has the smallest sum `x + y` among the centres
of the detected corners. -/
def TopLeftHasSmallestSum (topLeft : Point) (corners : List Quad)
    (m : List (Point × Point)) : Prop :=
  ∀ p ∈ m, p.1 = topLeft → ∀ c ∈ corners, p.2.x + p.2.y ≤ c.centre.x + c.centre.y

/-- Number of corners among `pts` (the four corners of a quad) that lie
inside the rectangle of the two centres. -/
def qualifyingCount (pts : List Point) (q1 q2 : Quad) : Nat :=
  (pts.take 4).countP (fun p => DoesPointLieWithinQuadOfTwoCentres p q1 q2)

/-- The point written to both matched corners: the midpoint of corner `a` of
`q1` and corner `b` of `q2`, with the integer division of C. -/
def linkedCorner (q1 q2 : Quad) (a b : Nat) : Point :=
  ⟨Int.tdiv ((q1.points.getD a ⟨0, 0⟩).x + (q2.points.getD b ⟨0, 0⟩).x) 2,
    Int.tdiv ((q1.points.getD a ⟨0, 0⟩).y + (q2.points.getD b ⟨0, 0⟩).y) 2⟩

/-- The quad `q` after a corner match through its corner `a` with corner `b`
of the quad with identifier `other`: corner overwritten, association slot
written, counter incremented. -/
def linkedQuad (q : Quad) (a : Nat) (corner : Point) (other : Int) (b : Nat) : Quad :=
  { q with
    points := q.points.set a corner
    associatedCorners := q.associatedCorners.set a (other, (b : Int))
    numLinkedCorners := q.numLinkedCorners + 1 }

/-! ## Notions for the linking of a synthetic checkerboard -/

/-- What the linking loop reads of a quad to decide on a match: its corners
and its centre. -/
def geometry (q : Quad) : List Point × Point :=
  (q.points, q.centre)

/-- The decision of the linking loop for the pair `(q1, q2)`, `q1` being the
quad of the outer loop: the pair passes the distance test and both quads have
a corner inside the rectangle of the two centres. -/
def wouldLink (q1 q2 : Quad) : Bool :=
  !tooFar (longestDiagonalSq q1) q1 q2 && (firstCornerWithin q1.points q1 q2).isSome
    && (firstCornerWithin q2.points q1 q2).isSome

/-- The two corners that a match of `q1` and `q2` links are one and the same
point: overwriting them with their midpoint leaves the corners where they
are. -/
def CornersCoincide (q1 q2 : Quad) : Prop :=
  tooFar (longestDiagonalSq q1) q1 q2 = false →
    ∀ a b, firstCornerWithin q1.points q1 q2 = some a →
      firstCornerWithin q2.points q1 q2 = some b →
      q1.points.set a (linkedCorner q1 q2 a b) = q1.points
        ∧ q2.points.set b (linkedCorner q1 q2 a b) = q2.points

/-- Link degree of the quad at position `k` of the list (`0` outside it). -/
def degreeAt (s : List Quad) (k : Nat) : Int :=
  (s.getD k defaultQuad).numLinkedCorners

/-- What the pair `(i, j)` of the linking loop adds to the link degree of the
quad at position `k`. -/
def pairGain (quads : List Quad) (i j k : Nat) : Int :=
  if wouldLink (quads.getD i defaultQuad) (quads.getD j defaultQuad) = true then
    (if k = i then 1 else 0) + (if k = j then 1 else 0)
  else 0

/-! ## Concrete inputs -/

/-- A square quad of side `2 * h` centred at `(cx, cy)`, corners clockwise from
the top-left one, with empty association table, as `CheckerDetection` creates
it. -/
def squareQuad (i : Int) (cx cy h : Int) : Quad :=
  { id := i
    points := [⟨cx - h, cy - h⟩, ⟨cx + h, cy - h⟩, ⟨cx + h, cy + h⟩, ⟨cx - h, cy + h⟩]
    centre := ⟨cx, cy⟩
    number := 0
    associatedCorners := [(-1, -1), (-1, -1), (-1, -1), (-1, -1)]
    numLinkedCorners := 0 }

/-- The homography `2 * I`: it maps `(x, y, 1)` to `(2x, 2y, 2)`, the same
plane point as `(x, y)`. -/
def scaleTwo : Matrix3f :=
  { m00 := 2, m01 := 0, m02 := 0
    m10 := 0, m11 := 2, m12 := 0
    m20 := 0, m21 := 0, m22 := 2 }

/-- A grid of squares of side 10 at a pitch of 20 pixels: the cell of row `r`,
column `c` is centred at `(20 c + 5, 20 r + 5)` and has identifier `8 r + c`. -/
def pitch20 (r c : Nat) : Quad :=
  squareQuad (8 * (r : Int) + (c : Int)) (20 * (c : Int) + 5) (20 * (r : Int) + 5) 5

/-- A grid of squares of side 2 on one row: the cell of column `c` is centred
at `(10 c, 0)`; the margin of each quad is `1`. -/
def tinyCells (_r c : Nat) : Quad :=
  squareQuad (c : Int) (10 * (c : Int)) 0 1

/-- Three detections: a square of side 8 at `(10, 10)`, a square of side 6 at
`(20, 20)` that touches it diagonally, and a small spurious square of side 2
at `(25, 16)`; no two of them overlap. -/
def spuriousTriple : List Quad :=
  [squareQuad 0 10 10 4, squareQuad 1 20 20 3, squareQuad 2 25 16 1]

/-- The square `squareQuad i cx cy h` with its corners listed from the `k`-th
one on (the winding is the same, the first corner differs). -/
def squareQuadFrom (k : Nat) (i : Int) (cx cy h : Int) : Quad :=
  { squareQuad i cx cy h with points := (squareQuad i cx cy h).points.rotate k }

/-- The dark squares of a checkerboard of 3 rows and 5 columns (cells of side
20, squares shrunk to side 16 by the erosion), in row-major order, before
linking. The corners of quads 0 and 3 are listed from their second corner. -/
def rawBoard : List Quad :=
  [ squareQuadFrom 1 0 10 10 8, squareQuad 1 50 10 8, squareQuad 2 90 10 8,
    squareQuadFrom 1 3 30 30 8, squareQuad 4 70 30 8,
    squareQuad 5 10 50 8, squareQuad 6 50 50 8, squareQuad 7 90 50 8 ]

/-- The board after the corner-linking loop of `CheckerDetection`. -/
def linkedBoard : List Quad :=
  linkCorners rawBoard

/-- The ground truth of the same board: the eight squares at full size. -/
def groundTruthBoard : List Quad :=
  [ squareQuad 0 10 10 10, squareQuad 1 50 10 10, squareQuad 2 90 10 10,
    squareQuad 3 30 30 10, squareQuad 4 70 30 10,
    squareQuad 5 10 50 10, squareQuad 6 50 50 10, squareQuad 7 90 50 10 ]

/-- The zero matrix. -/
def zeroMatrix : Matrix3f :=
  { m00 := 0, m01 := 0, m02 := 0
    m10 := 0, m11 := 0, m12 := 0
    m20 := 0, m21 := 0, m22 := 0 }

/-- A shear: its first two columns `(1, 0, 0)` and `(1, 1, 0)` are not
orthogonal, and its lower triangle is that of the identity. -/
def shearMatrix : Matrix3f :=
  { m00 := 1, m01 := 1, m02 := 0
    m10 := 0, m11 := 1, m12 := 0
    m20 := 0, m21 := 0, m22 := 1 }

/-- A matrix with diagonal `4, 3, 1` and the entry `2` below the diagonal; its
factor `L` has the entry `1/2` below the diagonal. -/
def lowerMatrix : Matrix3f :=
  { m00 := 4, m01 := 0, m02 := 0
    m10 := 2, m11 := 3, m12 := 0
    m20 := 0, m21 := 0, m22 := 1 }

/-- Four squares of side 20 that meet at their corners: quad 0 at `(50, 50)`,
quad 1 up-left of it at `(30, 30)`, quad 2 down-left of it at `(30, 70)`, and
quad 3 up-left of quad 1 at `(10, 10)`, before linking. -/
def rawChain : List Quad :=
  [squareQuad 0 50 50 10, squareQuad 1 30 30 10, squareQuad 2 30 70 10, squareQuad 3 10 10 10]

/-- The four squares after the corner-linking loop of `CheckerDetection`:
the chain 3 - 1 - 0 - 2. -/
def linkedChain : List Quad :=
  linkCorners rawChain

/-- The same checkerboard of 3 rows and 5 columns before linking, in another
order: the top-right corner square comes first, then the bottom-left corner
square. The corners of quads 2 and 3 are listed from their fourth corner. -/
def rawBoardFromTopRight : List Quad :=
  [ squareQuad 0 90 10 8, squareQuad 1 10 50 8,
    squareQuadFrom 3 2 70 30 8, squareQuadFrom 3 3 50 10 8,
    squareQuad 4 10 10 8, squareQuad 5 30 30 8, squareQuad 6 50 50 8, squareQuad 7 90 50 8 ]

/-- That board after the corner-linking loop of `CheckerDetection`. -/
def linkedBoardFromTopRight : List Quad :=
  linkCorners rawBoardFromTopRight

/-- A rectangle of 8 by 16 (in units of the square root of 2), turned by 45
degrees and centred at `(10, 10)`, and a square of side 12 centred at
`(20, 20)` that touches it in one point. Two corners of the rectangle,
`(16, 12)` and `(12, 16)`, lie inside the rectangle of the two centres. -/
def slantedPair : List Quad :=
  [ { id := 0
      points := [⟨16, 12⟩, ⟨12, 16⟩, ⟨4, 8⟩, ⟨8, 4⟩]
      centre := ⟨10, 10⟩
      number := 0
      associatedCorners := [(-1, -1), (-1, -1), (-1, -1), (-1, -1)]
      numLinkedCorners := 0 },
    squareQuad 1 20 20 6 ]

/-- Two rows of one square of side 10 each (`W = 1`, `H = 2`): the square of
row 0 is centred at `(20, 10)`, the square of row 1 at `(10, 12)`, only 2
pixels lower, while half the margin of a square is 3. -/
def closeRows (r _c : Nat) : Quad :=
  squareQuad (r : Int) (20 - 10 * (r : Int)) (10 + 2 * (r : Int)) 5

/-- A grid of one square of side 10 (`W = 1`, `H = 1`) centred at
`(50, 100000)`: its centre is not above the initial `topQuad`. -/
def sentinelCell (_r _c : Nat) : Quad :=
  squareQuad 0 50 100000 5

/-- One row of two squares of side 10 (`W = 2`, `H = 1`) centred at
`(2^24, 50)` and `(2^24 + 1, 50)`; the second `x` is not a `float` value. -/
def farCells (_r c : Nat) : Quad :=
  squareQuad (c : Int) (16777216 + (c : Int)) 50 5

/-- A flat rectangle of 4100 by 1 pixels centred at `(2050, 0)`: the square of
its diagonal is `4100^2 + 1`, so the diagonal is `4100.000122`, which
`float` rounds to `4100`. -/
def flatQuad : Quad :=
  { id := 0
    points := [⟨0, 0⟩, ⟨4100, 0⟩, ⟨4100, 1⟩, ⟨0, 1⟩]
    centre := ⟨2050, 0⟩
    number := 0
    associatedCorners := [(-1, -1), (-1, -1), (-1, -1), (-1, -1)]
    numLinkedCorners := 0 }

/-! ## Notions for a synthetic checkerboard -/

/-- Dark square of the cell in row `rc.1` and column `rc.2` of a synthetic
checkerboard with cells of side `2 * h`: an axis-aligned square that fills its
cell, so that diagonal neighbours meet exactly at a corner. Its identifier is
the row-major index of the cell for a board of `W` columns; the association
table is empty and the counter is `0`. -/
def boardSquare (W : Nat) (h : Int) (rc : Nat × Nat) : Quad :=
  squareQuad ((rc.1 * W + rc.2 : Nat) : Int) (2 * h * rc.2 + h) (2 * h * rc.1 + h) h

/-- The dark cells `(row, column)` of a checkerboard of `H` rows and `W`
columns of cells whose top-left cell is dark, row by row. -/
def darkCells (W H : Nat) : List (Nat × Nat) :=
  ((List.range H).product (List.range W)).filter (fun rc => decide ((rc.1 + rc.2) % 2 = 0))

/-- Two cells are diagonal neighbours: their squares meet at a corner. -/
def cellsTouch (a b : Nat × Nat) : Bool :=
  decide ((b.1 = a.1 + 1 ∨ a.1 = b.1 + 1) ∧ (b.2 = a.2 + 1 ∨ a.2 = b.2 + 1))

/-- The cell lies in the first or in the last row of a board of `H` rows. -/
def onOuterRow (H : Nat) (rc : Nat × Nat) : Bool :=
  decide (rc.1 = 0 ∨ rc.1 + 1 = H)

/-- The cell lies in the first or in the last column of a board of `W`
columns. -/
def onOuterColumn (W : Nat) (rc : Nat × Nat) : Bool :=
  decide (rc.2 = 0 ∨ rc.2 + 1 = W)

/-- Link degree that the topology of the board gives a cell: `1` for a cell in
a corner of the board, `2` for another cell on its border, `4` for a cell
inside. -/
def gridDegree (W H : Nat) (rc : Nat × Nat) : Int :=
  if (onOuterRow H rc && onOuterColumn W rc) = true then 1
  else if (onOuterRow H rc || onOuterColumn W rc) = true then 2
  else 4

/-- Number of quads whose link degree (the counter `numLinkedCorners`) is `1`. -/
def degreeOneCount (quads : List Quad) : Nat :=
  quads.countP (fun q => decide (q.numLinkedCorners = 1))

/-- The eight dark squares of a checkerboard of 4 rows and 4 columns of cells
of side 16, before linking. Only two corner cells of this board are dark. -/
def evenBoard : List Quad :=
  (darkCells 4 4).map (boardSquare 4 8)

/-! # Theorems -/

/-! ## Square roots -/

lemma lt_two_pow_bitLength (fuel : Nat) : ∀ n, n ≤ fuel → n < 2 ^ bitLength fuel n := by
  induction fuel with
  | zero => intro n h; simp [bitLength]; omega
  | succ fuel ih =>
    intro n h
    unfold bitLength
    split
    · rename_i h0; subst h0; simp
    · rename_i h0
      have h2 := ih (n / 2) (by omega)
      rw [Nat.pow_succ]
      omega

lemma isqrtAux_spec (n : Nat) : ∀ (b acc : Nat), acc * acc ≤ n →
    n < (acc + 2 ^ b) * (acc + 2 ^ b) →
    isqrtAux n b acc * isqrtAux n b acc ≤ n
      ∧ n < (isqrtAux n b acc + 1) * (isqrtAux n b acc + 1) := by
  intro b
  induction b with
  | zero => intro acc h1 h2; simpa [isqrtAux] using ⟨h1, h2⟩
  | succ b ih =>
    intro acc h1 h2
    unfold isqrtAux
    split
    · rename_i h
      apply ih _ h
      have e : acc + 2 ^ b + 2 ^ b = acc + 2 ^ (b + 1) := by rw [Nat.pow_succ]; omega
      rw [e]; exact h2
    · rename_i h
      exact ih acc h1 (by omega)

lemma isqrt_spec (n : Nat) : isqrt n * isqrt n ≤ n ∧ n < (isqrt n + 1) * (isqrt n + 1) := by
  have hlt : n < 2 ^ bitLength n n := lt_two_pow_bitLength n n (Nat.le_refl _)
  have hle : 2 ^ bitLength n n ≤ 2 ^ bitLength n n * 2 ^ bitLength n n :=
    Nat.le_mul_of_pos_right _ (Nat.pow_pos (by omega))
  exact isqrtAux_spec n (bitLength n n) 0 (by simp) (by simp only [Nat.zero_add]; omega)

/-- The value `isqrt n` is the integer part of the square root of `n`. -/
lemma isqrt_eq_sqrt (n : Nat) : isqrt n = Nat.sqrt n := by
  have hlt : n < 2 ^ bitLength n n := lt_two_pow_bitLength n n (Nat.le_refl _)
  have hle : 2 ^ bitLength n n ≤ 2 ^ bitLength n n * 2 ^ bitLength n n :=
    Nat.le_mul_of_pos_right _ (Nat.pow_pos (by omega))
  have h := isqrtAux_spec n (bitLength n n) 0 (by simp) (by simp only [Nat.zero_add]; omega)
  exact Nat.eq_sqrt.2 h

lemma isqrt_pos (n : Nat) (h : 0 < n) : 0 < isqrt n := by
  rw [isqrt_eq_sqrt]
  exact Nat.sqrt_pos.2 h

lemma bitLength_pos (fuel n : Nat) (h0 : 0 < n) (h : n ≤ fuel) : 0 < bitLength fuel n := by
  cases fuel with
  | zero => omega
  | succ fuel =>
    unfold bitLength
    rw [if_neg (by omega)]
    omega

lemma two_pow_bitLength_le (fuel : Nat) :
    ∀ n, 0 < n → n ≤ fuel → 2 ^ (bitLength fuel n - 1) ≤ n := by
  induction fuel with
  | zero => intro n h0 h; omega
  | succ fuel ih =>
    intro n h0 h
    unfold bitLength
    rw [if_neg (by omega), Nat.add_sub_cancel]
    by_cases h2 : n / 2 = 0
    · rw [h2]
      have hz : bitLength fuel 0 = 0 := by cases fuel <;> simp [bitLength]
      rw [hz]
      simpa using h0
    · have hpos := bitLength_pos fuel (n / 2) (by omega) (by omega)
      have hi := ih (n / 2) (by omega) (by omega)
      have e : 2 ^ bitLength fuel (n / 2) = 2 * 2 ^ (bitLength fuel (n / 2) - 1) := by
        rw [← Nat.pow_succ']
        congr 1
        omega
      rw [e]
      omega

lemma sq_le_sq_of_le {a b : Nat} (h : a ≤ b) : a * a ≤ b * b := Nat.mul_le_mul h h

/-- What `roundToBits` does with a mantissa `m` of more than `p` bits that
stands for a value `v` with `m^2 ≤ n < (m + 1)^2` for `v^2 = n` (`sticky`
says that `m^2 ≠ n`): the result `q * 2^drop` is a multiple of `2^drop`
nearest to `v`, and `q` has `p` bits or is `2^p`. -/
lemma roundToBits_nearest_root (p m n : Nat) (hp : 1 ≤ p) (hlen : p < bitLength m m)
    (h1 : m * m ≤ n) (h2 : n < (m + 1) * (m + 1)) :
    (roundToBits p m (decide (m * m ≠ n))).2 = bitLength m m - p
      ∧ (2 * (roundToBits p m (decide (m * m ≠ n))).1 * 2 ^ (bitLength m m - p)
            - 2 ^ (bitLength m m - p))
          * (2 * (roundToBits p m (decide (m * m ≠ n))).1 * 2 ^ (bitLength m m - p)
            - 2 ^ (bitLength m m - p)) ≤ 4 * n
      ∧ 4 * n ≤ (2 * (roundToBits p m (decide (m * m ≠ n))).1 * 2 ^ (bitLength m m - p)
            + 2 ^ (bitLength m m - p))
          * (2 * (roundToBits p m (decide (m * m ≠ n))).1 * 2 ^ (bitLength m m - p)
            + 2 ^ (bitLength m m - p))
      ∧ 2 ^ (p - 1) ≤ (roundToBits p m (decide (m * m ≠ n))).1
      ∧ (roundToBits p m (decide (m * m ≠ n))).1 ≤ 2 ^ p := by
  have hmpos : 0 < m := by
    by_contra hcon
    have : m = 0 := by omega
    subst this
    simp [bitLength] at hlen
  have hupper : m < 2 ^ bitLength m m := lt_two_pow_bitLength m m (Nat.le_refl _)
  have hlower : 2 ^ (bitLength m m - 1) ≤ m := two_pow_bitLength_le m m hmpos (Nat.le_refl _)
  -- abbreviations
  obtain ⟨d, hd⟩ : ∃ d, bitLength m m - p = d + 1 := ⟨bitLength m m - p - 1, by omega⟩
  have hlen' : bitLength m m = p + d + 1 := by omega
  have hdsub : bitLength m m - p - 1 = d := by omega
  have hD : 2 ^ (d + 1) = 2 * 2 ^ d := by rw [Nat.pow_succ]; omega
  have hDpos : 0 < 2 ^ d := Nat.pow_pos (by omega)
  have hdm := Nat.div_add_mod m (2 ^ (d + 1))
  have hmod : m % 2 ^ (d + 1) < 2 ^ (d + 1) := Nat.mod_lt _ (Nat.pow_pos (by omega))
  -- bounds on the quotient
  have hpow1 : 2 ^ (bitLength m m - 1) = 2 ^ (p - 1) * 2 ^ (d + 1) := by
    rw [← Nat.pow_add]; congr 1; omega
  have hpow2 : 2 ^ bitLength m m = 2 ^ p * 2 ^ (d + 1) := by
    rw [← Nat.pow_add]; congr 1
  have hq1 : 2 ^ (p - 1) ≤ m / 2 ^ (d + 1) := by
    rw [Nat.le_div_iff_mul_le (Nat.pow_pos (by omega))]
    rw [← hpow1]; exact hlower
  have hq2 : m / 2 ^ (d + 1) < 2 ^ p := by
    rw [Nat.div_lt_iff_lt_mul (Nat.pow_pos (by omega))]
    rw [← hpow2]; exact hupper
  have hqpos : 0 < m / 2 ^ (d + 1) := Nat.lt_of_lt_of_le (Nat.pow_pos (by omega)) hq1
  have hqD : 2 ^ (d + 1) ≤ 2 * (m / 2 ^ (d + 1)) * 2 ^ (d + 1) := by
    have : 1 ≤ 2 * (m / 2 ^ (d + 1)) := by omega
    calc 2 ^ (d + 1) = 1 * 2 ^ (d + 1) := by ring
      _ ≤ 2 * (m / 2 ^ (d + 1)) * 2 ^ (d + 1) := Nat.mul_le_mul_right _ this
  have e2 : 2 * (m / 2 ^ (d + 1)) * 2 ^ (d + 1) = 2 * (2 ^ (d + 1) * (m / 2 ^ (d + 1))) := by
    ring
  have h4n1 : (2 * m) * (2 * m) ≤ 4 * n := by
    have e : (2 * m) * (2 * m) = 4 * (m * m) := by ring
    omega
  have h4n2 : 4 * n < (2 * (m + 1)) * (2 * (m + 1)) := by
    have e : (2 * (m + 1)) * (2 * (m + 1)) = 4 * ((m + 1) * (m + 1)) := by ring
    omega
  -- the two possible results
  have hdown : ∀ (_ : 2 * (m + 1) ≤ 2 * (m / 2 ^ (d + 1)) * 2 ^ (d + 1) + 2 ^ (d + 1)
        ∨ (2 * m = 2 * (m / 2 ^ (d + 1)) * 2 ^ (d + 1) + 2 ^ (d + 1) ∧ m * m = n)),
      (2 * (m / 2 ^ (d + 1)) * 2 ^ (d + 1) - 2 ^ (d + 1))
          * (2 * (m / 2 ^ (d + 1)) * 2 ^ (d + 1) - 2 ^ (d + 1)) ≤ 4 * n
        ∧ 4 * n ≤ (2 * (m / 2 ^ (d + 1)) * 2 ^ (d + 1) + 2 ^ (d + 1))
          * (2 * (m / 2 ^ (d + 1)) * 2 ^ (d + 1) + 2 ^ (d + 1)) := by
    intro hcase
    constructor
    · have hle : 2 * (m / 2 ^ (d + 1)) * 2 ^ (d + 1) - 2 ^ (d + 1) ≤ 2 * m := by
        rw [e2]
        omega
      exact Nat.le_trans (sq_le_sq_of_le hle) h4n1
    · rcases hcase with hc | ⟨hc, hn⟩
      · exact Nat.le_trans (Nat.le_of_lt h4n2) (sq_le_sq_of_le hc)
      · rw [← hc, ← hn]
        have e : (2 * m) * (2 * m) = 4 * (m * m) := by ring
        omega
  have hup : ∀ (_ : 2 * (m / 2 ^ (d + 1)) * 2 ^ (d + 1) + 2 ^ (d + 1) ≤ 2 * m),
      (2 * (m / 2 ^ (d + 1) + 1) * 2 ^ (d + 1) - 2 ^ (d + 1))
          * (2 * (m / 2 ^ (d + 1) + 1) * 2 ^ (d + 1) - 2 ^ (d + 1)) ≤ 4 * n
        ∧ 4 * n ≤ (2 * (m / 2 ^ (d + 1) + 1) * 2 ^ (d + 1) + 2 ^ (d + 1))
          * (2 * (m / 2 ^ (d + 1) + 1) * 2 ^ (d + 1) + 2 ^ (d + 1)) := by
    intro hcase
    have e : 2 * (m / 2 ^ (d + 1) + 1) * 2 ^ (d + 1) - 2 ^ (d + 1)
        = 2 * (m / 2 ^ (d + 1)) * 2 ^ (d + 1) + 2 ^ (d + 1) := by
      have : 2 * (m / 2 ^ (d + 1) + 1) * 2 ^ (d + 1)
          = 2 * (m / 2 ^ (d + 1)) * 2 ^ (d + 1) + 2 ^ (d + 1) + 2 ^ (d + 1) := by ring
      omega
    constructor
    · rw [e]
      exact Nat.le_trans (sq_le_sq_of_le hcase) h4n1
    · have hle : 2 * (m + 1) ≤ 2 * (m / 2 ^ (d + 1) + 1) * 2 ^ (d + 1) + 2 ^ (d + 1) := by
        have : 2 * (m / 2 ^ (d + 1) + 1) * 2 ^ (d + 1)
            = 2 * (2 ^ (d + 1) * (m / 2 ^ (d + 1))) + 2 * 2 ^ (d + 1) := by ring
        omega
      exact Nat.le_trans (Nat.le_of_lt h4n2) (sq_le_sq_of_le hle)
  unfold roundToBits
  rw [if_neg (by omega), hd]
  simp only [Nat.add_sub_cancel]
  split_ifs with hA hB hC
  · -- remainder below half
    refine ⟨rfl, ?_, ?_, hq1, Nat.le_of_lt hq2⟩
    · exact (hdown (Or.inl (by rw [e2]; omega))).1
    · exact (hdown (Or.inl (by rw [e2]; omega))).2
  · -- remainder above half, or half and inexact
    have hge : 2 * (m / 2 ^ (d + 1)) * 2 ^ (d + 1) + 2 ^ (d + 1) ≤ 2 * m := by
      rw [e2]; omega
    exact ⟨rfl, (hup hge).1, (hup hge).2, by omega, by omega⟩
  · -- tie, even quotient
    have hr : m % 2 ^ (d + 1) = 2 ^ d := by omega
    have hn : m * m = n := by
      by_contra hcon
      exact hB (Or.inr (by simpa using hcon))
    refine ⟨rfl, ?_, ?_, hq1, Nat.le_of_lt hq2⟩
    · exact (hdown (Or.inr ⟨by rw [e2]; omega, hn⟩)).1
    · exact (hdown (Or.inr ⟨by rw [e2]; omega, hn⟩)).2
  · -- tie, odd quotient
    have hge : 2 * (m / 2 ^ (d + 1)) * 2 ^ (d + 1) + 2 ^ (d + 1) ≤ 2 * m := by
      rw [e2]; omega
    exact ⟨rfl, (hup hge).1, (hup hge).2, by omega, by omega⟩


/-- The value `sqrtRounded p s = q * 2^drop / 2^k` is a nearest value with `p`
significant bits to the square root of `s`: with the spacing
`u = 2^drop / 2^k` of such values, `(2 v - u)^2 ≤ 4 s ≤ (2 v + u)^2`, that is,
`|v - sqrt s| ≤ u / 2` (both sides are multiplied by `4^k` here). -/
lemma sqrtRounded_nearest (p s : Nat) (hp : 1 ≤ p) (hs : 0 < s) :
    ∃ q drop k, sqrtRounded p s = FloatValue.ofScaled q drop k
      ∧ 2 ^ (p - 1) ≤ q ∧ q ≤ 2 ^ p
      ∧ (2 * q * 2 ^ drop - 2 ^ drop) * (2 * q * 2 ^ drop - 2 ^ drop) ≤ 4 * (s * 4 ^ k)
      ∧ 4 * (s * 4 ^ k) ≤ (2 * q * 2 ^ drop + 2 ^ drop) * (2 * q * 2 ^ drop + 2 ^ drop) := by
  have ht := two_pow_bitLength_le s s hs (Nat.le_refl _)
  have htpos := bitLength_pos s s hs (Nat.le_refl _)
  have hspec := isqrt_spec (s * 4 ^ ((2 * p + 4 - bitLength s s) / 2))
  -- the scaled argument has at least `2 p + 3` bits
  have hbig : 2 ^ (p + 1) * 2 ^ (p + 1) ≤ s * 4 ^ ((2 * p + 4 - bitLength s s) / 2) := by
    have e4 : (4 : Nat) ^ ((2 * p + 4 - bitLength s s) / 2)
        = 2 ^ (2 * ((2 * p + 4 - bitLength s s) / 2)) := by
      rw [Nat.pow_mul]
    rw [e4, ← Nat.pow_add]
    calc 2 ^ (p + 1 + (p + 1))
        ≤ 2 ^ (bitLength s s - 1 + 2 * ((2 * p + 4 - bitLength s s) / 2)) :=
          Nat.pow_le_pow_right (by omega) (by omega)
      _ = 2 ^ (bitLength s s - 1) * 2 ^ (2 * ((2 * p + 4 - bitLength s s) / 2)) := by
          rw [Nat.pow_add]
      _ ≤ s * 2 ^ (2 * ((2 * p + 4 - bitLength s s) / 2)) := Nat.mul_le_mul_right _ ht
  have hm0 : 2 ^ (p + 1) ≤ isqrt (s * 4 ^ ((2 * p + 4 - bitLength s s) / 2)) := by
    by_contra hcon
    have h1 : isqrt (s * 4 ^ ((2 * p + 4 - bitLength s s) / 2)) + 1 ≤ 2 ^ (p + 1) := by omega
    have h2 := sq_le_sq_of_le h1
    omega
  have hlen : p < bitLength (isqrt (s * 4 ^ ((2 * p + 4 - bitLength s s) / 2)))
      (isqrt (s * 4 ^ ((2 * p + 4 - bitLength s s) / 2))) := by
    by_contra hcon
    have h1 := lt_two_pow_bitLength (isqrt (s * 4 ^ ((2 * p + 4 - bitLength s s) / 2)))
      (isqrt (s * 4 ^ ((2 * p + 4 - bitLength s s) / 2))) (Nat.le_refl _)
    have h2 : 2 ^ bitLength (isqrt (s * 4 ^ ((2 * p + 4 - bitLength s s) / 2)))
        (isqrt (s * 4 ^ ((2 * p + 4 - bitLength s s) / 2))) ≤ 2 ^ (p + 1) :=
      Nat.pow_le_pow_right (by omega) (by omega)
    omega
  obtain ⟨hr2, hlo, hhi, hq1, hq2⟩ := roundToBits_nearest_root p _ _ hp hlen hspec.1 hspec.2
  refine ⟨_, _, _, rfl, hq1, hq2, ?_, ?_⟩
  · rw [hr2]; exact hlo
  · rw [hr2]; exact hhi

/-- A mantissa of at most `p` bits is kept by the rounding to `p` bits. -/
lemma roundToBits_exact (p m : Nat) (sticky : Bool) (h : bitLength m m ≤ p) :
    roundToBits p m sticky = (m, 0) := by
  unfold roundToBits
  rw [if_pos h]

/-- Rounding a mantissa of more than `p` bits to `p` bits gives a nearest
multiple `q * 2^drop` of `2^drop`: `|q * 2^drop - m| ≤ 2^drop / 2`. -/
lemma roundToBits_nearest (p m : Nat) (hp : 1 ≤ p) (hlen : p < bitLength m m) :
    (roundToBits p m false).2 = bitLength m m - p
      ∧ 2 * (roundToBits p m false).1 * 2 ^ (bitLength m m - p) ≤ 2 * m + 2 ^ (bitLength m m - p)
      ∧ 2 * m ≤ 2 * (roundToBits p m false).1 * 2 ^ (bitLength m m - p)
          + 2 ^ (bitLength m m - p)
      ∧ 2 ^ (p - 1) ≤ (roundToBits p m false).1
      ∧ (roundToBits p m false).1 ≤ 2 ^ p := by
  have hmpos : 0 < m := by
    by_contra hcon
    have : m = 0 := by omega
    subst this
    simp [bitLength] at hlen
  have hupper : m < 2 ^ bitLength m m := lt_two_pow_bitLength m m (Nat.le_refl _)
  have hlower : 2 ^ (bitLength m m - 1) ≤ m := two_pow_bitLength_le m m hmpos (Nat.le_refl _)
  obtain ⟨d, hd⟩ : ∃ d, bitLength m m - p = d + 1 := ⟨bitLength m m - p - 1, by omega⟩
  have hD : 2 ^ (d + 1) = 2 * 2 ^ d := by rw [Nat.pow_succ]; omega
  have hdm := Nat.div_add_mod m (2 ^ (d + 1))
  have hmod : m % 2 ^ (d + 1) < 2 ^ (d + 1) := Nat.mod_lt _ (Nat.pow_pos (by omega))
  have hpow1 : 2 ^ (bitLength m m - 1) = 2 ^ (p - 1) * 2 ^ (d + 1) := by
    rw [← Nat.pow_add]; congr 1; omega
  have hpow2 : 2 ^ bitLength m m = 2 ^ p * 2 ^ (d + 1) := by
    rw [← Nat.pow_add]; congr 1; omega
  have hq1 : 2 ^ (p - 1) ≤ m / 2 ^ (d + 1) := by
    rw [Nat.le_div_iff_mul_le (Nat.pow_pos (by omega))]
    rw [← hpow1]; exact hlower
  have hq2 : m / 2 ^ (d + 1) < 2 ^ p := by
    rw [Nat.div_lt_iff_lt_mul (Nat.pow_pos (by omega))]
    rw [← hpow2]; exact hupper
  have e2 : 2 * (m / 2 ^ (d + 1)) * 2 ^ (d + 1) = 2 * (2 ^ (d + 1) * (m / 2 ^ (d + 1))) := by
    ring
  have e3 : 2 * (m / 2 ^ (d + 1) + 1) * 2 ^ (d + 1)
      = 2 * (2 ^ (d + 1) * (m / 2 ^ (d + 1))) + 2 * 2 ^ (d + 1) := by
    ring
  unfold roundToBits
  rw [if_neg (by omega), hd]
  simp only [Nat.add_sub_cancel]
  split_ifs with hA hB hC
  · exact ⟨rfl, by rw [e2]; omega, by rw [e2]; omega, hq1, Nat.le_of_lt hq2⟩
  · exact ⟨rfl, by rw [e3]; omega, by rw [e3]; omega, by omega, by omega⟩
  · exact ⟨rfl, by rw [e2]; omega, by rw [e2]; omega, hq1, Nat.le_of_lt hq2⟩
  · exact ⟨rfl, by rw [e3]; omega, by rw [e3]; omega, by omega, by omega⟩

/-- Known values. The root of 2 as a `double` is `0x3FF6A09E667F3BCD` and as a
`float` `0x3FB504F3`. The root of `18301282 = 3021^2 + 3029^2` is
`4277.99977`; the nearest `float` is `4278`, so `L2norm` stored into an `int`
gives `4278`, one more than the integer part of the root. -/
lemma floatSqrt_examples :
    sqrtRounded 53 2 = ⟨6369051672525773, 52⟩
      ∧ floatSqrt 2 = ⟨11863283, 23⟩
      ∧ isqrt 18301282 = 4277
      ∧ floatValueToInt (L2norm ⟨3021, 3029⟩) = 4278
      ∧ floatValueToInt (L2norm ⟨100000, 100000⟩) = -2147483648 := by
  decide

lemma roundToBits_pos (p mant : Nat) (sticky : Bool) (hp : 1 ≤ p) (hm : 0 < mant) :
    0 < (roundToBits p mant sticky).1 := by
  have hle : 2 ^ (bitLength mant mant - p) ≤ mant :=
    Nat.le_trans (Nat.pow_le_pow_right (by omega) (by omega))
      (two_pow_bitLength_le mant mant hm (Nat.le_refl _))
  have hq : 0 < mant / 2 ^ (bitLength mant mant - p) :=
    Nat.div_pos hle (Nat.pow_pos (by omega))
  unfold roundToBits
  split_ifs <;> simp only <;> omega

lemma ofScaled_mant_pos (m drop k : Nat) (hm : 0 < m) :
    0 < (FloatValue.ofScaled m drop k).mant := by
  unfold FloatValue.ofScaled
  split
  · exact hm
  · exact Nat.mul_pos hm (Nat.pow_pos (by omega))

lemma floatSqrt_mant_pos (s : Nat) (hs : 0 < s) : 0 < (floatSqrt s).mant := by
  unfold floatSqrt FloatValue.round
  apply ofScaled_mant_pos
  apply roundToBits_pos _ _ _ (by omega)
  unfold sqrtRounded
  apply ofScaled_mant_pos
  apply roundToBits_pos _ _ _ (by omega)
  apply isqrt_pos
  exact Nat.mul_pos hs (Nat.pow_pos (by omega))

lemma floatSqrt_zero_mant : (floatSqrt 0).mant = 0 := by
  decide

/-- A quad with a non-zero longest diagonal is close to itself. -/
lemma closeTo_self (q : Quad) (h : 0 < longestDiagonalSq q) : closeTo q q = true := by
  have hd : distSq q.centre q.centre = 0 := by simp [distSq]
  have hpos := floatSqrt_mant_pos (longestDiagonalSq q).toNat (by omega)
  simp only [closeTo, DistBetweenPoints, GetLongestDiagonal, FloatValue.lt, FloatValue.quarter,
    hd, Int.toNat_zero, floatSqrt_zero_mant, Nat.zero_mul, decide_eq_true_eq]
  exact Nat.mul_pos hpos (Nat.pow_pos (by omega))

/-! ## The reprojection -/

lemma truncToInt_intCast (z : Int) : truncToInt (z : ℚ) = z := by
  unfold truncToInt
  split <;> simp

lemma floatToInt_intCast (z : Int) (h1 : -2147483648 ≤ z) (h2 : z ≤ 2147483647) :
    floatToInt (z : ℚ) = z := by
  unfold floatToInt
  rw [truncToInt_intCast, if_pos ⟨h1, h2⟩]

lemma roundHalfEven_intCast (z : Int) : roundHalfEven (z : ℚ) = z := by
  unfold roundHalfEven
  simp

/-- A multiple `m * 2 ^ e` of the spacing `2 ^ e` of the `float` values around
it is a `float` value. -/
lemma roundFloat_of_multiple (r : ℚ) (m : Int) (hm : r = (m : ℚ) * 2 ^ (Int.log 2 |r| - 23)) :
    roundFloat r = r := by
  unfold roundFloat
  split
  · rename_i h0; exact h0.symm
  · have hpos : (0 : ℚ) < 2 ^ (Int.log 2 |r| - 23) := by positivity
    have hdiv : r / 2 ^ (Int.log 2 |r| - 23) = (m : ℚ) := by
      rw [div_eq_iff (ne_of_gt hpos)]
      exact hm
    rw [hdiv, roundHalfEven_intCast]
    exact hm.symm

lemma roundFloat_intCast (z : Int) (h1 : -16777216 ≤ z) (h2 : z ≤ 16777216) :
    roundFloat (z : ℚ) = z := by
  by_cases hz : z = 0
  · subst hz
    simp [roundFloat]
  · have habs : |(z : ℚ)| = ((z.natAbs : ℕ) : ℚ) := by
      rw [← Int.cast_abs, Int.abs_eq_natAbs, Int.cast_natCast]
    have hn0 : z.natAbs ≠ 0 := by omega
    have hn : z.natAbs ≤ 16777216 := by omega
    have hlog : Int.log 2 |(z : ℚ)| = (Nat.log 2 z.natAbs : ℤ) := by
      rw [habs, Int.log_natCast]
    have hL : Nat.log 2 z.natAbs < 25 :=
      Nat.log_lt_of_lt_pow hn0 (by norm_num; omega)
    have hle : 2 ^ Nat.log 2 z.natAbs ≤ z.natAbs := Nat.pow_log_le_self 2 hn0
    by_cases h24 : Nat.log 2 z.natAbs = 24
    · rw [h24] at hle
      have hn' : z.natAbs = 16777216 := by omega
      apply roundFloat_of_multiple _ (z / 2)
      rw [hlog, h24]
      have hz2 : z = 16777216 ∨ z = -16777216 := by omega
      rcases hz2 with rfl | rfl <;> norm_num
    · have hj : Nat.log 2 z.natAbs ≤ 23 := by omega
      apply roundFloat_of_multiple _ (z * 2 ^ (23 - Nat.log 2 z.natAbs))
      rw [hlog]
      have e : ((Nat.log 2 z.natAbs : ℕ) : ℤ) - 23 = -((23 - Nat.log 2 z.natAbs : ℕ) : ℤ) := by
        omega
      rw [e, zpow_neg, zpow_natCast]
      push_cast
      field_simp

lemma roundFloat_zero : roundFloat 0 = 0 := by
  simp [roundFloat]

lemma transformQuad_identity (q : Quad) (h : CentreExact q) :
    transformQuad Matrix3f.identity q = q := by
  obtain ⟨h1, h2, h3, h4⟩ := h
  have hx := roundFloat_intCast q.centre.x h1 h2
  have hy := roundFloat_intCast q.centre.y h3 h4
  simp only [transformQuad, transformQuadWith, Matrix3f.identity, floatDot, hx, hy, one_mul, zero_mul,
    roundFloat_zero, add_zero, zero_add]
  rw [floatToInt_intCast _ (by omega) (by omega), floatToInt_intCast _ (by omega) (by omega)]

lemma map_transformQuad_identity (quads : List Quad) (h : ∀ q ∈ quads, CentreExact q) :
    quads.map (transformQuad Matrix3f.identity) = quads := by
  induction quads with
  | nil => rfl
  | cons q rest ih =>
    rw [List.map_cons, transformQuad_identity q (h q (List.mem_cons_self _ _)),
      ih (fun a ha => h a (List.mem_cons_of_mem _ ha))]

lemma roundFloat_two_mul (z : Int) (h1 : -8388608 ≤ z) (h2 : z ≤ 8388608) :
    roundFloat (2 * (z : ℚ)) = ((2 * z : Int) : ℚ) := by
  have h := roundFloat_intCast (2 * z) (by omega) (by omega)
  push_cast at h ⊢
  exact h

lemma transformQuad_scaleTwo (q : Quad) (h1 : -8388608 ≤ q.centre.x) (h2 : q.centre.x ≤ 8388608)
    (h3 : -8388608 ≤ q.centre.y) (h4 : q.centre.y ≤ 8388608) :
    transformQuad scaleTwo q = { q with centre := ⟨2 * q.centre.x, 2 * q.centre.y⟩ } := by
  have hx := roundFloat_intCast q.centre.x (by omega) (by omega)
  have hy := roundFloat_intCast q.centre.y (by omega) (by omega)
  have hx2 := roundFloat_two_mul q.centre.x h1 h2
  have hy2 := roundFloat_two_mul q.centre.y h3 h4
  have hx3 := roundFloat_intCast (2 * q.centre.x) (by omega) (by omega)
  have hy3 := roundFloat_intCast (2 * q.centre.y) (by omega) (by omega)
  simp only [transformQuad, transformQuadWith, scaleTwo, floatDot, hx, hy, hx2, hy2, hx3, hy3, zero_mul,
    roundFloat_zero, add_zero, zero_add]
  rw [floatToInt_intCast _ (by omega) (by omega), floatToInt_intCast _ (by omega) (by omega)]

lemma log_two_16777217 : Int.log 2 |(16777217 : ℚ)| = 24 := by
  have h : |(16777217 : ℚ)| = ((16777217 : ℕ) : ℚ) := by norm_num
  rw [h, Int.log_natCast]
  have h2 : Nat.log 2 16777217 = 24 :=
    Nat.log_eq_of_pow_le_of_lt_pow (by norm_num) (by norm_num)
  rw [h2]
  rfl

/-- The `int` value `2^24 + 1` is not a `float`: it lies halfway between two
`float` values and is rounded to the even one, `2^24`. -/
lemma roundFloat_16777217 : roundFloat (16777217 : ℚ) = 16777216 := by
  have hfloor : Int.floor ((16777217 : ℚ) / 2) = 8388608 := by
    rw [Int.floor_eq_iff]
    constructor <;> norm_num
  unfold roundFloat
  rw [if_neg (by norm_num), log_two_16777217]
  have e : (16777217 : ℚ) / 2 ^ ((24 : ℤ) - 23) = 16777217 / 2 := by norm_num
  rw [e]
  unfold roundHalfEven
  rw [hfloor]
  norm_num

lemma transformQuad_identity_farCell :
    transformQuad Matrix3f.identity (farCells 0 1)
      = { farCells 0 1 with centre := ⟨16777216, 50⟩ } := by
  have hx : (((farCells 0 1).centre.x : Int) : ℚ) = 16777217 := by
    simp [farCells, squareQuad]
  have hy : (((farCells 0 1).centre.y : Int) : ℚ) = ((50 : Int) : ℚ) := rfl
  have h50 := roundFloat_intCast 50 (by norm_num) (by norm_num)
  have h24 := roundFloat_intCast 16777216 (by norm_num) (by norm_num)
  have e24 : (16777216 : ℚ) = ((16777216 : Int) : ℚ) := by norm_num
  simp only [transformQuad, transformQuadWith, Matrix3f.identity, floatDot, hx, hy, roundFloat_16777217, h50,
    one_mul, zero_mul, roundFloat_zero, add_zero, zero_add]
  rw [e24, h24, h24, floatToInt_intCast _ (by norm_num) (by norm_num),
    floatToInt_intCast _ (by norm_num) (by norm_num)]

lemma homogeneousCoord_scaleTwo (q : Quad) : homogeneousCoord scaleTwo q = 2 := by
  have h2 : roundFloat (2 * 1) = 2 := by
    have h := roundFloat_intCast 2 (by norm_num) (by norm_num)
    norm_num at h ⊢
    exact h
  simp only [homogeneousCoord, scaleTwo, floatDot, zero_mul, roundFloat_zero, zero_add, h2]
  have h := roundFloat_intCast 2 (by norm_num) (by norm_num)
  norm_num at h
  rw [h, h]

/-- C2 (the code at the failing input). With the homography `2 * I` and a quad
centred at `(3, 5)` the homogeneous coordinate is `2`, so the reprojected point
divided by it is `(3, 5)`; `TransformAndNumberQuads` stores `(6, 10)`, the
undivided coordinates. -/
theorem centre_not_divided_by_homogeneous_coordinate :
    homogeneousCoord scaleTwo (squareQuad 0 3 5 1) = 2
      ∧ (TransformAndNumberQuads scaleTwo [squareQuad 0 3 5 1]).map Quad.centre = [⟨6, 10⟩]
      ∧ (⟨6, 10⟩ : Point) ≠ ⟨3, 5⟩ := by
  refine ⟨homogeneousCoord_scaleTwo _, ?_, by decide⟩
  simp only [TransformAndNumberQuads, List.map_cons, List.map_nil]
  rw [transformQuad_scaleTwo _ (by decide) (by decide) (by decide) (by decide)]
  decide

/-! ## Numbering: the assigned numbers -/

lemma assignNumbers_length (l : List Quad) (k : Nat) :
    (assignNumbers l k).length = l.length := by
  induction l generalizing k with
  | nil => rfl
  | cons q rest ih => simp [assignNumbers, ih]

lemma assignNumbers_numbers (l : List Quad) (k : Nat) :
    (assignNumbers l k).map Quad.number = (List.range' k l.length).map Int.ofNat := by
  induction l generalizing k with
  | nil => rfl
  | cons q rest ih => simp [assignNumbers, ih, List.range'_succ]

lemma numberLoop_numbers (fuel : Nat) :
    ∀ (localQuads orderedQuads : List Quad) (quadNumber : Nat),
      quadNumber = orderedQuads.length + 1 →
      orderedQuads.map Quad.number
        = (List.range' 1 orderedQuads.length).map Int.ofNat →
      (numberLoop fuel localQuads orderedQuads quadNumber).map Quad.number
        = (List.range' 1 (numberLoop fuel localQuads orderedQuads quadNumber).length).map Int.ofNat := by
  induction fuel with
  | zero => intro l o k _ ho; simpa [numberLoop] using ho
  | succ fuel ih =>
    intro l o k hk ho
    unfold numberLoop
    split
    · exact ho
    · split
      · exact ho
      · apply ih
        · simp only [List.length_append]; omega
        · rw [List.map_append, ho, List.length_append, Nat.add_comm o.length,
            ← List.range'_append_1 1 o.length, List.map_append]
          congr 1
          simp only [rowPass, assignNumbers_numbers, assignNumbers_length]
          rw [hk, Nat.add_comm]

/-- C6. For every homography and every input list, the numbers of the quads in
the list left by `TransformAndNumberQuads`, read in list order, are exactly
`1, 2, ..., n`, where `n` is the length of that list. -/
theorem numbers_are_one_to_n (H : Matrix3f) (quads : List Quad) :
    (TransformAndNumberQuads H quads).map Quad.number
      = (List.range' 1 (TransformAndNumberQuads H quads).length).map Int.ofNat := by
  unfold TransformAndNumberQuads numberQuads
  exact numberLoop_numbers _ _ _ _ rfl rfl

/-! ## Numbering: which quads are in the result -/

lemma findTop_spec (l : List Quad) : ∀ (top : Quad) (idx i : Nat),
    (findTop l top idx i = (top, idx) ∧ ∀ q ∈ l, top.centre.y ≤ q.centre.y) ∨
    (∃ l1 l2, l = l1 ++ (findTop l top idx i).1 :: l2
      ∧ (findTop l top idx i).2 = i + l1.length
      ∧ (findTop l top idx i).1.centre.y < top.centre.y
      ∧ (∀ q ∈ l1, (findTop l top idx i).1.centre.y < q.centre.y)
      ∧ (∀ q ∈ l2, (findTop l top idx i).1.centre.y ≤ q.centre.y)) := by
  induction l with
  | nil => intro top idx i; left; simp [findTop]
  | cons q rest ih =>
    intro top idx i
    by_cases hq : q.centre.y < top.centre.y
    · have hstep : findTop (q :: rest) top idx i = findTop rest q i (i + 1) := by
        simp [findTop, hq]
      rw [hstep]
      rcases ih q i (i + 1) with ⟨heq, hall⟩ | ⟨l1, l2, hl, hidx, hlt, h1, h2⟩
      · right
        refine ⟨[], rest, ?_, ?_, ?_, ?_, ?_⟩
        · simp [heq]
        · simp [heq]
        · simpa [heq] using hq
        · simp
        · simpa [heq] using hall
      · right
        refine ⟨q :: l1, l2, ?_, ?_, ?_, ?_, ?_⟩
        · simp [← hl]
        · simp [hidx]; omega
        · omega
        · intro a ha
          rcases List.mem_cons.1 ha with rfl | ha
          · exact hlt
          · exact h1 a ha
        · exact h2
    · have hstep : findTop (q :: rest) top idx i = findTop rest top idx (i + 1) := by
        simp [findTop, hq]
      rw [hstep]
      rcases ih top idx (i + 1) with ⟨heq, hall⟩ | ⟨l1, l2, hl, hidx, hlt, h1, h2⟩
      · left
        refine ⟨heq, ?_⟩
        intro a ha
        rcases List.mem_cons.1 ha with rfl | ha
        · omega
        · exact hall a ha
      · right
        refine ⟨q :: l1, l2, ?_, ?_, hlt, ?_, h2⟩
        · simp [← hl]
        · simp [hidx]; omega
        · intro a ha
          rcases List.mem_cons.1 ha with rfl | ha
          · omega
          · exact h1 a ha

lemma findIdx?_split {α : Type} (p : α → Bool) (l : List α) :
    (l.findIdx? p = none ∧ ∀ a ∈ l, p a = false) ∨
    (∃ l1 q l2, l = l1 ++ q :: l2 ∧ l.findIdx? p = some l1.length ∧ p q = true
      ∧ ∀ a ∈ l1, p a = false) := by
  induction l with
  | nil => left; simp
  | cons a rest ih =>
    by_cases ha : p a = true
    · right
      exact ⟨[], a, rest, by simp, by simp [List.findIdx?_cons, ha], ha, by simp⟩
    · have ha' : p a = false := by simpa using ha
      rcases ih with ⟨hn, hall⟩ | ⟨l1, q, l2, hl, hi, hq, h1⟩
      · left
        refine ⟨?_, ?_⟩
        · simp [List.findIdx?_cons, ha', List.findIdx?_succ, hn]
        · intro b hb
          rcases List.mem_cons.1 hb with rfl | hb
          · exact ha'
          · exact hall b hb
      · right
        refine ⟨a :: l1, q, l2, by simp [hl], ?_, hq, ?_⟩
        · simp [List.findIdx?_cons, ha', List.findIdx?_succ, hi]
        · intro b hb
          rcases List.mem_cons.1 hb with rfl | hb
          · exact ha'
          · exact h1 b hb

lemma collectRow_eq (topQuad : Quad) (margin : Int) (fuel : Nat) :
    ∀ (localQuads thisRow : List Quad), localQuads.length ≤ fuel →
      collectRow topQuad margin fuel localQuads thisRow
        = (localQuads.filter (fun q => !inRow topQuad margin q),
           thisRow ++ localQuads.filter (inRow topQuad margin)) := by
  induction fuel with
  | zero =>
    intro l row hl
    have : l = [] := List.length_eq_zero.1 (Nat.le_zero.1 hl)
    subst this
    simp [collectRow]
  | succ fuel ih =>
    intro l row hl
    rcases findIdx?_split (inRow topQuad margin) l with ⟨hn, hall⟩ | ⟨l1, q, l2, hl', hi, hq, h1⟩
    · have h1 : l.filter (inRow topQuad margin) = [] := by
        rw [List.filter_eq_nil_iff]; intro a ha; simp [hall a ha]
      have h2 : l.filter (fun q => !inRow topQuad margin q) = l := by
        rw [List.filter_eq_self]; intro a ha; simp [hall a ha]
      simp [collectRow, hn, h1, h2]
    · have hget : l.get? l1.length = some q := by
        subst hl'
        rw [List.get?_eq_getElem?, List.getElem?_append_right (Nat.le_refl _)]
        simp
      have herase : l.eraseIdx l1.length = l1 ++ l2 := by
        subst hl'
        rw [List.eraseIdx_append_of_length_le (Nat.le_refl _)]
        simp
      have hlen : (l1 ++ l2).length ≤ fuel := by
        subst hl'; simp at hl ⊢; omega
      have hf1 : l1.filter (inRow topQuad margin) = [] := by
        rw [List.filter_eq_nil_iff]; intro a ha; simp [h1 a ha]
      have hf2 : l1.filter (fun q => !inRow topQuad margin q) = l1 := by
        rw [List.filter_eq_self]; intro a ha; simp [h1 a ha]
      simp only [collectRow, hi, hget, herase]
      rw [ih _ _ hlen]
      subst hl'
      simp [List.filter_append, hf1, hf2, List.filter_cons, hq]


lemma rowPass_eq (localQuads : List Quad) (k : Nat) (hne : localQuads ≠ [])
    (hy : ∀ q ∈ localQuads, q.centre.y < 100000) :
    ∃ l1 t l2, localQuads = l1 ++ t :: l2
      ∧ (∀ q ∈ l1, t.centre.y < q.centre.y) ∧ (∀ q ∈ l2, t.centre.y ≤ q.centre.y)
      ∧ rowPass localQuads k
          = ((l1 ++ l2).filter (fun q => !inRow t (rowMargin t) q),
             assignNumbers (sortRow (t :: (l1 ++ l2).filter (inRow t (rowMargin t)))) k) := by
  rcases findTop_spec localQuads initialTopQuad 0 0 with ⟨_, hall⟩ | ⟨l1, l2, hl, hidx, _, h1, h2⟩
  · exfalso
    cases localQuads with
    | nil => exact hne rfl
    | cons q rest =>
      have h1 := hall q (List.mem_cons_self _ _)
      have h2 := hy q (List.mem_cons_self _ _)
      have h3 : initialTopQuad.centre.y = 100000 := rfl
      omega
  · refine ⟨l1, (findTop localQuads initialTopQuad 0 0).1, l2, hl, h1, h2, ?_⟩
    have herase : localQuads.eraseIdx (findTop localQuads initialTopQuad 0 0).2 = l1 ++ l2 := by
      rw [hidx, Nat.zero_add]
      conv_lhs => rw [hl]
      rw [List.eraseIdx_append_of_length_le (Nat.le_refl _)]
      simp
    simp only [rowPass, herase]
    rw [collectRow_eq _ _ _ _ _ (Nat.le_refl _)]
    simp

lemma assignNumbers_eraseNumber (l : List Quad) (k : Nat) :
    (assignNumbers l k).map eraseNumber = l.map eraseNumber := by
  induction l generalizing k with
  | nil => rfl
  | cons q rest ih => simp [assignNumbers, ih, eraseNumber]

lemma sortRow_perm (l : List Quad) : (sortRow l).Perm l :=
  List.perm_insertionSort _ _

lemma numberLoop_perm (fuel : Nat) :
    ∀ (localQuads orderedQuads : List Quad) (quadNumber : Nat),
      localQuads.length ≤ fuel →
      quadNumber = orderedQuads.length + 1 →
      orderedQuads.length + localQuads.length ≤ 200 →
      (∀ q ∈ localQuads, q.centre.y < 100000) →
      ((numberLoop fuel localQuads orderedQuads quadNumber).map eraseNumber).Perm
        ((orderedQuads ++ localQuads).map eraseNumber) := by
  induction fuel with
  | zero =>
    intro l o k hl _ _ _
    have : l = [] := List.length_eq_zero.1 (Nat.le_zero.1 hl)
    subst this
    simp [numberLoop]
  | succ fuel ih =>
    intro l o k hl hk hcap hy
    unfold numberLoop
    by_cases hemp : l = []
    · subst hemp; simp
    · have hpos : 0 < l.length := List.length_pos.2 hemp
      have hne : ¬ l.isEmpty = true := by simpa using hemp
      have hk200 : ¬ k > 200 := by omega
      rw [if_neg hne, if_neg hk200]
      obtain ⟨l1, t, l2, hl', _, _, hpass⟩ := rowPass_eq l k hemp hy
      have hsplit := List.filter_append_perm (inRow t (rowMargin t)) (l1 ++ l2)
      have hlen := hsplit.length_eq
      simp only [List.length_append] at hlen
      have hllen : l.length = l1.length + l2.length + 1 := by
        rw [hl']; simp; omega
      have hrow : (rowPass l k).2.length
          = ((l1 ++ l2).filter (inRow t (rowMargin t))).length + 1 := by
        rw [hpass]
        simp [assignNumbers_length, (sortRow_perm _).length_eq]
      have hrest : (rowPass l k).1.length
          = ((l1 ++ l2).filter (fun q => !inRow t (rowMargin t) q)).length := by
        rw [hpass]
      refine (ih _ _ _ ?_ ?_ ?_ ?_).trans ?_
      · omega
      · simp only [List.length_append]; omega
      · simp only [List.length_append]; omega
      · intro q hq
        rw [hpass] at hq
        have hq' : q ∈ l1 ++ l2 := (List.mem_filter.1 hq).1
        apply hy
        rw [hl']
        rcases List.mem_append.1 hq' with h | h
        · exact List.mem_append_left _ h
        · exact List.mem_append_right _ (List.mem_cons_of_mem _ h)
      · rw [hpass]
        simp only [List.map_append, assignNumbers_eraseNumber, List.append_assoc]
        refine List.Perm.append_left _ ?_
        rw [← List.map_append]
        refine List.Perm.map _ ?_
        have h1 : (sortRow (t :: (l1 ++ l2).filter (inRow t (rowMargin t)))
              ++ (l1 ++ l2).filter (fun q => !inRow t (rowMargin t) q)).Perm
            (t :: ((l1 ++ l2).filter (inRow t (rowMargin t))
              ++ (l1 ++ l2).filter (fun q => !inRow t (rowMargin t) q))) :=
          (sortRow_perm _).append_right _
        refine h1.trans ?_
        refine ((List.Perm.cons t hsplit).trans ?_)
        rw [hl']
        exact (List.perm_middle).symm

/-- C5, amended. For every homography, every way `dot` of computing the
`float` product `H * x`, and every list of at most 200 quads whose reprojected
centres (as the first loop stores them: computed in `float`, converted to
`int`) all have `y < 100000` (the value the search for the top quad starts
from), the list left by `TransformAndNumberQuads` holds exactly the
reprojected quads of the input list, numbers apart, and so exactly the
identifiers of the input list, each as often as in the input. -/
theorem numbering_keeps_every_quad (dot : ℚ → ℚ → ℚ → ℚ → ℚ → ℚ → ℚ) (H : Matrix3f)
    (quads : List Quad) (hlen : quads.length ≤ 200)
    (hy : ∀ q ∈ quads, (transformQuadWith dot H q).centre.y < 100000) :
    ((TransformAndNumberQuadsWith dot H quads).map eraseNumber).Perm
        ((quads.map (transformQuadWith dot H)).map eraseNumber)
      ∧ ((TransformAndNumberQuadsWith dot H quads).map Quad.id).Perm (quads.map Quad.id) := by
  have hperm : ((TransformAndNumberQuadsWith dot H quads).map eraseNumber).Perm
      ((quads.map (transformQuadWith dot H)).map eraseNumber) := by
    have h := numberLoop_perm (quads.map (transformQuadWith dot H)).length
      (quads.map (transformQuadWith dot H)) [] 1 (Nat.le_refl _) rfl (by simpa using hlen)
      (by
        intro q hq
        obtain ⟨q0, hq0, rfl⟩ := List.mem_map.1 hq
        exact hy q0 hq0)
    simpa [TransformAndNumberQuadsWith, numberQuads] using h
  refine ⟨hperm, ?_⟩
  have h := hperm.map Quad.id
  simpa [List.map_map, Function.comp_def, eraseNumber, transformQuadWith] using h

/-- Witness for `numbering_keeps_every_quad`: two quads on one row, given right
to left, under the identity homography. -/
theorem numbering_keeps_every_quad_witness :
    ((TransformAndNumberQuads Matrix3f.identity
        [squareQuad 1 25 5 5, squareQuad 0 5 5 5]).map Quad.id).Perm [1, 0] :=
  (numbering_keeps_every_quad floatDot Matrix3f.identity
    [squareQuad 1 25 5 5, squareQuad 0 5 5 5]
    (by decide)
    (by
      have hc : ∀ q ∈ [squareQuad 1 25 5 5, squareQuad 0 5 5 5], CentreExact q := by decide
      have hb : ∀ q ∈ [squareQuad 1 25 5 5, squareQuad 0 5 5 5], q.centre.y < 100000 := by
        decide
      intro q hq
      have h := transformQuad_identity q (hc q hq)
      unfold transformQuad at h
      rw [h]
      exact hb q hq)).2

/-- C5 as stated fails. Two quads whose centres have `y = 100000`: no quad is
higher than the initial `topQuad`, so each of the two passes erases the quad
at index `0` and numbers the default-constructed `topQuad`, centred at
`(100000, 100000)`, in its place. (The margin of that `topQuad` is `INT_MIN`:
the sum `100000 * 100000 + 100000 * 100000` wraps around to a negative `int`,
whose root is NaN; no quad joins its row.) The list left holds two copies of
the default quad and none of the input quads. -/
theorem sentinel_row_drops_a_quad :
    [squareQuad 7 3 100000 5, squareQuad 8 0 100000 5].length ≤ 200
      ∧ [squareQuad 7 3 100000 5, squareQuad 8 0 100000 5].map
          (fun q => (transformQuad Matrix3f.identity q).centre)
          = [⟨3, 100000⟩, ⟨0, 100000⟩]
      ∧ rowMargin initialTopQuad = -2147483648
      ∧ (TransformAndNumberQuads Matrix3f.identity
          [squareQuad 7 3 100000 5, squareQuad 8 0 100000 5]).map
            (fun q => (q.centre, q.points, q.number))
          = [(⟨100000, 100000⟩, [⟨0, 0⟩, ⟨0, 0⟩, ⟨0, 0⟩, ⟨0, 0⟩], 1),
             (⟨100000, 100000⟩, [⟨0, 0⟩, ⟨0, 0⟩, ⟨0, 0⟩, ⟨0, 0⟩], 2)]
      ∧ ¬ ((TransformAndNumberQuads Matrix3f.identity
            [squareQuad 7 3 100000 5, squareQuad 8 0 100000 5]).map eraseNumber).Perm
          (([squareQuad 7 3 100000 5, squareQuad 8 0 100000 5].map
            (transformQuad Matrix3f.identity)).map eraseNumber) := by
  have hc : ∀ q ∈ [squareQuad 7 3 100000 5, squareQuad 8 0 100000 5], CentreExact q := by
    decide
  have h7 := transformQuad_identity (squareQuad 7 3 100000 5) (by decide)
  have h8 := transformQuad_identity (squareQuad 8 0 100000 5) (by decide)
  simp only [TransformAndNumberQuads, List.map_cons, List.map_nil, h7, h8]
  decide

lemma mem_gridRow {g : Nat → Nat → Quad} {W r : Nat} {q : Quad} :
    q ∈ gridRow g W r ↔ ∃ c < W, g r c = q := by
  simp [gridRow]

lemma mem_gridRows {g : Nat → Nat → Quad} {W : Nat} {q : Quad} :
    ∀ {n r0 : Nat}, q ∈ gridRows g W r0 n ↔ ∃ r c, r0 ≤ r ∧ r < r0 + n ∧ c < W ∧ g r c = q := by
  intro n
  induction n with
  | zero => intro r0; simp [gridRows]; intro r c h1 h2; omega
  | succ n ih =>
    intro r0
    simp only [gridRows, List.mem_append, mem_gridRow, ih]
    constructor
    · rintro (⟨c, hc, rfl⟩ | ⟨r, c, h1, h2, hc, rfl⟩)
      · exact ⟨r0, c, Nat.le_refl _, by omega, hc, rfl⟩
      · exact ⟨r, c, by omega, by omega, hc, rfl⟩
    · rintro ⟨r, c, h1, h2, hc, rfl⟩
      by_cases h : r = r0
      · subst h; exact Or.inl ⟨c, hc, rfl⟩
      · exact Or.inr ⟨r, c, by omega, by omega, hc, rfl⟩

lemma length_gridRow (g : Nat → Nat → Quad) (W r : Nat) : (gridRow g W r).length = W := by
  simp [gridRow]

lemma length_gridRows (g : Nat → Nat → Quad) (W : Nat) :
    ∀ (n r0 : Nat), (gridRows g W r0 n).length = n * W := by
  intro n
  induction n with
  | zero => intro r0; simp [gridRows]
  | succ n ih => intro r0; simp [gridRows, length_gridRow, ih, Nat.succ_mul]; omega

lemma get?_gridRows (g : Nat → Nat → Quad) (W : Nat) :
    ∀ (n r0 j c : Nat), j < n → c < W →
      (gridRows g W r0 n).get? (j * W + c) = some (g (r0 + j) c) := by
  intro n
  induction n with
  | zero => intro r0 j c hj; omega
  | succ n ih =>
    intro r0 j c hj hc
    cases j with
    | zero =>
      simp only [gridRows, Nat.zero_mul, Nat.zero_add, Nat.add_zero, List.get?_eq_getElem?]
      rw [List.getElem?_append_left (by simpa [length_gridRow] using hc)]
      simp [gridRow, List.getElem?_range hc]
    | succ j =>
      simp only [gridRows, List.get?_eq_getElem?]
      rw [List.getElem?_append_right (by rw [length_gridRow, Nat.succ_mul]; omega)]
      have h := ih (r0 + 1) j c (by omega) hc
      rw [List.get?_eq_getElem?] at h
      rw [length_gridRow]
      have e1 : (j + 1) * W + c - W = j * W + c := by rw [Nat.succ_mul]; omega
      have e2 : r0 + (j + 1) = r0 + 1 + j := by omega
      rw [e1, e2]
      exact h

lemma assignNumbers_append (l1 l2 : List Quad) (k : Nat) :
    assignNumbers (l1 ++ l2) k = assignNumbers l1 k ++ assignNumbers l2 (k + l1.length) := by
  induction l1 generalizing k with
  | nil => simp [assignNumbers]
  | cons q rest ih =>
    have h := ih (k + 1)
    rw [show k + 1 + rest.length = k + (rest.length + 1) by omega] at h
    simp only [List.cons_append, assignNumbers, List.length_cons]
    exact congrArg _ h

lemma get?_assignNumbers (l : List Quad) :
    ∀ (k i : Nat) (q : Quad), l.get? i = some q →
      (assignNumbers l k).get? i = some { q with number := ((k + i : Nat) : Int) } := by
  induction l with
  | nil => intro k i q h; simp at h
  | cons a rest ih =>
    intro k i q h
    cases i with
    | zero =>
      simp at h
      subst h
      simp [assignNumbers]
    | succ i =>
      simp at h
      have := ih (k + 1) i q (by simpa using h)
      simp only [assignNumbers, List.get?_cons_succ, this]
      rw [show k + 1 + i = k + (i + 1) by omega]

/-! ## Numbering an axis-aligned grid -/

lemma notAfter_iff (a b : Quad) : notAfter a b ↔ a.centre.x ≤ b.centre.x := by
  simp [notAfter, OrderTwoQuadsByAscendingCentreX]

lemma sortRow_sorted (l : List Quad) : (sortRow l).Pairwise notAfter := by
  haveI : IsTotal Quad notAfter := ⟨fun a b => by simp only [notAfter_iff]; omega⟩
  haveI : IsTrans Quad notAfter := ⟨fun a b c => by simp only [notAfter_iff]; omega⟩
  exact List.sorted_insertionSort notAfter l

lemma sortRow_eq_of_perm_sorted (l row : List Quad) (hp : l.Perm row)
    (hs : row.Pairwise (fun a b => a.centre.x < b.centre.x)) : sortRow l = row := by
  have hne : row.Pairwise (fun a b => a.centre.x ≠ b.centre.x) :=
    hs.imp (fun h => by omega)
  have hne' : (sortRow l).Pairwise (fun a b => a.centre.x ≠ b.centre.x) :=
    (((sortRow_perm l).trans hp).pairwise_iff (fun {a b} h => Ne.symm h)).2 hne
  have hlt : (sortRow l).Pairwise (fun a b => a.centre.x < b.centre.x) := by
    refine ((sortRow_sorted l).and hne').imp ?_
    intro a b h
    have := (notAfter_iff a b).1 h.1
    have := h.2
    omega
  haveI : IsAntisymm Quad (fun a b => a.centre.x < b.centre.x) :=
    ⟨fun a b h1 h2 => by exfalso; omega⟩
  exact List.eq_of_perm_of_sorted ((sortRow_perm l).trans hp) hlt hs

lemma gridRow_sorted {g : Nat → Nat → Quad} {W H : Nat} (hg : AxisAlignedGrid g W H)
    {r : Nat} (hr : r < H) :
    (gridRow g W r).Pairwise (fun a b => a.centre.x < b.centre.x) := by
  unfold gridRow
  rw [List.pairwise_map]
  have h : (List.range W).Pairwise (fun a b => a < b) := List.pairwise_lt_range W
  have hmem : ∀ c ∈ List.range W, c < W := fun c hc => List.mem_range.1 hc
  refine (List.Pairwise.and_mem.1 h).imp ?_
  rintro a b ⟨ha, hb, hab⟩
  exact hg.columnsRight r hr a (hmem a ha) b (hmem b hb) hab

lemma nodup_gridRows {g : Nat → Nat → Quad} {W H : Nat} (hg : AxisAlignedGrid g W H) :
    ∀ (n r0 : Nat), r0 + n ≤ H → (gridRows g W r0 n).Nodup := by
  intro n
  induction n with
  | zero => intro r0 _; simp [gridRows]
  | succ n ih =>
    intro r0 h
    simp only [gridRows]
    rw [List.nodup_append]
    refine ⟨?_, ih (r0 + 1) (by omega), ?_⟩
    · have hs := gridRow_sorted hg (show r0 < H by omega)
      refine hs.imp ?_
      intro a b hab heq
      subst heq
      omega
    · intro q hq1 hq2
      obtain ⟨c, hc, rfl⟩ := mem_gridRow.1 hq1
      obtain ⟨r, c', h1, h2, hc', heq⟩ := mem_gridRows.1 hq2
      have := hg.rowsDown r0 (by omega) r (by omega) (by omega) c hc c' hc'
      rw [heq] at this
      omega

lemma filter_topRow {g : Nat → Nat → Quad} {W H : Nat} (hg : AxisAlignedGrid g W H)
    (n r0 c0 : Nat) (hH : r0 + (n + 1) = H) (hc0 : c0 < W) :
    (gridRows g W r0 (n + 1)).filter (fun q => decide (q.centre.y = (g r0 c0).centre.y))
        = gridRow g W r0
      ∧ (gridRows g W r0 (n + 1)).filter (fun q => !decide (q.centre.y = (g r0 c0).centre.y))
        = gridRows g W (r0 + 1) n := by
  have hrow : ∀ q ∈ gridRow g W r0, q.centre.y = (g r0 c0).centre.y := by
    intro q hq
    obtain ⟨c, hc, rfl⟩ := mem_gridRow.1 hq
    exact hg.sameRow r0 (by omega) c hc c0 hc0
  have hrest : ∀ q ∈ gridRows g W (r0 + 1) n, q.centre.y ≠ (g r0 c0).centre.y := by
    intro q hq
    obtain ⟨r, c, h1, h2, hc, rfl⟩ := mem_gridRows.1 hq
    have := hg.rowsDown r0 (by omega) r (by omega) (by omega) c0 hc0 c hc
    omega
  simp only [gridRows, List.filter_append]
  constructor
  · rw [List.filter_eq_self.2 (fun q hq => by simp [hrow q hq]),
      List.filter_eq_nil_iff.2 (fun q hq => by simp [hrest q hq])]
    simp
  · rw [List.filter_eq_nil_iff.2 (fun q hq => by simp [hrow q hq]),
      List.filter_eq_self.2 (fun q hq => by simp [hrest q hq])]
    simp

lemma inRow_grid {g : Nat → Nat → Quad} {W H : Nat} (hg : AxisAlignedGrid g W H)
    (hr : RowsResolved g W H) (n r0 c0 : Nat) (hH : r0 + (n + 1) = H) (hc0 : c0 < W)
    (q : Quad) (hq : q ∈ gridRows g W r0 (n + 1)) (hne : q ≠ g r0 c0) :
    inRow (g r0 c0) (rowMargin (g r0 c0)) q = decide (q.centre.y = (g r0 c0).centre.y) := by
  obtain ⟨r, c, h1, h2, hc, rfl⟩ := mem_gridRows.1 hq
  by_cases hrr : r = r0
  · subst hrr
    have hy : (g r c).centre.y = (g r c0).centre.y := hg.sameRow r (by omega) c hc c0 hc0
    have hcc : c ≠ c0 := fun h => hne (by rw [h])
    have hx : (g r c).centre.x ≠ (g r c0).centre.x := by
      rcases Nat.lt_or_gt_of_ne hcc with h | h
      · have := hg.columnsRight r (by omega) c hc c0 hc0 h; omega
      · have := hg.columnsRight r (by omega) c0 hc0 c hc h; omega
    have hcen : (g r c).centre ≠ (g r c0).centre := fun h => hx (by rw [h])
    have hm := hr.marginWide r (by omega) c0 hc0
    have hw : wrapInt32 ((wrapInt32 ((g r c0).centre.y - (g r c0).centre.y)).natAbs : Int)
        = 0 := by
      rw [sub_self]
      rfl
    simp only [inRow, hy, hw, hcen, ne_eq, not_false_eq_true, decide_True, Bool.and_true,
      decide_eq_true_eq]
    omega
  · have hlt := hg.rowsDown r0 (by omega) r (by omega) (by omega) c0 hc0 c hc
    have hm := hr.marginNarrow r0 (by omega) r (by omega) (by omega) c0 hc0 c hc
    have hb := hr.belowSentinel r (by omega) c hc
    have he := hr.centreExact r0 (by omega) c0 hc0
    have hny : (g r c).centre.y ≠ (g r0 c0).centre.y := by omega
    have hnot : ¬ wrapInt32 ((wrapInt32 ((g r c).centre.y - (g r0 c0).centre.y)).natAbs : Int)
        < Int.tdiv (rowMargin (g r0 c0)) 2 := by
      unfold CentreExact at he
      unfold wrapInt32
      omega
    unfold inRow
    rw [decide_eq_false hnot, decide_eq_false hny, Bool.false_and]

lemma rowPass_grid {g : Nat → Nat → Quad} {W H : Nat} (hW : 1 ≤ W)
    (hg : AxisAlignedGrid g W H) (hr : RowsResolved g W H)
    (n r0 k : Nat) (localQuads : List Quad) (hH : r0 + (n + 1) = H)
    (hperm : localQuads.Perm (gridRows g W r0 (n + 1))) :
    (rowPass localQuads k).2 = assignNumbers (gridRow g W r0) k
      ∧ (rowPass localQuads k).1.Perm (gridRows g W (r0 + 1) n) := by
  have hmem : ∀ q, q ∈ localQuads ↔ q ∈ gridRows g W r0 (n + 1) := fun q => hperm.mem_iff
  have hfirst : g r0 0 ∈ localQuads :=
    (hmem _).2 (mem_gridRows.2 ⟨r0, 0, Nat.le_refl _, by omega, by omega, rfl⟩)
  have hne : localQuads ≠ [] := List.ne_nil_of_mem hfirst
  have hy : ∀ q ∈ localQuads, q.centre.y < 100000 := by
    intro q hq
    obtain ⟨r, c, h1, h2, hc, rfl⟩ := mem_gridRows.1 ((hmem q).1 hq)
    exact hr.belowSentinel r (by omega) c hc
  obtain ⟨l1, t, l2, hl, h1, h2, hpass⟩ := rowPass_eq localQuads k hne hy
  -- the top quad lies in row `r0`
  have ht : t ∈ localQuads := by rw [hl]; simp
  obtain ⟨r, c0, hr1, hr2, hc0, hgt⟩ := mem_gridRows.1 ((hmem t).1 ht)
  have hrr : r = r0 := by
    by_contra hcon
    have hlt := hg.rowsDown r0 (by omega) r (by omega) (by omega) 0 (by omega) c0 hc0
    rw [hgt] at hlt
    rw [hl] at hfirst
    rcases List.mem_append.1 hfirst with h | h
    · have := h1 _ h; omega
    · rcases List.mem_cons.1 h with h | h
      · rw [h] at hlt; omega
      · have := h2 _ h; omega
  subst hrr
  subst hgt
  -- the remaining quads differ from the top quad
  have hnd : (l1 ++ g r c0 :: l2).Nodup := by
    rw [← hl]; exact hperm.nodup_iff.2 (nodup_gridRows hg (n + 1) r (by omega))
  have hnotin : ∀ q ∈ l1 ++ l2, q ≠ g r c0 := by
    intro q hq heq
    subst heq
    have h3 := List.nodup_middle.1 hnd
    exact (List.nodup_cons.1 h3).1 hq
  have hsub : ∀ q ∈ l1 ++ l2, q ∈ gridRows g W r (n + 1) := by
    intro q hq
    apply (hmem q).1
    rw [hl]
    rcases List.mem_append.1 hq with h | h
    · exact List.mem_append_left _ h
    · exact List.mem_append_right _ (List.mem_cons_of_mem _ h)
  have hf1 : (l1 ++ l2).filter (inRow (g r c0) (rowMargin (g r c0)))
      = (l1 ++ l2).filter (fun q => decide (q.centre.y = (g r c0).centre.y)) :=
    List.filter_congr (fun q hq => inRow_grid hg hr n r c0 hH hc0 q (hsub q hq) (hnotin q hq))
  have hf2 : (l1 ++ l2).filter (fun q => !inRow (g r c0) (rowMargin (g r c0)) q)
      = (l1 ++ l2).filter (fun q => !decide (q.centre.y = (g r c0).centre.y)) :=
    List.filter_congr (fun q hq => by
      rw [inRow_grid hg hr n r c0 hH hc0 q (hsub q hq) (hnotin q hq)])
  obtain ⟨hrowf, hrestf⟩ := filter_topRow hg n r c0 hH hc0
  have hperm' : (g r c0 :: (l1 ++ l2)).Perm (gridRows g W r (n + 1)) := by
    refine List.Perm.trans ?_ hperm
    rw [hl]
    exact List.perm_middle.symm
  have hp1 := hperm'.filter (fun q => decide (q.centre.y = (g r c0).centre.y))
  have hp2 := hperm'.filter (fun q => !decide (q.centre.y = (g r c0).centre.y))
  rw [hrowf] at hp1
  rw [hrestf] at hp2
  simp only [List.filter_cons, decide_True, if_true, Bool.not_true] at hp1 hp2
  rw [hpass, hf1, hf2]
  refine ⟨?_, ?_⟩
  · show assignNumbers (sortRow _) k = _
    rw [sortRow_eq_of_perm_sorted _ _ hp1 (gridRow_sorted hg (by omega))]
  · simpa using hp2

lemma numberLoop_grid {g : Nat → Nat → Quad} {W H : Nat} (hW : 1 ≤ W)
    (hg : AxisAlignedGrid g W H) (hr : RowsResolved g W H) (hcap : (H - 1) * W < 200) :
    ∀ (n r0 fuel : Nat) (localQuads orderedQuads : List Quad),
      r0 + n = H → localQuads.Perm (gridRows g W r0 n) → localQuads.length ≤ fuel →
      numberLoop fuel localQuads orderedQuads (r0 * W + 1)
        = orderedQuads ++ assignNumbers (gridRows g W r0 n) (r0 * W + 1) := by
  intro n
  induction n with
  | zero =>
    intro r0 fuel l o _ hperm _
    have : l = [] := List.Perm.eq_nil hperm
    subst this
    cases fuel <;> simp [numberLoop, gridRows, assignNumbers]
  | succ n ih =>
    intro r0 fuel l o hH hperm hfuel
    have hlen : l.length = (n + 1) * W := by rw [hperm.length_eq, length_gridRows]
    have hpos : 0 < l.length := by
      rw [hlen]; exact Nat.mul_pos (by omega) (by omega)
    obtain ⟨hrow, hrest⟩ := rowPass_grid hW hg hr n r0 (r0 * W + 1) l hH hperm
    have hne : ¬ l.isEmpty = true := by
      simpa using List.length_pos.1 hpos
    have hk : ¬ r0 * W + 1 > 200 := by
      have : r0 * W ≤ (H - 1) * W := Nat.mul_le_mul_right W (by omega)
      omega
    cases fuel with
    | zero => omega
    | succ fuel =>
      unfold numberLoop
      rw [if_neg hne, if_neg hk]
      have hrowlen : (rowPass l (r0 * W + 1)).2.length = W := by
        rw [hrow, assignNumbers_length, length_gridRow]
      have hnext : r0 * W + 1 + (rowPass l (r0 * W + 1)).2.length = (r0 + 1) * W + 1 := by
        rw [hrowlen, Nat.succ_mul]; omega
      have hrestlen : (rowPass l (r0 * W + 1)).1.length ≤ fuel := by
        rw [hrest.length_eq, length_gridRows]
        rw [hlen, Nat.succ_mul] at hfuel
        omega
      show numberLoop fuel (rowPass l (r0 * W + 1)).1 (o ++ (rowPass l (r0 * W + 1)).2)
          (r0 * W + 1 + (rowPass l (r0 * W + 1)).2.length) = _
      rw [hnext, ih (r0 + 1) fuel _ _ (by omega) hrest hrestlen, hrow]
      simp only [gridRows, assignNumbers_append, length_gridRow, List.append_assoc]
      rw [show r0 * W + 1 + W = (r0 + 1) * W + 1 by rw [Nat.succ_mul]; omega]

/-- The numbering loop on a grid, whatever its size: the rows are numbered in
order as long as the number to assign next is at most 200, that is, the rows
`r` with `r * W ≤ 199`; the rows after them are left out. -/
lemma numberLoop_grid_capped {g : Nat → Nat → Quad} {W H : Nat} (hW : 1 ≤ W)
    (hg : AxisAlignedGrid g W H) (hr : RowsResolved g W H) :
    ∀ (n r0 fuel : Nat) (localQuads orderedQuads : List Quad),
      r0 + n = H → localQuads.Perm (gridRows g W r0 n) → localQuads.length ≤ fuel →
      numberLoop fuel localQuads orderedQuads (r0 * W + 1)
        = orderedQuads
          ++ assignNumbers (gridRows g W r0 (min n (199 / W + 1 - r0))) (r0 * W + 1) := by
  intro n
  induction n with
  | zero =>
    intro r0 fuel l o _ hperm _
    have : l = [] := List.Perm.eq_nil hperm
    subst this
    cases fuel <;> simp [numberLoop, gridRows, assignNumbers]
  | succ n ih =>
    intro r0 fuel l o hH hperm hfuel
    have hlen : l.length = (n + 1) * W := by rw [hperm.length_eq, length_gridRows]
    have hpos : 0 < l.length := by
      rw [hlen]; exact Nat.mul_pos (by omega) (by omega)
    have hne : ¬ l.isEmpty = true := by
      simpa using List.length_pos.1 hpos
    have hdiv : r0 ≤ 199 / W ↔ r0 * W ≤ 199 := Nat.le_div_iff_mul_le (by omega)
    cases fuel with
    | zero => omega
    | succ fuel =>
      unfold numberLoop
      rw [if_neg hne]
      by_cases hk : r0 * W + 1 > 200
      · rw [if_pos hk]
        have hz : min (n + 1) (199 / W + 1 - r0) = 0 := by
          have : ¬ r0 ≤ 199 / W := fun h => by have := hdiv.1 h; omega
          omega
        rw [hz]
        simp [gridRows, assignNumbers]
      · rw [if_neg hk]
        obtain ⟨hrow, hrest⟩ := rowPass_grid hW hg hr n r0 (r0 * W + 1) l hH hperm
        have hrowlen : (rowPass l (r0 * W + 1)).2.length = W := by
          rw [hrow, assignNumbers_length, length_gridRow]
        have hnext : r0 * W + 1 + (rowPass l (r0 * W + 1)).2.length = (r0 + 1) * W + 1 := by
          rw [hrowlen, Nat.succ_mul]; omega
        have hrestlen : (rowPass l (r0 * W + 1)).1.length ≤ fuel := by
          rw [hrest.length_eq, length_gridRows]
          rw [hlen, Nat.succ_mul] at hfuel
          omega
        have hmin : min (n + 1) (199 / W + 1 - r0) = min n (199 / W + 1 - (r0 + 1)) + 1 := by
          have : r0 ≤ 199 / W := hdiv.2 (by omega)
          omega
        show numberLoop fuel (rowPass l (r0 * W + 1)).1 (o ++ (rowPass l (r0 * W + 1)).2)
            (r0 * W + 1 + (rowPass l (r0 * W + 1)).2.length) = _
        rw [hnext, ih (r0 + 1) fuel _ _ (by omega) hrest hrestlen, hrow, hmin]
        simp only [gridRows, assignNumbers_append, length_gridRow, List.append_assoc]
        rw [show r0 * W + 1 + W = (r0 + 1) * W + 1 by rw [Nat.succ_mul]; omega]

/-- The list left by `TransformAndNumberQuads` with the identity homography
on a grid that meets every condition but the one on its size: the rows `r`
with `r * W ≤ 199`, numbered in row-major order. -/
lemma numbering_grid_capped (g : Nat → Nat → Quad) (W H : Nat) (quads : List Quad)
    (hW : 1 ≤ W) (hperm : quads.Perm (gridList g W H))
    (hg : AxisAlignedGrid g W H) (hr : RowsResolved g W H) :
    TransformAndNumberQuads Matrix3f.identity quads
      = assignNumbers (gridRows g W 0 (min H (199 / W + 1))) 1 := by
  have hexact : ∀ q ∈ quads, CentreExact q := by
    intro q hq
    have hq' : q ∈ gridRows g W 0 H := hperm.mem_iff.1 hq
    obtain ⟨r', c', _, h2, hc', rfl⟩ := mem_gridRows.1 hq'
    exact hr.centreExact r' (by omega) c' hc'
  unfold TransformAndNumberQuads numberQuads
  rw [map_transformQuad_identity _ hexact]
  have h := numberLoop_grid_capped hW hg hr H 0 quads.length quads [] (by omega) hperm
    (Nat.le_refl _)
  simpa using h

/-- C1, amended. For every `W ≥ 1` and `H ≥ 1` with `(H - 1) * W < 200` (the
cap of 200 numbers is not reached before the last row) and every list, in any
order, of the `W * H` quads of an axis-aligned grid whose centre coordinates
are at most `2^24` in absolute value (so the conversion to `float` and back
keeps them), whose centres all have `y < 100000` and in which half the margin
of every quad (the value `margin / 2` of the code: the distance from the
centre to corner 0 as `L2norm` returns it, converted to `int` and halved) is
at least 1 and at most the distance down to every lower row,
`TransformAndNumberQuads` called with the identity homography gives the quad
of row `r`, column `c` the number `r * W + c + 1`. -/
theorem grid_numbered_row_major (g : Nat → Nat → Quad) (W H : Nat) (quads : List Quad)
    (hW : 1 ≤ W) (_hH : 1 ≤ H) (hperm : quads.Perm (gridList g W H))
    (hg : AxisAlignedGrid g W H) (hcap : (H - 1) * W < 200) (hr : RowsResolved g W H) :
    ∀ r < H, ∀ c < W, NumberedRowMajor g W quads r c := by
  intro r hrH c hc
  have hexact : ∀ q ∈ quads, CentreExact q := by
    intro q hq
    have hq' : q ∈ gridRows g W 0 H := hperm.mem_iff.1 hq
    obtain ⟨r', c', _, h2, hc', rfl⟩ := mem_gridRows.1 hq'
    exact hr.centreExact r' (by omega) c' hc'
  unfold NumberedRowMajor TransformAndNumberQuads numberQuads
  rw [map_transformQuad_identity _ hexact]
  have h := numberLoop_grid hW hg hr hcap H 0 quads.length quads [] (by omega) hperm
    (Nat.le_refl _)
  simp only [Nat.zero_mul, Nat.zero_add, List.nil_append] at h
  rw [h]
  have hget := get?_gridRows g W H 0 r c hrH hc
  rw [Nat.zero_add] at hget
  rw [get?_assignNumbers _ 1 _ _ hget]
  rw [show 1 + (r * W + c) = r * W + c + 1 by omega]

lemma pitch20_centre (r c : Nat) :
    (pitch20 r c).centre = ⟨20 * (c : Int) + 5, 20 * (r : Int) + 5⟩ := rfl

lemma pitch20_margin (r c : Nat) : rowMargin (pitch20 r c) = 7 := by
  have h : (pitch20 r c).centre.sub ((pitch20 r c).points.getD 0 ⟨0, 0⟩) = ⟨5, 5⟩ := by
    have w5 : wrapInt32 5 = 5 := by decide
    simp [pitch20, squareQuad, Point.sub, w5]
  rw [rowMargin, h]
  decide

lemma pitch20_axisAligned (W H : Nat) : AxisAlignedGrid pitch20 W H := by
  refine ⟨?_, ?_, ?_⟩
  · intro r _ c _ c' _; simp [pitch20_centre]
  · intro r _ r' _ h c _ c' _; simp only [pitch20_centre]; omega
  · intro r _ c _ c' _ h; simp only [pitch20_centre]; omega

lemma pitch20_rowsResolved (W H : Nat) (hW : W ≤ 1000) (hH : H ≤ 1000) :
    RowsResolved pitch20 W H := by
  have h3 : Int.tdiv 7 2 = 3 := by decide
  refine ⟨?_, ?_, ?_, ?_⟩
  · intro r hr c hc; simp only [CentreExact, pitch20_centre]; omega
  · intro r hr c _; simp only [pitch20_centre]; omega
  · intro r _ c _; rw [pitch20_margin]; decide
  · intro r _ r' _ h c _ c' _
    rw [pitch20_margin, h3]; simp only [pitch20_centre]; omega

/-- Witness for `grid_numbered_row_major`: the 4-row-by-8-column grid of 32
quads, given in reverse order; the corner quads get the numbers 1, 8, 25
and 32, and the numbers in the list left are 1 through 32. -/
theorem grid_numbered_row_major_witness :
    (TransformAndNumberQuads Matrix3f.identity (gridList pitch20 8 4).reverse).get? 0
        = some { pitch20 0 0 with number := 1 }
      ∧ (TransformAndNumberQuads Matrix3f.identity (gridList pitch20 8 4).reverse).get? 7
        = some { pitch20 0 7 with number := 8 }
      ∧ (TransformAndNumberQuads Matrix3f.identity (gridList pitch20 8 4).reverse).get? 24
        = some { pitch20 3 0 with number := 25 }
      ∧ (TransformAndNumberQuads Matrix3f.identity (gridList pitch20 8 4).reverse).get? 31
        = some { pitch20 3 7 with number := 32 }
      ∧ (TransformAndNumberQuads Matrix3f.identity (gridList pitch20 8 4).reverse).map
          Quad.number = (List.range' 1 32).map Int.ofNat :=
  have h := grid_numbered_row_major pitch20 8 4 (gridList pitch20 8 4).reverse
    (by decide) (by decide) (List.reverse_perm _) (pitch20_axisAligned 8 4) (by decide)
    (pitch20_rowsResolved 8 4 (by decide) (by decide))
  ⟨h 0 (by decide) 0 (by decide), h 0 (by decide) 7 (by decide),
    h 3 (by decide) 0 (by decide), h 3 (by decide) 7 (by decide),
    by simp only [TransformAndNumberQuads]; rw [map_transformQuad_identity _ (by decide)]; decide⟩

/-- C1 as stated fails, and every condition of the amended claim is needed.
Five axis-aligned grids, each with the identity homography:

1. `tinyCells`, one row of two squares of side 2, given right to left: the
   margin of each quad is `1`, half of it is `0`, so no quad joins the row of
   another; column 1 is numbered 1 and column 0 is numbered 2.
2. `closeRows`, two rows of one square: the lower row is 2 pixels below the
   upper one and half the margin is 3, so both squares form one row, which is
   sorted by `x`; the square of row 1 is numbered 1.
3. `sentinelCell`, one square with centre `y = 100000`: no quad is above the
   initial `topQuad`, which is numbered in place of the square.
4. `farCells`, one row of two squares with `x = 2^24` and `x = 2^24 + 1`,
   given right to left: the conversion to `float` maps both to `2^24`, the
   test `q.centre != topQuad.centre` keeps the second square out of the row of
   the first, and column 1 is numbered 1.
5. `pitch20` with one column and 201 rows, which meets every other condition:
   the loop stops when 200 numbers are assigned and the square of the last
   row is not in the list left. -/
theorem grid_conditions_are_needed :
    (AxisAlignedGrid tinyCells 2 1
      ∧ [tinyCells 0 1, tinyCells 0 0].Perm (gridList tinyCells 2 1)
      ∧ Int.tdiv (rowMargin (tinyCells 0 1)) 2 = 0
      ∧ (TransformAndNumberQuads Matrix3f.identity [tinyCells 0 1, tinyCells 0 0]).map
          (fun q => (q.id, q.number)) = [(1, 1), (0, 2)]
      ∧ ¬ NumberedRowMajor tinyCells 2 [tinyCells 0 1, tinyCells 0 0] 0 0)
    ∧ (AxisAlignedGrid closeRows 1 2
      ∧ [closeRows 0 0, closeRows 1 0].Perm (gridList closeRows 1 2)
      ∧ Int.tdiv (rowMargin (closeRows 0 0)) 2 = 3
      ∧ (closeRows 1 0).centre.y - (closeRows 0 0).centre.y = 2
      ∧ (TransformAndNumberQuads Matrix3f.identity [closeRows 0 0, closeRows 1 0]).map
          (fun q => (q.id, q.number)) = [(1, 1), (0, 2)]
      ∧ ¬ NumberedRowMajor closeRows 1 [closeRows 0 0, closeRows 1 0] 0 0)
    ∧ (AxisAlignedGrid sentinelCell 1 1
      ∧ [sentinelCell 0 0].Perm (gridList sentinelCell 1 1)
      ∧ (TransformAndNumberQuads Matrix3f.identity [sentinelCell 0 0]).map
          (fun q => (q.centre, q.points, q.number))
          = [(⟨100000, 100000⟩, [⟨0, 0⟩, ⟨0, 0⟩, ⟨0, 0⟩, ⟨0, 0⟩], 1)]
      ∧ ¬ NumberedRowMajor sentinelCell 1 [sentinelCell 0 0] 0 0)
    ∧ (AxisAlignedGrid farCells 2 1
      ∧ [farCells 0 1, farCells 0 0].Perm (gridList farCells 2 1)
      ∧ (TransformAndNumberQuads Matrix3f.identity [farCells 0 1, farCells 0 0]).map
          (fun q => (q.id, q.centre, q.number))
          = [(1, ⟨16777216, 50⟩, 1), (0, ⟨16777216, 50⟩, 2)]
      ∧ ¬ NumberedRowMajor farCells 2 [farCells 0 1, farCells 0 0] 0 0)
    ∧ (AxisAlignedGrid pitch20 1 201
      ∧ RowsResolved pitch20 1 201
      ∧ (TransformAndNumberQuads Matrix3f.identity (gridList pitch20 1 201)).length = 200
      ∧ ¬ NumberedRowMajor pitch20 1 (gridList pitch20 1 201) 200 0) := by
  refine ⟨⟨⟨?_, ?_, ?_⟩, ?_, ?_, ?_, ?_⟩, ⟨⟨?_, ?_, ?_⟩, ?_, ?_, ?_, ?_, ?_⟩,
    ⟨⟨?_, ?_, ?_⟩, ?_, ?_, ?_⟩, ⟨⟨?_, ?_, ?_⟩, ?_, ?_, ?_⟩, ?_⟩
  -- 1. tinyCells
  · intro r _ c _ c' _; rfl
  · intro r hr r' hr' h; omega
  · intro r hr c hc c' hc' h
    have h0 : r = 0 := by omega
    have h1 : c = 0 := by omega
    have h2 : c' = 1 := by omega
    subst h0 h1 h2
    decide
  · decide
  · decide
  · simp only [TransformAndNumberQuads]
    rw [map_transformQuad_identity _ (by decide)]
    decide
  · simp only [NumberedRowMajor, TransformAndNumberQuads]
    rw [map_transformQuad_identity _ (by decide)]
    decide
  -- 2. closeRows
  · intro r _ c hc c' hc'
    have h1 : c = 0 := by omega
    have h2 : c' = 0 := by omega
    subst h1 h2
    rfl
  · intro r _ r' _ h c _ c' _
    simp only [closeRows, squareQuad]
    omega
  · intro r _ c hc c' hc' h; omega
  · decide
  · decide
  · decide
  · simp only [TransformAndNumberQuads]
    rw [map_transformQuad_identity _ (by decide)]
    decide
  · simp only [NumberedRowMajor, TransformAndNumberQuads]
    rw [map_transformQuad_identity _ (by decide)]
    decide
  -- 3. sentinelCell
  · intro r _ c _ c' _; rfl
  · intro r hr r' hr' h; omega
  · intro r _ c hc c' hc' h; omega
  · decide
  · simp only [TransformAndNumberQuads]
    rw [map_transformQuad_identity _ (by decide)]
    decide
  · simp only [NumberedRowMajor, TransformAndNumberQuads]
    rw [map_transformQuad_identity _ (by decide)]
    decide
  -- 4. farCells
  · intro r _ c _ c' _; rfl
  · intro r hr r' hr' h; omega
  · intro r _ c hc c' hc' h
    simp only [farCells, squareQuad]
    omega
  · decide
  · simp only [TransformAndNumberQuads, List.map_cons, List.map_nil,
      transformQuad_identity_farCell, transformQuad_identity (farCells 0 0) (by decide)]
    decide
  · simp only [NumberedRowMajor, TransformAndNumberQuads, List.map_cons, List.map_nil,
      transformQuad_identity_farCell, transformQuad_identity (farCells 0 0) (by decide)]
    decide
  -- 5. pitch20 with 201 rows
  · have hr := pitch20_rowsResolved 1 201 (by decide) (by decide)
    have hnum := numbering_grid_capped pitch20 1 201 (gridList pitch20 1 201) (Nat.le_refl _)
      (List.Perm.refl _) (pitch20_axisAligned 1 201) hr
    have hmin : min 201 (199 / 1 + 1) = 200 := by decide
    have hlen : (TransformAndNumberQuads Matrix3f.identity (gridList pitch20 1 201)).length
        = 200 := by
      rw [hnum, hmin, assignNumbers_length, length_gridRows]
    refine ⟨pitch20_axisAligned 1 201, hr, hlen, ?_⟩
    unfold NumberedRowMajor
    rw [List.get?_eq_none.2 (by rw [hlen])]
    exact fun h => Option.noConfusion h

/-! ## Merging detections into the pool -/

lemma foundInPool_eq_false {q1 : Quad} {pool : List Quad} :
    foundInPool q1 pool = false ↔ ∀ a ∈ pool, closeTo q1 a = false := by
  induction pool with
  | nil => simp [foundInPool]
  | cons a rest ih =>
    by_cases h : closeTo q1 a = true
    · simp [foundInPool, h]
    · have h' : closeTo q1 a = false := by simpa using h
      simp [foundInPool, h', ih]

lemma foundInPool_of_mem {q1 a : Quad} {pool : List Quad} (ha : a ∈ pool)
    (hc : closeTo q1 a = true) : foundInPool q1 pool = true := by
  by_contra h
  have h' : foundInPool q1 pool = false := by simpa using h
  have := foundInPool_eq_false.1 h' a ha
  rw [hc] at this
  exact Bool.noConfusion this

lemma mergeOne_addedFar (base added : List Quad) (q1 : Quad) (h : AddedFar base added) :
    ∃ added', mergeOne (base ++ added) q1 = base ++ added' ∧ AddedFar base added' := by
  unfold mergeOne
  by_cases hf : foundInPool q1 (base ++ added) = true
  · exact ⟨added, by simp [hf], h⟩
  · have hf' : foundInPool q1 (base ++ added) = false := by simpa using hf
    have hall := foundInPool_eq_false.1 hf'
    refine ⟨added ++ [q1], by simp [hf'], ?_, ?_⟩
    · rw [List.pairwise_append]
      refine ⟨h.1, by simp, ?_⟩
      intro a ha b hb
      rw [List.mem_singleton.1 hb]
      exact hall a (List.mem_append_right _ ha)
    · intro a ha b hb
      rcases List.mem_append.1 hb with hb | hb
      · exact h.2 a ha b hb
      · rw [List.mem_singleton.1 hb]
        exact hall a (List.mem_append_left _ ha)

lemma foldl_mergeOne_addedFar (base : List Quad) (found : List Quad) :
    ∀ added, AddedFar base added →
      ∃ added', found.foldl mergeOne (base ++ added) = base ++ added' ∧ AddedFar base added' := by
  induction found with
  | nil => intro added h; exact ⟨added, rfl, h⟩
  | cons q1 rest ih =>
    intro added h
    obtain ⟨added1, h1, h2⟩ := mergeOne_addedFar base added q1 h
    obtain ⟨added2, h3, h4⟩ := ih added1 h2
    exact ⟨added2, by rw [List.foldl_cons, h1, h3], h4⟩

lemma mergeDetections_addedFar (base : List Quad) (hbase : base ≠ []) (found : List Quad)
    (added : List Quad) (h : AddedFar base added) :
    ∃ added', mergeDetections (base ++ added) found = base ++ added' ∧ AddedFar base added' := by
  have hne : (base ++ added).isEmpty = false := by
    cases base with
    | nil => exact absurd rfl hbase
    | cons a rest => rfl
  unfold mergeDetections
  rw [hne]
  exact foldl_mergeOne_addedFar base found added h

lemma foldl_mergeDetections_addedFar (base : List Quad) (hbase : base ≠ [])
    (sets : List (List Quad)) :
    ∀ added, AddedFar base added →
      ∃ added', sets.foldl mergeDetections (base ++ added) = base ++ added'
        ∧ AddedFar base added' := by
  induction sets with
  | nil => intro added h; exact ⟨added, rfl, h⟩
  | cons s rest ih =>
    intro added h
    obtain ⟨added1, h1, h2⟩ := mergeDetections_addedFar base hbase s added h
    obtain ⟨added2, h3, h4⟩ := ih added1 h2
    exact ⟨added2, by rw [List.foldl_cons, h1, h3], h4⟩

/-- C7, amended. Starting from an empty pool, after the merge step has
processed any sequence of detection sets, the pool is the first non-empty
detection set, kept whole, followed by quads each of which failed the
proximity test of the code against every quad stored before it: for every two
quads `a`, `b` of the pool with `a` stored before `b` and `b` not in that
first set, the distance between the centres, as a `float`, is not less than
the `float` `diagLength`, one quarter of the longest diagonal of `a`. -/
theorem pool_deduplicated_after_first_batch (sets : List (List Quad)) :
    ∃ added, mergeAll sets = firstBatch sets ++ added
      ∧ added.Pairwise (fun a b => closeTo b a = false)
      ∧ ∀ a ∈ firstBatch sets, ∀ b ∈ added, closeTo b a = false := by
  unfold mergeAll
  induction sets with
  | nil => exact ⟨[], rfl, List.Pairwise.nil, by simp⟩
  | cons s rest ih =>
    by_cases hs : s = []
    · subst hs
      simpa [firstBatch, mergeDetections] using ih
    · have hemp : s.isEmpty = false := by
        cases s with
        | nil => exact absurd rfl hs
        | cons a l => rfl
      have hfirst : firstBatch (s :: rest) = s := by simp [firstBatch, hemp]
      have hstart : mergeDetections [] s = s ++ [] := by simp [mergeDetections]
      rw [List.foldl_cons, hstart, hfirst]
      obtain ⟨added, h1, h2⟩ := foldl_mergeDetections_addedFar s hs rest []
        ⟨List.Pairwise.nil, by simp⟩
      exact ⟨added, h1, h2.1, h2.2⟩

/-- C7 as stated fails, in two ways. The first detection set reaches an empty
pool and is kept whole: two detections with the same centre both stay in the
pool. And a later detection is compared in `float`: the longest diagonal of
`flatQuad` is `4100.000122`, stored as `4100`, so `diagLength` is `1025`; a
square whose centre is at distance `1025`, less than a quarter of the
diagonal, is not found close and is added. -/
theorem pool_not_deduplicated :
    mergeAll [[squareQuad 0 5 5 5, squareQuad 1 5 5 5]]
        = [squareQuad 0 5 5 5, squareQuad 1 5 5 5]
      ∧ ¬ Deduplicated (mergeAll [[squareQuad 0 5 5 5, squareQuad 1 5 5 5]])
      ∧ longestDiagonalSq flatQuad = 4100 * 4100 + 1
      ∧ distSq (squareQuad 1 3075 0 5).centre flatQuad.centre = 1025 * 1025
      ∧ (GetLongestDiagonal flatQuad).quarter = ⟨8396800, 13⟩
      ∧ DistBetweenPoints (squareQuad 1 3075 0 5).centre flatQuad.centre = ⟨8396800, 13⟩
      ∧ mergeAll [[flatQuad], [squareQuad 1 3075 0 5]] = [flatQuad, squareQuad 1 3075 0 5]
      ∧ ¬ Deduplicated (mergeAll [[flatQuad], [squareQuad 1 3075 0 5]]) := by
  refine ⟨by decide, ?_, by decide, by decide, by decide, by decide, by decide, ?_⟩
  · unfold Deduplicated
    decide
  · unfold Deduplicated
    decide

lemma foldl_mergeOne_found (found : List Quad) :
    ∀ pool, (∀ q ∈ found, foundInPool q pool = true) → found.foldl mergeOne pool = pool := by
  induction found with
  | nil => intro pool _; rfl
  | cons q rest ih =>
    intro pool h
    have hq : mergeOne pool q = pool := by
      simp [mergeOne, h q (List.mem_cons_self _ _)]
    rw [List.foldl_cons, hq]
    exact ih pool (fun a ha => h a (List.mem_cons_of_mem _ ha))

/-- C8, amended. For every detection set `D` all of whose quads have a non-zero
longest diagonal, merging `D` into an empty pool and then merging the same set
a second time leaves the pool as it was after the first merge. -/
theorem merge_twice_idempotent (D : List Quad) (hD : ∀ q ∈ D, 0 < longestDiagonalSq q) :
    mergeDetections (mergeDetections [] D) D = mergeDetections [] D := by
  have h1 : mergeDetections [] D = D := by simp [mergeDetections]
  rw [h1]
  unfold mergeDetections
  split
  · apply foldl_mergeOne_found
    intro q hq
    apply foundInPool_of_mem hq
    exact closeTo_self q (hD q hq)
  · rename_i h
    have : D = [] := by simpa using h
    subst this
    rfl

/-- Witness for `merge_twice_idempotent`: two squares of side 10. -/
theorem merge_twice_idempotent_witness :
    mergeDetections (mergeDetections [] [squareQuad 0 5 5 5, squareQuad 1 45 5 5])
        [squareQuad 0 5 5 5, squareQuad 1 45 5 5]
      = mergeDetections [] [squareQuad 0 5 5 5, squareQuad 1 45 5 5] :=
  merge_twice_idempotent [squareQuad 0 5 5 5, squareQuad 1 45 5 5] (by decide)

/-- C8 as stated fails. A quad whose four corners coincide has longest
diagonal `0`; its distance `0` to itself is not below a quarter of that, so
the second merge of the same set stores it again. -/
theorem degenerate_quad_merged_twice :
    mergeDetections [] [squareQuad 0 5 5 0] = [squareQuad 0 5 5 0]
      ∧ mergeDetections (mergeDetections [] [squareQuad 0 5 5 0]) [squareQuad 0 5 5 0]
        = [squareQuad 0 5 5 0, squareQuad 0 5 5 0] := by
  decide

/-! ## Linking corners -/

/-- C9 (the code at the failing input). On `spuriousTriple` the loop links
corner 2 of quad 0 first with quad 1 and then with quad 2: slot 2 of quad 0 is
overwritten with `(2, 0)`, while slot 0 of quad 1 still holds `(0, 2)`. The
slot of quad 1 is set and not answered. -/
theorem overwritten_slot_not_symmetric :
    (linkCorners spuriousTriple).map (fun q => (q.id, q.associatedCorners))
        = [ (0, [(-1, -1), (-1, -1), (2, 0), (-1, -1)]),
            (1, [(0, 2), (2, 3), (-1, -1), (-1, -1)]),
            (2, [(0, 2), (-1, -1), (-1, -1), (1, 1)]) ]
      ∧ ¬ SymmetricLinks (linkCorners spuriousTriple) := by
  refine ⟨by decide, ?_⟩
  unfold SymmetricLinks
  decide

/-- C10 (the code at the failing input). On `spuriousTriple` quad 0 is linked
twice through the same corner: its counter `numLinkedCorners` is 2 while only
one of its association slots is non-empty. -/
theorem counter_exceeds_used_slots :
    (linkCorners spuriousTriple).map (fun q => (q.id, q.numLinkedCorners, linkedSlots q))
        = [(0, 2, 1), (1, 2, 2), (2, 2, 2)]
      ∧ ¬ DegreeCountsSlots (linkCorners spuriousTriple) := by
  refine ⟨by decide, ?_⟩
  unfold DegreeCountsSlots
  decide

/-! ## Matching the corners -/

lemma pairRemaining_length (corners : List Quad) (closeCorner farCorner : Quad)
    (roles : Point × Point × Point) (i : Nat) (rest : List Nat) :
    (pairRemaining corners closeCorner farCorner roles (i :: rest)).length = 1 := by
  simp only [pairRemaining]
  split
  · rfl
  · split <;> rfl

lemma buildMatches_length (s : CornerSearch) : (buildMatches s).length = 2 := by
  simp only [buildMatches]
  split <;> simp [pairRemaining_length]

lemma buildMatches_detected (s : CornerSearch) :
    (buildMatches s).map Prod.snd
      = [(s.corners.getD 0 defaultQuad).centre, (s.corners.getD 1 defaultQuad).centre] := by
  simp only [buildMatches]
  split <;> (simp only [pairRemaining]; split <;> [rfl; (split <;> rfl)])

/-- The linked checkerboard: identifier, centre, association slots and link
degree of every quad after the corner-linking loop. -/
lemma linkedBoard_table :
    linkedBoard.map (fun q => (q.id, q.centre, q.associatedCorners, q.numLinkedCorners))
      = [ (0, ⟨10, 10⟩, [(-1, -1), (3, 3), (-1, -1), (-1, -1)], 1),
          (1, ⟨50, 10⟩, [(-1, -1), (-1, -1), (4, 0), (3, 0)], 2),
          (2, ⟨90, 10⟩, [(-1, -1), (-1, -1), (-1, -1), (4, 1)], 1),
          (3, ⟨30, 30⟩, [(1, 3), (6, 0), (5, 1), (0, 1)], 4),
          (4, ⟨70, 30⟩, [(1, 2), (2, 3), (7, 0), (6, 1)], 4),
          (5, ⟨10, 50⟩, [(-1, -1), (3, 2), (-1, -1), (-1, -1)], 1),
          (6, ⟨50, 50⟩, [(3, 1), (4, 3), (-1, -1), (-1, -1)], 2),
          (7, ⟨90, 50⟩, [(4, 2), (-1, -1), (-1, -1), (-1, -1)], 1) ] := by
  decide

/-- C3 (what the code returns). Whenever `MatchCornersForHomography` returns,
it returns exactly two correspondences, whatever the number of quads of link
degree 1: the loops over the remaining corners leave by `break` in their
first pass. -/
theorem matchCorners_returns_two_pairs (fuel : Nat) (gtQuads quads : List Quad)
    (m : List (Point × Point))
    (h : MatchCornersForHomography fuel gtQuads quads = Outcome.done m) : m.length = 2 := by
  unfold MatchCornersForHomography at h
  split at h
  · rename_i s _
    have hm : m = buildMatches s := by
      injection h with h; exact h.symm
    rw [hm]
    exact buildMatches_length s
  · exact Outcome.noConfusion h
  · exact Outcome.noConfusion h

/-- Witness for `matchCorners_returns_two_pairs`: the linked checkerboard of
3 rows and 5 columns has the four quads 0, 2, 5, 7 of link degree 1, and
`MatchCornersForHomography` returns two correspondences for it. -/
theorem matchCorners_returns_two_pairs_witness :
    (linkedBoard.filter (fun q => decide (q.numLinkedCorners = 1))).map Quad.id = [0, 2, 5, 7]
      ∧ MatchCornersForHomography 60 groundTruthBoard linkedBoard
        = Outcome.done [(⟨90, 50⟩, ⟨10, 10⟩), (⟨10, 10⟩, ⟨90, 10⟩)]
      ∧ ([(⟨90, 50⟩, ⟨10, 10⟩), (⟨10, 10⟩, ⟨90, 10⟩)] : List (Point × Point)).length = 2 :=
  ⟨by decide, by decide,
    matchCorners_returns_two_pairs 60 groundTruthBoard linkedBoard _ (by decide)⟩

/-- C4 (the code at the failing input). On the linked checkerboard the ground
truth corners are at `(10, 10)` (top-left), `(90, 10)` (top-right), `(10, 50)`
(bottom-left) and `(90, 50)` (bottom-right); the detected corners are the
quads centred at `(10, 10)`, `(90, 10)`, `(10, 50)`, `(90, 50)`, and both walks
end in the starting corner. The result pairs the starting corner with
bottom-right and the second detected corner with top-left; the two other
detected corners are paired with nothing, and top-right and bottom-left with
no detected corner. -/
theorem only_first_two_corners_paired :
    (groundTruthCorners groundTruthBoard).map
        (fun g => (g.topleft.centre, g.topright.centre, g.bottomleft.centre,
          g.bottomright.centre))
        = some (⟨10, 10⟩, ⟨90, 10⟩, ⟨10, 50⟩, ⟨90, 50⟩)
      ∧ (searchCorners 60 groundTruthBoard linkedBoard).map
          (fun s => (s.corners.map Quad.centre, s.closeCorner.centre, s.farCorner.centre))
        = Outcome.done ([⟨10, 10⟩, ⟨90, 10⟩, ⟨10, 50⟩, ⟨90, 50⟩], ⟨10, 10⟩, ⟨10, 10⟩)
      ∧ MatchCornersForHomography 60 groundTruthBoard linkedBoard
        = Outcome.done [(⟨90, 50⟩, ⟨10, 10⟩), (⟨10, 10⟩, ⟨90, 10⟩)] := by
  refine ⟨by decide, by decide, by decide⟩

/-! ## Adequacy of the model: loop bounds -/

lemma rowPass_remaining_lt (localQuads : List Quad) (k : Nat) (hne : localQuads ≠ []) :
    (rowPass localQuads k).1.length < localQuads.length := by
  have hpos : 0 < localQuads.length := List.length_pos.2 hne
  have herase : (localQuads.eraseIdx (findTop localQuads initialTopQuad 0 0).2).length
      < localQuads.length := by
    rcases findTop_spec localQuads initialTopQuad 0 0 with ⟨heq, _⟩ | ⟨l1, l2, hl, hidx, _⟩
    · rw [heq, List.length_eraseIdx]
      simp [hpos]
    · rw [List.length_eraseIdx]
      have : (findTop localQuads initialTopQuad 0 0).2 < localQuads.length := by
        rw [hidx]; conv_rhs => rw [hl]
        simp
      simp [this]; omega
  simp only [rowPass]
  rw [collectRow_eq _ _ _ _ _ (Nat.le_refl _)]
  exact Nat.lt_of_le_of_lt (List.length_filter_le _ _) herase

/-- The bound on the passes of the outer loop is not reached: any two bounds
of at least `localQuads.length` passes give the same result. -/
lemma numberLoop_fuel_irrelevant (fuel1 : Nat) :
    ∀ (fuel2 : Nat) (localQuads orderedQuads : List Quad) (quadNumber : Nat),
      localQuads.length ≤ fuel1 → localQuads.length ≤ fuel2 →
      numberLoop fuel1 localQuads orderedQuads quadNumber
        = numberLoop fuel2 localQuads orderedQuads quadNumber := by
  induction fuel1 with
  | zero =>
    intro fuel2 l o k h1 _
    have : l = [] := List.length_eq_zero.1 (Nat.le_zero.1 h1)
    subst this
    cases fuel2 <;> simp [numberLoop]
  | succ fuel1 ih =>
    intro fuel2 l o k h1 h2
    by_cases hemp : l = []
    · subst hemp
      cases fuel2 <;> simp [numberLoop]
    · have hlt := rowPass_remaining_lt l k hemp
      cases fuel2 with
      | zero =>
        exact absurd (List.length_eq_zero.1 (Nat.le_zero.1 h2)) hemp
      | succ fuel2 =>
        unfold numberLoop
        split
        · rfl
        · split
          · rfl
          · exact ih fuel2 _ _ _ (by omega) (by omega)

/-! ## The result of `CheckerDetection` -/

lemma length_updateQuad (quads : List Quad) (i : Nat) (f : Quad → Quad) :
    (updateQuad quads i f).length = quads.length := by
  simp [updateQuad]

lemma length_linkPair (diag1Sq : Int) (i j : Nat) (quads : List Quad) :
    (linkPair diag1Sq i j quads).length = quads.length := by
  unfold linkPair
  split
  · split
    · rfl
    · split
      · rfl
      · split
        · rfl
        · simp only [length_updateQuad]
  · rfl

lemma length_foldl_of_preserving {α : Type} (f : List Quad → α → List Quad)
    (hf : ∀ s a, (f s a).length = s.length) (l : List α) :
    ∀ s, (l.foldl f s).length = s.length := by
  induction l with
  | nil => intro s; rfl
  | cons a rest ih => intro s; rw [List.foldl_cons, ih, hf]

lemma length_linkFrom (i : Nat) (quads : List Quad) :
    (linkFrom i quads).length = quads.length := by
  unfold linkFrom
  exact length_foldl_of_preserving _ (fun s j => length_linkPair _ _ _ _) _ _

lemma length_linkCorners (quads : List Quad) : (linkCorners quads).length = quads.length := by
  unfold linkCorners
  exact length_foldl_of_preserving _ (fun s i => length_linkFrom _ _) _ _

/-- C12. When thresholding succeeds, `CheckerDetection` reports failure if and
only if the number of quads in the pool after all erosion iterations is below
24; with 24 or more it reports success. -/
theorem detection_fails_iff_fewer_than_24 (sets : List (List Quad)) (quads : List Quad) :
    ((CheckerDetection true sets quads).1 = false
        ↔ (sets.foldl mergeDetections quads).length < 24)
      ∧ ((CheckerDetection true sets quads).1 = true
        ↔ 24 ≤ (sets.foldl mergeDetections quads).length) := by
  simp only [CheckerDetection, length_linkCorners]
  by_cases h : (sets.foldl mergeDetections quads).length < 24
  · simp [h]
  · simp [h]; omega

/-! ## Termination of `TransformAndNumberQuads` -/

lemma collectRowBounded_eq (topQuad : Quad) (margin : Int) (fuel : Nat) :
    ∀ (localQuads thisRow : List Quad), localQuads.length < fuel →
      collectRowBounded topQuad margin fuel localQuads thisRow
        = Outcome.done (localQuads.filter (fun q => !inRow topQuad margin q),
            thisRow ++ localQuads.filter (inRow topQuad margin)) := by
  induction fuel with
  | zero => intro l row hl; omega
  | succ fuel ih =>
    intro l row hl
    rcases findIdx?_split (inRow topQuad margin) l with ⟨hn, hall⟩ | ⟨l1, q, l2, hl', hi, hq, h1⟩
    · have h1 : l.filter (inRow topQuad margin) = [] := by
        rw [List.filter_eq_nil_iff]; intro a ha; simp [hall a ha]
      have h2 : l.filter (fun q => !inRow topQuad margin q) = l := by
        rw [List.filter_eq_self]; intro a ha; simp [hall a ha]
      simp [collectRowBounded, hn, h1, h2]
    · have hget : l.get? l1.length = some q := by
        subst hl'
        rw [List.get?_eq_getElem?, List.getElem?_append_right (Nat.le_refl _)]
        simp
      have herase : l.eraseIdx l1.length = l1 ++ l2 := by
        subst hl'
        rw [List.eraseIdx_append_of_length_le (Nat.le_refl _)]
        simp
      have hlen : (l1 ++ l2).length < fuel := by
        subst hl'; simp at hl ⊢; omega
      have hf1 : l1.filter (inRow topQuad margin) = [] := by
        rw [List.filter_eq_nil_iff]; intro a ha; simp [h1 a ha]
      have hf2 : l1.filter (fun q => !inRow topQuad margin q) = l1 := by
        rw [List.filter_eq_self]; intro a ha; simp [h1 a ha]
      simp only [collectRowBounded, hi, hget, herase]
      rw [ih _ _ hlen]
      subst hl'
      simp [List.filter_append, hf1, hf2, List.filter_cons, hq]

lemma numberLoopBounded_eq (fuel : Nat) :
    ∀ (localQuads orderedQuads : List Quad) (quadNumber : Nat),
      localQuads.length < fuel →
      numberLoopBounded fuel localQuads orderedQuads quadNumber
        = Outcome.done (numberLoop localQuads.length localQuads orderedQuads quadNumber) := by
  induction fuel with
  | zero => intro l o k hl; omega
  | succ fuel ih =>
    intro l o k hl
    by_cases hemp : l = []
    · subst hemp
      simp [numberLoopBounded, numberLoop]
    · have hlt := rowPass_remaining_lt l k hemp
      obtain ⟨n, hn⟩ : ∃ n, l.length = n + 1 :=
        ⟨l.length - 1, by have := List.length_pos.2 hemp; omega⟩
      have hne : ¬ l.isEmpty = true := by simpa using hemp
      rw [hn]
      unfold numberLoopBounded numberLoop
      rw [if_neg hne, if_neg hne]
      split
      · rfl
      · show numberLoopBounded fuel (rowPass l k).1 _ _ = Outcome.done (numberLoop n _ _ _)
        rw [ih _ _ _ (by omega)]
        congr 1
        exact numberLoop_fuel_irrelevant _ _ _ _ _ (Nat.le_refl _) (by omega)

lemma length_eraseIdx_of_findIdx? (p : Quad → Bool) (l : List Quad) (i : Nat)
    (h : l.findIdx? p = some i) : (l.eraseIdx i).length + 1 = l.length := by
  rcases findIdx?_split p l with ⟨hn, _⟩ | ⟨l1, q, l2, hl, hi, _, _⟩
  · rw [hn] at h; exact Option.noConfusion h
  · rw [hi] at h
    injection h with h
    subst h
    subst hl
    rw [List.eraseIdx_append_of_length_le (Nat.le_refl _)]
    simp
    omega

/-- C20. `TransformAndNumberQuads` terminates on every input: for every
homography and every list the numbering loop ends within `quads.size() + 1`
evaluations of its condition and delivers its result; every pass of the row
loop removes at least one quad from the remaining set; the inner
row-collection loop ends within `localQuads.size() + 1` passes, and every
pass of it that finds a quad removes exactly one. -/
theorem numbering_terminates (H : Matrix3f) (quads : List Quad) :
    numberLoopBounded (quads.length + 1) (quads.map (transformQuad H)) [] 1
        = Outcome.done (TransformAndNumberQuads H quads)
      ∧ (∀ (localQuads : List Quad) (quadNumber : Nat), localQuads ≠ [] →
          (rowPass localQuads quadNumber).1.length < localQuads.length)
      ∧ (∀ (topQuad : Quad) (margin : Int) (localQuads thisRow : List Quad),
          collectRowBounded topQuad margin (localQuads.length + 1) localQuads thisRow
            = Outcome.done (collectRow topQuad margin localQuads.length localQuads thisRow))
      ∧ (∀ (topQuad : Quad) (margin : Int) (localQuads : List Quad) (i : Nat),
          localQuads.findIdx? (inRow topQuad margin) = some i →
            (localQuads.eraseIdx i).length + 1 = localQuads.length) := by
  refine ⟨?_, ?_, ?_, ?_⟩
  · have h := numberLoopBounded_eq (quads.length + 1) (quads.map (transformQuad H)) [] 1
      (by simp)
    rw [h]
    simp [TransformAndNumberQuads, numberQuads]
  · intro l k h
    exact rowPass_remaining_lt l k h
  · intro t m l row
    rw [collectRowBounded_eq t m _ l row (Nat.lt_succ_self _),
      collectRow_eq t m _ l row (Nat.le_refl _)]
  · intro t m l i h
    exact length_eraseIdx_of_findIdx? _ l i h

/-! ## Decomposition of the homography -/

/-- C14, amended. Whether `ComputeIntrinsicsAndExtrinsicFromHomography` reports
success or failure, on return `K` holds the factor `L` and `T` holds
`K^-1 * H`; the values `K` and `T` had before the call are not kept. -/
theorem outputs_overwritten_in_every_case (matrixL : Matrix3f → Matrix3f)
    (H K T : Matrix3f) :
    (ComputeIntrinsicsAndExtrinsicFromHomography matrixL H K T).2
      = (matrixL H, (matrixL H).inverse.mul H) := by
  simp only [ComputeIntrinsicsAndExtrinsicFromHomography]
  split <;> rfl

lemma ldltMatrixL_shear : ldltMatrixL shearMatrix = Matrix3f.identity := by
  simp [ldltMatrixL, shearMatrix, Matrix3f.identity]

lemma inverse_identity : Matrix3f.identity.inverse = Matrix3f.identity := by
  simp [Matrix3f.inverse, Matrix3f.det, Matrix3f.identity]

lemma identity_mul (A : Matrix3f) : Matrix3f.identity.mul A = A := by
  simp [Matrix3f.mul, Matrix3f.identity]

/-- C14 as stated fails. For the shear matrix the first two columns of `T`
have dot product `1`: the function reports failure, and `K`, which held the
zero matrix before the call, holds the identity afterwards (`T` holds the
shear matrix). -/
theorem failure_leaves_partial_result :
    ComputeIntrinsicsAndExtrinsicFromHomography ldltMatrixL shearMatrix zeroMatrix zeroMatrix
        = (false, Matrix3f.identity, shearMatrix)
      ∧ Matrix3f.identity.m00 ≠ zeroMatrix.m00 := by
  constructor
  · simp only [ComputeIntrinsicsAndExtrinsicFromHomography, ldltMatrixL_shear,
      inverse_identity, identity_mul]
    norm_num [Matrix3f.dotCol01, shearMatrix]
  · norm_num [Matrix3f.identity, zeroMatrix]

lemma ldltMatrixL_lower :
    ldltMatrixL lowerMatrix
      = { m00 := 1, m01 := 0, m02 := 0
          m10 := 1 / 2, m11 := 1, m12 := 0
          m20 := 0, m21 := 0, m22 := 1 } := by
  simp only [ldltMatrixL, lowerMatrix, Matrix3f.mk.injEq]
  norm_num

/-- C15 (the code at the failing input). For the matrix with rows
`(4, 0, 0)`, `(2, 3, 0)`, `(0, 0, 1)` the function succeeds (the first two
columns of `T`, `(4, 0, 0)` and `(0, 3, 0)`, are orthogonal) and returns
`K = L` with the entry `1/2` below the diagonal: `K` is unit lower-triangular
and not upper-triangular. -/
theorem intrinsic_matrix_is_lower_triangular :
    ComputeIntrinsicsAndExtrinsicFromHomography ldltMatrixL lowerMatrix zeroMatrix zeroMatrix
        = (true,
            { m00 := 1, m01 := 0, m02 := 0
              m10 := 1 / 2, m11 := 1, m12 := 0
              m20 := 0, m21 := 0, m22 := 1 },
            { m00 := 4, m01 := 0, m02 := 0
              m10 := 0, m11 := 3, m12 := 0
              m20 := 0, m21 := 0, m22 := 1 })
      ∧ ¬ (ComputeIntrinsicsAndExtrinsicFromHomography ldltMatrixL lowerMatrix
            zeroMatrix zeroMatrix).2.1.IsUpperTriangular := by
  have hT : (ldltMatrixL lowerMatrix).inverse.mul lowerMatrix
      = { m00 := 4, m01 := 0, m02 := 0
          m10 := 0, m11 := 3, m12 := 0
          m20 := 0, m21 := 0, m22 := 1 } := by
    rw [ldltMatrixL_lower]
    simp only [Matrix3f.inverse, Matrix3f.det, Matrix3f.mul, lowerMatrix, Matrix3f.mk.injEq]
    norm_num
  have hres : ComputeIntrinsicsAndExtrinsicFromHomography ldltMatrixL lowerMatrix
      zeroMatrix zeroMatrix
      = (true,
          { m00 := 1, m01 := 0, m02 := 0
            m10 := 1 / 2, m11 := 1, m12 := 0
            m20 := 0, m21 := 0, m22 := 1 },
          { m00 := 4, m01 := 0, m02 := 0
            m10 := 0, m11 := 3, m12 := 0
            m20 := 0, m21 := 0, m22 := 1 }) := by
    simp only [ComputeIntrinsicsAndExtrinsicFromHomography, hT]
    rw [ldltMatrixL_lower]
    norm_num [Matrix3f.dotCol01]
  refine ⟨hres, ?_⟩
  rw [hres]
  simp [Matrix3f.IsUpperTriangular]

/-! ## The corner walk -/

/-- The linked chain: identifier, association slots and link degree of every
quad after the corner-linking loop. -/
lemma linkedChain_table :
    linkedChain.map (fun q => (q.id, q.associatedCorners, q.numLinkedCorners))
      = [ (0, [(1, 2), (-1, -1), (-1, -1), (2, 1)], 2),
          (1, [(3, 2), (-1, -1), (0, 0), (-1, -1)], 2),
          (2, [(-1, -1), (0, 3), (-1, -1), (-1, -1)], 1),
          (3, [(-1, -1), (-1, -1), (1, 0), (-1, -1)], 1) ] := by
  decide

/-- C18 (the code at the failing input). In the linked chain every identifier
is the position in the list and the links are symmetric; from the edge quad 1,
adjacent to the root quad 0, the links that do not lead back form the chain
quad 1, quad 3, and quad 3 has link degree 1. Slot 0 of quad 1 holds `(3, 2)`:
quad 3, corner 2. The walk takes `quads[2]`, the quad at the position given by
the corner index, stores quad 2 in `corner` and returns 1; the quad with the
stored identifier is quad 3 and the chain has 2 quads. -/
theorem walk_follows_corner_index :
    linkedChain.map Quad.id = [0, 1, 2, 3]
      ∧ SymmetricLinks linkedChain
      ∧ slotOf (linkedChain.getD 1 defaultQuad) 0 = (3, 2)
      ∧ (FindCornerFromEdgeQuad 10 (linkedChain.getD 0 defaultQuad)
            (linkedChain.getD 1 defaultQuad) linkedChain).map
          (fun r => (r.1, r.2.map Quad.id)) = Outcome.done (1, some 2) := by
  refine ⟨by decide, ?_, by decide, by decide⟩
  unfold SymmetricLinks
  decide

lemma walkSlots_no_links (root : Quad) (quads : List Quad) (curQuad : Quad) :
    ∀ (slots : List Nat) (newIndex : Int), (∀ i ∈ slots, (slotOf curQuad i).1 = -1) →
      walkSlots root quads slots curQuad newIndex = some (curQuad, newIndex, none) := by
  intro slots
  induction slots with
  | nil => intro n _; rfl
  | cons i rest ih =>
    intro n hno
    unfold walkSlots
    simp [hno i (List.mem_cons_self _ _), ih n (fun k hk => hno k (List.mem_cons_of_mem _ hk))]

lemma cornerWalk_no_links (root : Quad) (quads : List Quad) (curQuad : Quad)
    (hno : ∀ i < 4, (slotOf curQuad i).1 = -1) (hdeg : curQuad.numLinkedCorners ≠ 1) :
    ∀ (fuel : Nat) (num : Int) (corner : Option Quad),
      cornerWalk root quads fuel curQuad num corner = Outcome.timeout := by
  intro fuel
  induction fuel with
  | zero => intro num corner; rfl
  | succ fuel ih =>
    intro num corner
    unfold cornerWalk
    rw [walkSlots_no_links root quads curQuad [0, 1, 2, 3] (-1)
      (fun i hi => hno i (by simp at hi; omega))]
    simp [hdeg, ih]

lemma cornerWalk_mono (root : Quad) (quads : List Quad) (fuel : Nat) :
    ∀ (curQuad : Quad) (num : Int) (corner : Option Quad) (r : Int × Option Quad),
      cornerWalk root quads fuel curQuad num corner = Outcome.done r →
      ∀ fuel', fuel ≤ fuel' → cornerWalk root quads fuel' curQuad num corner = Outcome.done r := by
  induction fuel with
  | zero => intro c n k r h; exact Outcome.noConfusion h
  | succ fuel ih =>
    intro c n k r h fuel' hle
    obtain ⟨m, rfl⟩ : ∃ m, fuel' = m + 1 := ⟨fuel' - 1, by omega⟩
    unfold cornerWalk at h ⊢
    split
    · rename_i hw; rw [hw] at h; exact h
    · rename_i c' ni found hw
      rw [hw] at h
      simp only at h ⊢
      split
      · rename_i hd
        rw [if_pos hd] at h
        exact ih _ _ _ _ h m (by omega)
      · rename_i hd
        rw [if_neg hd] at h
        exact h

/-- C19, amended. `FindCornerFromEdgeQuad` has no bound on the number of passes
of its loop. Once the walk has ended, allowing more passes leaves the result
as it is; but for every branch with no links and a link degree other than 1
the walk never ends. -/
theorem walk_has_no_bound (root branch : Quad) (quads : List Quad) :
    (∀ (fuel : Nat) (r : Int × Option Quad),
        FindCornerFromEdgeQuad fuel root branch quads = Outcome.done r →
        ∀ fuel', fuel ≤ fuel' →
          FindCornerFromEdgeQuad fuel' root branch quads = Outcome.done r)
      ∧ ((∀ i < 4, (slotOf branch i).1 = -1) → branch.numLinkedCorners ≠ 1 →
          NeverReturns root branch quads) := by
  refine ⟨?_, ?_⟩
  · intro fuel r h fuel' hle
    exact cornerWalk_mono root quads fuel branch 1 none r h fuel' hle
  · intro hno hdeg fuel
    exact cornerWalk_no_links root quads branch hno hdeg fuel 1 none

/-- C19 as stated fails. A branch with an empty association table and link
degree 0: every pass of the loop leaves `curQuad` as it is, and the loop
condition `curQuad.numLinkedCorners != 1` stays true. -/
theorem walk_from_unlinked_branch_never_ends :
    NeverReturns (squareQuad 0 50 50 10) (squareQuad 1 30 30 10)
      [squareQuad 0 50 50 10, squareQuad 1 30 30 10] := by
  intro fuel
  apply cornerWalk_no_links
  · decide
  · decide

/-! ## The role of the starting corner -/

lemma searchCorners_done (fuel : Nat) (gtQuads quads : List Quad) (s : CornerSearch)
    (h : searchCorners fuel gtQuads quads = Outcome.done s) :
    groundTruthCorners gtQuads = some s.gt ∧ s.corners = detectedCorners quads := by
  unfold searchCorners at h
  split at h
  · exact Outcome.noConfusion h
  · rename_i gt hgt
    simp only at h
    split at h
    · exact Outcome.noConfusion h
    · split at h
      · split at h
        · split at h
          · injection h with h
            subst h
            exact ⟨hgt, rfl⟩
          · exact Outcome.noConfusion h
          · exact Outcome.noConfusion h
        · exact Outcome.noConfusion h
        · exact Outcome.noConfusion h
      · exact Outcome.noConfusion h

/-- C16, amended. Whenever the centre of the starting corner (the first quad
of link degree 1) has a smaller `y` than the centre of the close corner,
`MatchCornersForHomography` gives the top-left role to the starting corner:
its first correspondence pairs the ground-truth top-left centre with the
centre of the starting corner, whatever the sums `x + y` of the detected
corners are. -/
theorem start_above_close_gets_top_left (fuel : Nat) (gtQuads quads : List Quad)
    (h : (searchCorners fuel gtQuads quads).map
        (fun s => decide ((startCorner quads).centre.y < s.closeCorner.centre.y))
      = Outcome.done true) :
    ∃ g, groundTruthCorners gtQuads = some g
      ∧ (MatchCornersForHomography fuel gtQuads quads).map List.head?
        = Outcome.done (some (g.topleft.centre, (startCorner quads).centre)) := by
  cases hs : searchCorners fuel gtQuads quads with
  | done s =>
    rw [hs] at h
    obtain ⟨hg, hc⟩ := searchCorners_done fuel gtQuads quads s hs
    refine ⟨s.gt, hg, ?_⟩
    have hy : (startCorner quads).centre.y < s.closeCorner.centre.y := by
      simpa [Outcome.map] using h
    have hy' : (s.corners.getD 0 defaultQuad).centre.y < s.closeCorner.centre.y := by
      rw [hc]; exact hy
    simp only [MatchCornersForHomography, hs, Outcome.map, buildMatches, if_pos hy',
      List.head?_cons]
    rw [hc]
    rfl
  | fault => rw [hs] at h; exact Outcome.noConfusion h
  | timeout => rw [hs] at h; exact Outcome.noConfusion h

/-- Witness for `start_above_close_gets_top_left`: on the board that starts
with its top-right corner square, the starting corner `(90, 10)` lies above
the close corner `(10, 50)` and is paired with the ground-truth top-left
centre `(10, 10)`. -/
theorem start_above_close_gets_top_left_witness :
    (startCorner linkedBoardFromTopRight).centre = ⟨90, 10⟩
      ∧ (searchCorners 60 groundTruthBoard linkedBoardFromTopRight).map
          (fun s => s.closeCorner.centre) = Outcome.done ⟨10, 50⟩
      ∧ ∃ g, groundTruthCorners groundTruthBoard = some g
        ∧ (MatchCornersForHomography 60 groundTruthBoard linkedBoardFromTopRight).map List.head?
          = Outcome.done (some (g.topleft.centre, (startCorner linkedBoardFromTopRight).centre)) :=
  ⟨by decide, by decide,
    start_above_close_gets_top_left 60 groundTruthBoard linkedBoardFromTopRight (by decide)⟩

/-- C16 as stated fails. On the board that starts with its top-right corner
square, the detected corners are centred at `(90, 10)`, `(10, 50)`, `(10, 10)`
and `(90, 50)`; `TransformAndNumberQuads` with the identity homography gives
the number 1 to the corner at `(10, 10)`, which has the smallest sum `x + y`,
while `MatchCornersForHomography` pairs the ground-truth top-left centre
`(10, 10)` with the detected corner at `(90, 10)`. -/
theorem top_left_not_smallest_sum :
    (detectedCorners linkedBoardFromTopRight).map Quad.centre
        = [⟨90, 10⟩, ⟨10, 50⟩, ⟨10, 10⟩, ⟨90, 50⟩]
      ∧ (TransformAndNumberQuads Matrix3f.identity
            (detectedCorners linkedBoardFromTopRight)).map (fun q => (q.centre, q.number))
          = [(⟨10, 10⟩, 1), (⟨90, 10⟩, 2), (⟨10, 50⟩, 3), (⟨90, 50⟩, 4)]
      ∧ MatchCornersForHomography 60 groundTruthBoard linkedBoardFromTopRight
          = Outcome.done [(⟨10, 10⟩, ⟨90, 10⟩), (⟨10, 50⟩, ⟨10, 50⟩)]
      ∧ ¬ TopLeftHasSmallestSum ⟨10, 10⟩ (detectedCorners linkedBoardFromTopRight)
          [(⟨10, 10⟩, ⟨90, 10⟩), (⟨10, 50⟩, ⟨10, 50⟩)] := by
  refine ⟨by decide, ?_, by decide, ?_⟩
  · simp only [TransformAndNumberQuads]
    rw [map_transformQuad_identity _ (by decide)]
    decide
  · unfold TopLeftHasSmallestSum
    decide

/-! ## When a pair of quads is linked -/

lemma firstCornerWithin_eq_none_iff (pts : List Point) (q1 q2 : Quad) :
    firstCornerWithin pts q1 q2 = none ↔ qualifyingCount pts q1 q2 = 0 := by
  unfold firstCornerWithin qualifyingCount
  rw [List.findIdx?_eq_none_iff, List.countP_eq_zero]
  constructor
  · intro h a ha; simp [h a ha]
  · intro h a ha; simpa using h a ha

lemma linkPair_no_match (diag1Sq : Int) (i j : Nat) (quads : List Quad) (q1 q2 : Quad)
    (hi : quads.get? i = some q1) (hj : quads.get? j = some q2)
    (h : firstCornerWithin q1.points q1 q2 = none ∨ firstCornerWithin q2.points q1 q2 = none) :
    linkPair diag1Sq i j quads = quads := by
  unfold linkPair
  rw [hi, hj]
  simp only
  split
  · rfl
  · rcases h with h | h
    · rw [h]
    · rw [h]
      split <;> rfl

lemma linkPair_match (diag1Sq : Int) (i j : Nat) (quads : List Quad) (q1 q2 : Quad)
    (a b : Nat) (hi : quads.get? i = some q1) (hj : quads.get? j = some q2)
    (hd : tooFar diag1Sq q1 q2 = false)
    (ha : firstCornerWithin q1.points q1 q2 = some a)
    (hb : firstCornerWithin q2.points q1 q2 = some b) :
    linkPair diag1Sq i j quads
      = updateQuad (updateQuad (updateQuad (updateQuad (updateQuad (updateQuad quads i
          (fun q => { q with points := q.points.set a (linkedCorner q1 q2 a b) })) j
          (fun q => { q with points := q.points.set b (linkedCorner q1 q2 a b) })) i
          (fun q => { q with associatedCorners := q.associatedCorners.set a (q2.id, (b : Int)) }))
          j
          (fun q => { q with associatedCorners := q.associatedCorners.set b (q1.id, (a : Int)) }))
          i (fun q => { q with numLinkedCorners := q.numLinkedCorners + 1 })) j
          (fun q => { q with numLinkedCorners := q.numLinkedCorners + 1 }) := by
  unfold linkPair
  rw [hi, hj]
  simp only [hd, ha, hb]
  rfl

lemma linkPair_match_counter (diag1Sq : Int) (i j : Nat) (quads : List Quad) (q1 q2 : Quad)
    (a b : Nat) (hi : quads.get? i = some q1) (hj : quads.get? j = some q2)
    (hd : tooFar diag1Sq q1 q2 = false)
    (ha : firstCornerWithin q1.points q1 q2 = some a)
    (hb : firstCornerWithin q2.points q1 q2 = some b) :
    ((linkPair diag1Sq i j quads).get? j).map Quad.numLinkedCorners
      = some (q2.numLinkedCorners + (if i = j then 2 else 1)) := by
  rw [linkPair_match diag1Sq i j quads q1 q2 a b hi hj hd ha hb]
  rw [List.get?_eq_getElem?] at hi hj ⊢
  by_cases hij : i = j
  · subst hij
    simp [updateQuad, List.getElem?_modify, hj]
    ring
  · simp [updateQuad, List.getElem?_modify, hj, hij]

/-- C17, amended. A pair of quads that passes the distance test is declared a
corner match (the list of quads changes) if and only if at least one corner
of the first quad and at least one corner of the second lie inside the
rectangle of the two centres. The corners linked are the first such corner
of each quad: for two different quads, corner overwritten with the midpoint,
association slot written and counter incremented on both sides. -/
theorem pair_linked_iff_both_have_a_corner (diag1Sq : Int) (i j : Nat) (quads : List Quad)
    (q1 q2 : Quad) (hi : quads.get? i = some q1) (hj : quads.get? j = some q2)
    (hd : tooFar diag1Sq q1 q2 = false) :
    (linkPair diag1Sq i j quads ≠ quads
        ↔ 1 ≤ qualifyingCount q1.points q1 q2 ∧ 1 ≤ qualifyingCount q2.points q1 q2)
      ∧ (∀ a b, firstCornerWithin q1.points q1 q2 = some a →
          firstCornerWithin q2.points q1 q2 = some b → i ≠ j →
          (linkPair diag1Sq i j quads).get? i
              = some (linkedQuad q1 a (linkedCorner q1 q2 a b) q2.id b)
            ∧ (linkPair diag1Sq i j quads).get? j
              = some (linkedQuad q2 b (linkedCorner q1 q2 a b) q1.id a)) := by
  refine ⟨?_, ?_⟩
  · constructor
    · intro hne
      by_contra hcon
      apply hne
      apply linkPair_no_match diag1Sq i j quads q1 q2 hi hj
      rw [firstCornerWithin_eq_none_iff, firstCornerWithin_eq_none_iff]
      omega
    · rintro ⟨h1, h2⟩ heq
      cases ha : firstCornerWithin q1.points q1 q2 with
      | none => rw [firstCornerWithin_eq_none_iff] at ha; omega
      | some a =>
        cases hb : firstCornerWithin q2.points q1 q2 with
        | none => rw [firstCornerWithin_eq_none_iff] at hb; omega
        | some b =>
          have hc := linkPair_match_counter diag1Sq i j quads q1 q2 a b hi hj hd ha hb
          rw [heq, hj] at hc
          simp only [Option.map_some', Option.some.injEq] at hc
          split at hc <;> omega
  · intro a b ha hb hij
    rw [linkPair_match diag1Sq i j quads q1 q2 a b hi hj hd ha hb]
    rw [List.get?_eq_getElem?] at hi hj
    have hji : j ≠ i := fun h => hij h.symm
    constructor
    · rw [List.get?_eq_getElem?]
      simp [updateQuad, List.getElem?_modify, hi, hij, hji, linkedQuad]
    · rw [List.get?_eq_getElem?]
      simp [updateQuad, List.getElem?_modify, hj, hij, hji, linkedQuad]

/-- Witness for `pair_linked_iff_both_have_a_corner`: the slanted rectangle and
the square pass the distance test, and the pair is linked. -/
theorem pair_linked_iff_both_have_a_corner_witness :
    (linkPair (longestDiagonalSq (slantedPair.getD 0 defaultQuad)) 0 1 slantedPair ≠ slantedPair
      ↔ 1 ≤ qualifyingCount (slantedPair.getD 0 defaultQuad).points
            (slantedPair.getD 0 defaultQuad) (slantedPair.getD 1 defaultQuad)
        ∧ 1 ≤ qualifyingCount (slantedPair.getD 1 defaultQuad).points
            (slantedPair.getD 0 defaultQuad) (slantedPair.getD 1 defaultQuad)) :=
  (pair_linked_iff_both_have_a_corner (longestDiagonalSq (slantedPair.getD 0 defaultQuad)) 0 1
    slantedPair (slantedPair.getD 0 defaultQuad) (slantedPair.getD 1 defaultQuad)
    (by decide) (by decide) (by decide)).1

/-- C17 as stated fails. The slanted rectangle has two corners inside the
rectangle of the two centres (the square has one) and the pair passes the
distance test; the loop links corner 0 of the rectangle, the first of the
two, with corner 0 of the square. -/
theorem pair_with_two_qualifying_corners_is_linked :
    qualifyingCount (slantedPair.getD 0 defaultQuad).points
        (slantedPair.getD 0 defaultQuad) (slantedPair.getD 1 defaultQuad) = 2
      ∧ qualifyingCount (slantedPair.getD 1 defaultQuad).points
        (slantedPair.getD 0 defaultQuad) (slantedPair.getD 1 defaultQuad) = 1
      ∧ tooFar (longestDiagonalSq (slantedPair.getD 0 defaultQuad))
        (slantedPair.getD 0 defaultQuad) (slantedPair.getD 1 defaultQuad) = false
      ∧ (linkCorners slantedPair).map
          (fun q => (q.id, q.points, q.associatedCorners, q.numLinkedCorners))
        = [ (0, [⟨15, 13⟩, ⟨12, 16⟩, ⟨4, 8⟩, ⟨8, 4⟩],
              [(1, 0), (-1, -1), (-1, -1), (-1, -1)], 1),
            (1, [⟨15, 13⟩, ⟨26, 14⟩, ⟨26, 26⟩, ⟨14, 26⟩],
              [(0, 0), (-1, -1), (-1, -1), (-1, -1)], 1) ] := by
  decide

/-! ## Linking when matched corners coincide -/

lemma tooFar_congr {q1 q1' q2 q2' : Quad} (h1 : q1'.centre = q1.centre)
    (h2 : q2'.centre = q2.centre) (d : Int) : tooFar d q1' q2' = tooFar d q1 q2 := by
  simp [tooFar, h1, h2]

lemma firstCornerWithin_congr {q1 q1' q2 q2' : Quad} (h1 : q1'.centre = q1.centre)
    (h2 : q2'.centre = q2.centre) (pts : List Point) :
    firstCornerWithin pts q1' q2' = firstCornerWithin pts q1 q2 := by
  simp [firstCornerWithin, DoesPointLieWithinQuadOfTwoCentres, h1, h2]

lemma linkedCorner_congr {q1 q1' q2 q2' : Quad} (h1 : q1'.points = q1.points)
    (h2 : q2'.points = q2.points) (a b : Nat) :
    linkedCorner q1' q2' a b = linkedCorner q1 q2 a b := by
  simp [linkedCorner, h1, h2]

lemma map_geometry_updateQuad (l : List Quad) (i : Nat) (f : Quad → Quad)
    (h : ∀ q, l.get? i = some q → geometry (f q) = geometry q) :
    (updateQuad l i f).map geometry = l.map geometry := by
  apply List.ext_getElem?
  intro n
  simp only [updateQuad, List.getElem?_map, List.getElem?_modify]
  cases hn : l[n]? with
  | none => simp
  | some q =>
    by_cases hin : i = n
    · subst hin
      have := h q (by rw [List.get?_eq_getElem?]; exact hn)
      simp [this]
    · simp [hin]

lemma get?_of_map_geometry {s quads : List Quad} (hgeo : s.map geometry = quads.map geometry)
    {i : Nat} {q : Quad} (hi : quads.get? i = some q) :
    ∃ q', s.get? i = some q' ∧ q'.points = q.points ∧ q'.centre = q.centre := by
  have h := congrArg (fun l => l[i]?) hgeo
  simp only [List.getElem?_map] at h
  rw [List.get?_eq_getElem?] at hi
  rw [hi] at h
  cases hs : s[i]? with
  | none => rw [hs] at h; simp at h
  | some q' =>
    rw [hs] at h
    simp only [Option.map_some', Option.some.injEq, geometry, Prod.mk.injEq] at h
    exact ⟨q', by rw [List.get?_eq_getElem?]; exact hs, h.1, h.2⟩

lemma degreeAt_updateQuad_keep (l : List Quad) (i k : Nat) (f : Quad → Quad)
    (hf : ∀ q, (f q).numLinkedCorners = q.numLinkedCorners) :
    degreeAt (updateQuad l i f) k = degreeAt l k := by
  simp only [degreeAt, updateQuad, List.getD_eq_getElem?_getD, List.getElem?_modify]
  cases l[k]? with
  | none => rfl
  | some q => by_cases h : i = k <;> simp [h, hf]

lemma degreeAt_updateQuad_incr (l : List Quad) (i k : Nat) (hi : i < l.length) :
    degreeAt (updateQuad l i (fun q => { q with numLinkedCorners := q.numLinkedCorners + 1 })) k
      = degreeAt l k + (if k = i then 1 else 0) := by
  simp only [degreeAt, updateQuad, List.getD_eq_getElem?_getD, List.getElem?_modify]
  by_cases h : i = k
  · subst h
    rw [List.getElem?_eq_getElem hi]
    simp
  · have h' : ¬ k = i := fun e => h e.symm
    cases l[k]? with
    | none => simp [h']
    | some q => simp [h, h']

lemma getD_of_get? {l : List Quad} {i : Nat} {q : Quad} (h : l.get? i = some q) :
    l.getD i defaultQuad = q := by
  rw [List.get?_eq_getElem?] at h
  simp [List.getD_eq_getElem?_getD, h]

lemma lt_length_of_get? {l : List Quad} {i : Nat} {q : Quad} (h : l.get? i = some q) :
    i < l.length := by
  rw [List.get?_eq_getElem?] at h
  by_contra hcon
  rw [List.getElem?_eq_none (by omega)] at h
  exact Option.noConfusion h

lemma linkPair_invariant (quads s : List Quad)
    (hgeo : s.map geometry = quads.map geometry) (i j : Nat) (q1 q2 : Quad)
    (hi : quads.get? i = some q1) (hj : quads.get? j = some q2)
    (hco : CornersCoincide q1 q2) :
    (linkPair (longestDiagonalSq q1) i j s).map geometry = quads.map geometry
      ∧ ∀ k, degreeAt (linkPair (longestDiagonalSq q1) i j s) k
          = degreeAt s k + pairGain quads i j k := by
  obtain ⟨q1', hi', hp1, hc1⟩ := get?_of_map_geometry hgeo hi
  obtain ⟨q2', hj', hp2, hc2⟩ := get?_of_map_geometry hgeo hj
  have hq1 := getD_of_get? hi
  have hq2 := getD_of_get? hj
  have hfar : tooFar (longestDiagonalSq q1) q1' q2' = tooFar (longestDiagonalSq q1) q1 q2 :=
    tooFar_congr hc1 hc2 _
  have hf1 : firstCornerWithin q1'.points q1' q2' = firstCornerWithin q1.points q1 q2 := by
    rw [hp1]; exact firstCornerWithin_congr hc1 hc2 _
  have hf2 : firstCornerWithin q2'.points q1' q2' = firstCornerWithin q2.points q1 q2 := by
    rw [hp2]; exact firstCornerWithin_congr hc1 hc2 _
  cases hd : tooFar (longestDiagonalSq q1) q1 q2 with
  | true =>
    have hsame : linkPair (longestDiagonalSq q1) i j s = s := by
      unfold linkPair
      rw [hi', hj']
      simp [hfar, hd]
    have hno : wouldLink q1 q2 = false := by simp [wouldLink, hd]
    rw [hsame]
    exact ⟨hgeo, fun k => by unfold pairGain; rw [hq1, hq2, hno]; simp⟩
  | false =>
    cases ha : firstCornerWithin q1.points q1 q2 with
    | none =>
      have hsame := linkPair_no_match (longestDiagonalSq q1) i j s q1' q2' hi' hj'
        (Or.inl (by rw [hf1]; exact ha))
      have hno : wouldLink q1 q2 = false := by simp [wouldLink, ha]
      rw [hsame]
      exact ⟨hgeo, fun k => by unfold pairGain; rw [hq1, hq2, hno]; simp⟩
    | some a =>
      cases hb : firstCornerWithin q2.points q1 q2 with
      | none =>
        have hsame := linkPair_no_match (longestDiagonalSq q1) i j s q1' q2' hi' hj'
          (Or.inr (by rw [hf2]; exact hb))
        have hno : wouldLink q1 q2 = false := by simp [wouldLink, hb]
        rw [hsame]
        exact ⟨hgeo, fun k => by unfold pairGain; rw [hq1, hq2, hno]; simp⟩
      | some b =>
        have hyes : wouldLink q1 q2 = true := by simp [wouldLink, hd, ha, hb]
        have hcorner : linkedCorner q1' q2' a b = linkedCorner q1 q2 a b :=
          linkedCorner_congr hp1 hp2 a b
        obtain ⟨hset1, hset2⟩ := hco hd a b ha hb
        rw [linkPair_match (longestDiagonalSq q1) i j s q1' q2' a b hi' hj'
          (by rw [hfar]; exact hd) (by rw [hf1]; exact ha) (by rw [hf2]; exact hb), hcorner]
        have hil := lt_length_of_get? hi'
        have hjl := lt_length_of_get? hj'
        -- the six assignments, one after the other
        have g1 : (updateQuad s i (fun q =>
            { q with points := q.points.set a (linkedCorner q1 q2 a b) })).map geometry
            = quads.map geometry := by
          rw [map_geometry_updateQuad _ _ _ ?_, hgeo]
          intro q hq
          rw [hi'] at hq
          injection hq with hq
          subst hq
          simp only [geometry, hp1, hset1]
        have g2 : (updateQuad (updateQuad s i (fun q =>
            { q with points := q.points.set a (linkedCorner q1 q2 a b) })) j (fun q =>
            { q with points := q.points.set b (linkedCorner q1 q2 a b) })).map geometry
            = quads.map geometry := by
          rw [map_geometry_updateQuad _ _ _ ?_, g1]
          intro q hq
          obtain ⟨q'', hq'', hp'', _⟩ := get?_of_map_geometry g1 hj
          rw [hq''] at hq
          injection hq with hq
          subst hq
          simp only [geometry, hp'', hset2]
        refine ⟨?_, ?_⟩
        · rw [map_geometry_updateQuad _ _ _ ?_, map_geometry_updateQuad _ _ _ ?_,
            map_geometry_updateQuad _ _ _ ?_, map_geometry_updateQuad _ _ _ ?_, g2]
          all_goals (intro q _; rfl)
        · intro k
          have hkeep : ∀ (l : List Quad) (t : Nat) (f : Quad → Quad),
              (∀ q, (f q).numLinkedCorners = q.numLinkedCorners) →
              degreeAt (updateQuad l t f) k = degreeAt l k :=
            fun l t f hf => degreeAt_updateQuad_keep l t k f hf
          rw [degreeAt_updateQuad_incr _ _ _ (by simp only [length_updateQuad]; exact hjl),
            degreeAt_updateQuad_incr _ _ _ (by simp only [length_updateQuad]; exact hil),
            hkeep _ _ _ ?_, hkeep _ _ _ ?_, hkeep _ _ _ ?_, hkeep _ _ _ ?_]
          · unfold pairGain
            rw [hq1, hq2, hyes]
            simp only [if_true]
            ring
          all_goals (intro q; rfl)

lemma longestDiagonalSq_congr {q q' : Quad} (h : q'.points = q.points) :
    longestDiagonalSq q' = longestDiagonalSq q := by
  simp [longestDiagonalSq, h]

lemma length_eq_of_map_geometry {s quads : List Quad}
    (hgeo : s.map geometry = quads.map geometry) : s.length = quads.length := by
  have h := congrArg List.length hgeo
  simpa using h

lemma exists_get?_of_lt (l : List Quad) (i : Nat) (h : i < l.length) :
    ∃ q, l.get? i = some q ∧ q ∈ l :=
  ⟨l.get ⟨i, h⟩, List.get?_eq_get h, List.get_mem l i h⟩

/-- The loop over `j` from `i` on, run for `m` steps. -/
lemma linkPairs_invariant (quads : List Quad)
    (hco : ∀ q1 ∈ quads, ∀ q2 ∈ quads, CornersCoincide q1 q2)
    (i : Nat) (q1 : Quad) (hi : quads.get? i = some q1) (s : List Quad)
    (hgeo : s.map geometry = quads.map geometry) (m : Nat) (hm : i + m ≤ quads.length) :
    ((List.range' i m).foldl (fun t j => linkPair (longestDiagonalSq q1) i j t) s).map geometry
        = quads.map geometry
      ∧ ∀ k, degreeAt ((List.range' i m).foldl
            (fun t j => linkPair (longestDiagonalSq q1) i j t) s) k
          = degreeAt s k + ∑ j ∈ Finset.Ico i (i + m), pairGain quads i j k := by
  induction m with
  | zero => exact ⟨hgeo, fun k => by simp⟩
  | succ m ih =>
    obtain ⟨ihg, ihd⟩ := ih (by omega)
    obtain ⟨q2, hj, hq2⟩ := exists_get?_of_lt quads (i + m) (by omega)
    have hq1 : q1 ∈ quads := List.get?_mem hi
    obtain ⟨hg, hd⟩ := linkPair_invariant quads _ ihg i (i + m) q1 q2 hi hj (hco q1 hq1 q2 hq2)
    rw [List.range'_1_concat, List.foldl_append]
    refine ⟨hg, fun k => ?_⟩
    have hsum : ∑ j ∈ Finset.Ico i (i + (m + 1)), pairGain quads i j k
        = ∑ j ∈ Finset.Ico i (i + m), pairGain quads i j k + pairGain quads i (i + m) k :=
      Finset.sum_Ico_succ_top (Nat.le_add_right i m) _
    rw [hsum]
    simp only [List.foldl_cons, List.foldl_nil]
    rw [hd k, ihd k]
    ring

/-- One pass of the outer loop. -/
lemma linkFrom_invariant (quads : List Quad)
    (hco : ∀ q1 ∈ quads, ∀ q2 ∈ quads, CornersCoincide q1 q2)
    (i : Nat) (hi : i < quads.length) (s : List Quad)
    (hgeo : s.map geometry = quads.map geometry) :
    (linkFrom i s).map geometry = quads.map geometry
      ∧ ∀ k, degreeAt (linkFrom i s) k
          = degreeAt s k + ∑ j ∈ Finset.Ico i quads.length, pairGain quads i j k := by
  obtain ⟨q1, hq1, _⟩ := exists_get?_of_lt quads i hi
  obtain ⟨q1', hq1', hp1, _⟩ := get?_of_map_geometry hgeo hq1
  have hlen := length_eq_of_map_geometry hgeo
  have hd : longestDiagonalSq (s.getD i defaultQuad) = longestDiagonalSq q1 := by
    rw [getD_of_get? hq1']
    exact longestDiagonalSq_congr hp1
  have h := linkPairs_invariant quads hco i q1 hq1 s hgeo (quads.length - i) (by omega)
  have hn : i + (quads.length - i) = quads.length := by omega
  rw [hn] at h
  simp only [linkFrom]
  rw [hd, hlen]
  exact h

/-- The outer loop, run for `m` passes. -/
lemma linkPasses_invariant (quads : List Quad)
    (hco : ∀ q1 ∈ quads, ∀ q2 ∈ quads, CornersCoincide q1 q2)
    (m : Nat) (hm : m ≤ quads.length) :
    ((List.range m).foldl (fun s i => linkFrom i s) quads).map geometry = quads.map geometry
      ∧ ∀ k, degreeAt ((List.range m).foldl (fun s i => linkFrom i s) quads) k
          = degreeAt quads k
            + ∑ i ∈ Finset.range m, ∑ j ∈ Finset.Ico i quads.length, pairGain quads i j k := by
  induction m with
  | zero => exact ⟨rfl, fun k => by simp⟩
  | succ m ih =>
    obtain ⟨ihg, ihd⟩ := ih (by omega)
    obtain ⟨hg, hd⟩ := linkFrom_invariant quads hco m (by omega) _ ihg
    rw [List.range_succ, List.foldl_append]
    refine ⟨hg, fun k => ?_⟩
    simp only [List.foldl_cons, List.foldl_nil]
    rw [hd k, ihd k, Finset.sum_range_succ]
    ring

lemma degreeAt_linkCorners (quads : List Quad)
    (hco : ∀ q1 ∈ quads, ∀ q2 ∈ quads, CornersCoincide q1 q2) (k : Nat) :
    degreeAt (linkCorners quads) k
      = degreeAt quads k
        + ∑ i ∈ Finset.range quads.length, ∑ j ∈ Finset.Ico i quads.length,
            pairGain quads i j k :=
  (linkPasses_invariant quads hco quads.length (Nat.le_refl _)).2 k

/-- Counting the pairs `(i, j)` with `i ≤ j` that involve `k`, for a symmetric
and irreflexive relation `w`, counts the partners of `k`. -/
lemma sum_pairs_eq_sum_partners (w : Nat → Nat → Bool) (n k : Nat) (hk : k < n)
    (hsymm : ∀ i j, i < n → j < n → w i j = w j i) (hirr : ∀ i, i < n → w i i = false) :
    ∑ i ∈ Finset.range n, ∑ j ∈ Finset.Ico i n,
        (if w i j = true then (if k = i then 1 else 0) + (if k = j then 1 else 0) else (0 : Int))
      = ∑ j ∈ Finset.range n, if w k j = true then (1 : Int) else 0 := by
  have hinner : ∀ i ∈ Finset.range n, ∑ j ∈ Finset.Ico i n,
        (if w i j = true then (if k = i then 1 else 0) + (if k = j then 1 else 0) else (0 : Int))
      = (if k = i then ∑ j ∈ Finset.Ico k n, (if w k j = true then (1 : Int) else 0) else 0)
        + (if i ≤ k then (if w i k = true then (1 : Int) else 0) else 0) := by
    intro i hi
    have hsplit : ∀ j ∈ Finset.Ico i n,
        (if w i j = true then (if k = i then 1 else 0) + (if k = j then 1 else 0) else (0 : Int))
        = (if k = i then (if w k j = true then (1 : Int) else 0) else 0)
          + (if k = j then (if w i j = true then (1 : Int) else 0) else 0) := by
      intro j _
      by_cases h1 : k = i
      · subst h1
        by_cases h2 : w k j = true <;> simp [h2]
      · by_cases h2 : w i j = true <;> simp [h1, h2]
    rw [Finset.sum_congr rfl hsplit, Finset.sum_add_distrib, Finset.sum_ite_eq]
    congr 1
    · by_cases h1 : k = i
      · subst h1
        simp
      · simp [h1]
    · have hin : k ∈ Finset.Ico i n ↔ i ≤ k := by
        rw [Finset.mem_Ico]
        exact ⟨fun h => h.1, fun h => ⟨h, hk⟩⟩
      simp only [hin]
  rw [Finset.sum_congr rfl hinner, Finset.sum_add_distrib, Finset.sum_ite_eq,
    if_pos (Finset.mem_range.mpr hk)]
  have hsecond : ∑ i ∈ Finset.range n,
        (if i ≤ k then (if w i k = true then (1 : Int) else 0) else 0)
      = ∑ i ∈ Finset.range k, if w k i = true then (1 : Int) else 0 := by
    rw [← Finset.sum_range_add_sum_Ico _ (Nat.succ_le_of_lt hk)]
    have hzero : ∑ i ∈ Finset.Ico (k + 1) n,
        (if i ≤ k then (if w i k = true then (1 : Int) else 0) else 0) = 0 := by
      apply Finset.sum_eq_zero
      intro i hi
      rw [Finset.mem_Ico] at hi
      rw [if_neg (by omega)]
    rw [hzero, add_zero, Finset.sum_range_succ, hirr k hk]
    simp only [le_refl, if_true, Bool.false_eq_true, if_false, add_zero]
    apply Finset.sum_congr rfl
    intro i hi
    rw [Finset.mem_range] at hi
    rw [if_pos (by omega), hsymm i k (by omega) hk]
  rw [hsecond, add_comm]
  exact Finset.sum_range_add_sum_Ico _ (Nat.le_of_lt hk)

lemma sum_range_eq_countP (l : List Quad) (p : Quad → Bool) :
    ∑ j ∈ Finset.range l.length, (if p (l.getD j defaultQuad) = true then (1 : Int) else 0)
      = (l.countP p : Int) := by
  induction l with
  | nil => simp
  | cons a t ih =>
    rw [List.length_cons, Finset.sum_range_succ', List.countP_cons]
    simp only [List.getD_cons_succ, List.getD_cons_zero]
    rw [ih]
    by_cases h : p a = true <;> simp [h]

/-- The pairs of the linking loop that involve the quad at position `k` add
the number of quads it would link with to its link degree. -/
lemma sum_pairGain (quads : List Quad) (k : Nat) (hk : k < quads.length)
    (hsymm : ∀ q1 ∈ quads, ∀ q2 ∈ quads, wouldLink q1 q2 = wouldLink q2 q1)
    (hirr : ∀ q ∈ quads, wouldLink q q = false) :
    ∑ i ∈ Finset.range quads.length, ∑ j ∈ Finset.Ico i quads.length, pairGain quads i j k
      = (quads.countP (fun q => wouldLink (quads.getD k defaultQuad) q) : Int) := by
  have hmem : ∀ i, i < quads.length → quads.getD i defaultQuad ∈ quads := by
    intro i hi
    obtain ⟨q, hq, hqm⟩ := exists_get?_of_lt quads i hi
    rw [getD_of_get? hq]
    exact hqm
  rw [← sum_range_eq_countP]
  exact sum_pairs_eq_sum_partners
    (fun i j => wouldLink (quads.getD i defaultQuad) (quads.getD j defaultQuad))
    quads.length k hk
    (fun i j hi hj => hsymm _ (hmem i hi) _ (hmem j hj))
    (fun i hi => hirr _ (hmem i hi))

lemma within_square_corner (i i' cx cy dx dy h sx sy : Int) :
    DoesPointLieWithinQuadOfTwoCentres ⟨cx + sx, cy + sy⟩ (squareQuad i cx cy h)
        (squareQuad i' (cx + dx) (cy + dy) h)
      = decide ((min 0 dx ≤ sx ∧ sx ≤ max 0 dx) ∧ (min 0 dy ≤ sy ∧ sy ≤ max 0 dy)) := by
  rw [Bool.eq_iff_iff]
  simp only [DoesPointLieWithinQuadOfTwoCentres, squareQuad, Bool.and_eq_true,
    decide_eq_true_eq]
  omega

lemma firstCornerWithin_square_fst (i i' cx cy dx dy h : Int) (hh : 1 ≤ h) :
    firstCornerWithin (squareQuad i cx cy h).points (squareQuad i cx cy h)
        (squareQuad i' (cx + dx) (cy + dy) h)
      = if dx ≤ -h ∧ dy ≤ -h then some 0 else if h ≤ dx ∧ dy ≤ -h then some 1
        else if h ≤ dx ∧ h ≤ dy then some 2 else if dx ≤ -h ∧ h ≤ dy then some 3 else none := by
  have c0 : DoesPointLieWithinQuadOfTwoCentres ⟨cx - h, cy - h⟩ (squareQuad i cx cy h)
      (squareQuad i' (cx + dx) (cy + dy) h) = decide (dx ≤ -h ∧ dy ≤ -h) := by
    rw [sub_eq_add_neg, sub_eq_add_neg, within_square_corner, decide_eq_decide]
    omega
  have c1 : DoesPointLieWithinQuadOfTwoCentres ⟨cx + h, cy - h⟩ (squareQuad i cx cy h)
      (squareQuad i' (cx + dx) (cy + dy) h) = decide (h ≤ dx ∧ dy ≤ -h) := by
    rw [sub_eq_add_neg, within_square_corner, decide_eq_decide]
    omega
  have c2 : DoesPointLieWithinQuadOfTwoCentres ⟨cx + h, cy + h⟩ (squareQuad i cx cy h)
      (squareQuad i' (cx + dx) (cy + dy) h) = decide (h ≤ dx ∧ h ≤ dy) := by
    rw [within_square_corner, decide_eq_decide]
    omega
  have c3 : DoesPointLieWithinQuadOfTwoCentres ⟨cx - h, cy + h⟩ (squareQuad i cx cy h)
      (squareQuad i' (cx + dx) (cy + dy) h) = decide (dx ≤ -h ∧ h ≤ dy) := by
    rw [sub_eq_add_neg, within_square_corner, decide_eq_decide]
    omega
  have p0 : (squareQuad i cx cy h).points
      = [⟨cx - h, cy - h⟩, ⟨cx + h, cy - h⟩, ⟨cx + h, cy + h⟩, ⟨cx - h, cy + h⟩] := rfl
  rw [p0]
  simp only [firstCornerWithin, List.take, List.findIdx?_cons, List.findIdx?_nil, c0, c1, c2, c3,
    decide_eq_true_eq]

lemma firstCornerWithin_square_snd (i i' cx cy dx dy h : Int) (hh : 1 ≤ h) :
    firstCornerWithin (squareQuad i' (cx + dx) (cy + dy) h).points (squareQuad i cx cy h)
        (squareQuad i' (cx + dx) (cy + dy) h)
      = if h ≤ dx ∧ h ≤ dy then some 0 else if dx ≤ -h ∧ h ≤ dy then some 1
        else if dx ≤ -h ∧ dy ≤ -h then some 2 else if h ≤ dx ∧ dy ≤ -h then some 3 else none := by
  have c0 : DoesPointLieWithinQuadOfTwoCentres ⟨cx + dx - h, cy + dy - h⟩ (squareQuad i cx cy h)
      (squareQuad i' (cx + dx) (cy + dy) h) = decide (h ≤ dx ∧ h ≤ dy) := by
    rw [Bool.eq_iff_iff]
    simp only [DoesPointLieWithinQuadOfTwoCentres, squareQuad, Bool.and_eq_true,
      decide_eq_true_eq]
    omega
  have c1 : DoesPointLieWithinQuadOfTwoCentres ⟨cx + dx + h, cy + dy - h⟩ (squareQuad i cx cy h)
      (squareQuad i' (cx + dx) (cy + dy) h) = decide (dx ≤ -h ∧ h ≤ dy) := by
    rw [Bool.eq_iff_iff]
    simp only [DoesPointLieWithinQuadOfTwoCentres, squareQuad, Bool.and_eq_true,
      decide_eq_true_eq]
    omega
  have c2 : DoesPointLieWithinQuadOfTwoCentres ⟨cx + dx + h, cy + dy + h⟩ (squareQuad i cx cy h)
      (squareQuad i' (cx + dx) (cy + dy) h) = decide (dx ≤ -h ∧ dy ≤ -h) := by
    rw [Bool.eq_iff_iff]
    simp only [DoesPointLieWithinQuadOfTwoCentres, squareQuad, Bool.and_eq_true,
      decide_eq_true_eq]
    omega
  have c3 : DoesPointLieWithinQuadOfTwoCentres ⟨cx + dx - h, cy + dy + h⟩ (squareQuad i cx cy h)
      (squareQuad i' (cx + dx) (cy + dy) h) = decide (h ≤ dx ∧ dy ≤ -h) := by
    rw [Bool.eq_iff_iff]
    simp only [DoesPointLieWithinQuadOfTwoCentres, squareQuad, Bool.and_eq_true,
      decide_eq_true_eq]
    omega
  have p0 : (squareQuad i' (cx + dx) (cy + dy) h).points
      = [⟨cx + dx - h, cy + dy - h⟩, ⟨cx + dx + h, cy + dy - h⟩, ⟨cx + dx + h, cy + dy + h⟩,
          ⟨cx + dx - h, cy + dy + h⟩] := rfl
  rw [p0]
  simp only [firstCornerWithin, List.take, List.findIdx?_cons, List.findIdx?_nil, c0, c1, c2, c3,
    decide_eq_true_eq]

lemma longestDiagonalSq_square (i cx cy h : Int) :
    longestDiagonalSq (squareQuad i cx cy h) = 8 * (h * h) := by
  simp only [longestDiagonalSq, squareQuad, distSq, List.getD_cons_zero, List.getD_cons_succ]
  ring_nf
  exact max_self _

lemma tooFar_square (i i' cx cy dx dy h : Int) :
    tooFar (longestDiagonalSq (squareQuad i cx cy h)) (squareQuad i cx cy h)
        (squareQuad i' (cx + dx) (cy + dy) h)
      = decide (4 * (dx * dx + dy * dy) > 72 * (h * h)) := by
  rw [longestDiagonalSq_square]
  simp only [tooFar, squareQuad, distSq, decide_eq_decide]
  have e : (cx - (cx + dx)) * (cx - (cx + dx)) + (cy - (cy + dy)) * (cy - (cy + dy))
      = dx * dx + dy * dy := by ring
  rw [e]
  constructor <;> intro hlt <;> linarith

lemma isSome_corner_chain (p0 p1 p2 p3 : Prop) [Decidable p0] [Decidable p1] [Decidable p2]
    [Decidable p3] :
    (if p0 then some 0 else if p1 then some 1 else if p2 then some 2
      else if p3 then some 3 else (none : Option Nat)).isSome = decide (p0 ∨ p1 ∨ p2 ∨ p3) := by
  split_ifs <;> simp [*]

/-- Two equal axis-aligned squares are linked by the loop exactly when they
are within the distance bound and the second centre lies beyond a corner of
the first in both directions. -/
lemma wouldLink_square (i i' cx cy dx dy h : Int) (hh : 1 ≤ h) :
    wouldLink (squareQuad i cx cy h) (squareQuad i' (cx + dx) (cy + dy) h)
      = decide (4 * (dx * dx + dy * dy) ≤ 72 * (h * h) ∧ (dx ≤ -h ∨ h ≤ dx)
          ∧ (dy ≤ -h ∨ h ≤ dy)) := by
  unfold wouldLink
  rw [tooFar_square, firstCornerWithin_square_fst _ _ _ _ _ _ _ hh,
    firstCornerWithin_square_snd _ _ _ _ _ _ _ hh, isSome_corner_chain, isSome_corner_chain,
    Bool.eq_iff_iff]
  simp only [Bool.and_eq_true, Bool.not_eq_true', decide_eq_false_iff_not, decide_eq_true_eq]
  omega

lemma adjacency_arith (h k l : Int) (hh : 1 ≤ h) :
    (4 * (2 * h * k * (2 * h * k) + 2 * h * l * (2 * h * l)) ≤ 72 * (h * h)
        ∧ (2 * h * k ≤ -h ∨ h ≤ 2 * h * k) ∧ (2 * h * l ≤ -h ∨ h ≤ 2 * h * l))
      ↔ ((k = 1 ∨ k = -1) ∧ (l = 1 ∨ l = -1)) := by
  have hpos : 0 < h * h := by positivity
  constructor
  · rintro ⟨hnear, hx, hy⟩
    have hk0 : k ≠ 0 := by
      rintro rfl
      simp only [mul_zero] at hx
      omega
    have hl0 : l ≠ 0 := by
      rintro rfl
      simp only [mul_zero] at hy
      omega
    have hsum : k * k + l * l ≤ 4 := by
      by_contra hcon
      have h5 : 5 ≤ k * k + l * l := by omega
      have hmul : h * h * 5 ≤ h * h * (k * k + l * l) :=
        mul_le_mul_of_nonneg_left h5 (le_of_lt hpos)
      nlinarith
    have hk1 : 1 ≤ k * k := by
      rcases lt_or_gt_of_ne hk0 with hneg | hp
      · nlinarith
      · nlinarith
    have hl1 : 1 ≤ l * l := by
      rcases lt_or_gt_of_ne hl0 with hneg | hp
      · nlinarith
      · nlinarith
    have hkb : -1 ≤ k ∧ k ≤ 1 := by
      constructor
      · by_contra hcon
        have : k ≤ -2 := by omega
        nlinarith
      · by_contra hcon
        have : 2 ≤ k := by omega
        nlinarith
    have hlb : -1 ≤ l ∧ l ≤ 1 := by
      constructor
      · by_contra hcon
        have : l ≤ -2 := by omega
        nlinarith
      · by_contra hcon
        have : 2 ≤ l := by omega
        nlinarith
    omega
  · rintro ⟨hk, hl⟩
    rcases hk with rfl | rfl <;> rcases hl with rfl | rfl <;>
      refine ⟨by nlinarith, ?_, ?_⟩ <;> omega

/-- Two squares of the same size whose centres are `k` cells apart across and
`l` cells apart down (cells of side `2 * h`) are linked by the loop exactly
when `k` and `l` are both `1` or `-1`: when they touch at a corner. -/
lemma wouldLink_square_cells (i i' cx cy h k l : Int) (hh : 1 ≤ h) :
    wouldLink (squareQuad i cx cy h) (squareQuad i' (cx + 2 * h * k) (cy + 2 * h * l) h)
      = decide ((k = 1 ∨ k = -1) ∧ (l = 1 ∨ l = -1)) := by
  rw [wouldLink_square _ _ _ _ _ _ _ hh, decide_eq_decide]
  exact adjacency_arith h k l hh

lemma tdiv_add_self (x : Int) : Int.tdiv (x + x) 2 = x := by
  rw [← two_mul]
  exact Int.mul_tdiv_cancel_left _ (by norm_num)

lemma set_getD_self (l : List Point) (a : Nat) (ha : a < l.length) :
    l.set a (l.getD a ⟨0, 0⟩) = l := by
  apply List.ext_getElem?
  intro n
  rw [List.getElem?_set]
  by_cases hn : a = n
  · subst hn
    simp [ha, List.getD_eq_getElem?_getD, List.getElem?_eq_getElem ha]
  · simp [hn]

lemma set_linkedCorner_of_same (q1 q2 : Quad) (a b : Nat) (ha : a < q1.points.length)
    (hb : b < q2.points.length)
    (hsame : q1.points.getD a ⟨0, 0⟩ = q2.points.getD b ⟨0, 0⟩) :
    q1.points.set a (linkedCorner q1 q2 a b) = q1.points
      ∧ q2.points.set b (linkedCorner q1 q2 a b) = q2.points := by
  have hc : linkedCorner q1 q2 a b = q1.points.getD a ⟨0, 0⟩ := by
    unfold linkedCorner
    rw [← hsame, tdiv_add_self, tdiv_add_self]
  rw [hc]
  refine ⟨set_getD_self _ _ ha, ?_⟩
  rw [hsame]
  exact set_getD_self _ _ hb

lemma cornersCoincide_square (i i' cx cy dx dy h : Int) (hh : 1 ≤ h)
    (hx : dx = 2 * h ∨ dx = -(2 * h)) (hy : dy = 2 * h ∨ dy = -(2 * h)) :
    CornersCoincide (squareQuad i cx cy h) (squareQuad i' (cx + dx) (cy + dy) h) := by
  intro _ a b ha hb
  rw [firstCornerWithin_square_fst _ _ _ _ _ _ _ hh] at ha
  rw [firstCornerWithin_square_snd _ _ _ _ _ _ _ hh] at hb
  rcases hx with rfl | rfl <;> rcases hy with rfl | rfl <;> split_ifs at ha hb <;>
    first
    | omega
    | (injection ha with ha
       injection hb with hb
       subst ha
       subst hb
       exact set_linkedCorner_of_same _ _ _ _ (by simp [squareQuad]) (by simp [squareQuad])
         (by simp only [squareQuad, List.getD_cons_zero, List.getD_cons_succ, Point.mk.injEq]
             omega))

lemma cornersCoincide_square_cells (i i' cx cy h k l : Int) (hh : 1 ≤ h) :
    CornersCoincide (squareQuad i cx cy h)
      (squareQuad i' (cx + 2 * h * k) (cy + 2 * h * l) h) := by
  intro hd a b ha hb
  have hw : wouldLink (squareQuad i cx cy h)
      (squareQuad i' (cx + 2 * h * k) (cy + 2 * h * l) h) = true := by
    simp [wouldLink, hd, ha, hb]
  rw [wouldLink_square_cells _ _ _ _ _ _ _ hh, decide_eq_true_eq] at hw
  have hx : 2 * h * k = 2 * h ∨ 2 * h * k = -(2 * h) := by
    rcases hw.1 with rfl | rfl
    · left; ring
    · right; ring
  have hy : 2 * h * l = 2 * h ∨ 2 * h * l = -(2 * h) := by
    rcases hw.2 with rfl | rfl
    · left; ring
    · right; ring
  exact cornersCoincide_square i i' cx cy _ _ h hh hx hy hd a b ha hb

/-! ## Linking a synthetic checkerboard -/

lemma boardSquare_offset (W : Nat) (h : Int) (a b : Nat × Nat) :
    boardSquare W h b
      = squareQuad ((b.1 * W + b.2 : Nat) : Int)
          (2 * h * a.2 + h + 2 * h * ((b.2 : Int) - a.2))
          (2 * h * a.1 + h + 2 * h * ((b.1 : Int) - a.1)) h := by
  unfold boardSquare
  congr 1 <;> ring

lemma wouldLink_boardSquare (W : Nat) (h : Int) (hh : 1 ≤ h) (a b : Nat × Nat) :
    wouldLink (boardSquare W h a) (boardSquare W h b) = cellsTouch a b := by
  rw [boardSquare_offset W h a b]
  unfold boardSquare
  rw [wouldLink_square_cells _ _ _ _ _ _ _ hh]
  unfold cellsTouch
  rw [decide_eq_decide]
  omega

lemma cornersCoincide_boardSquare (W : Nat) (h : Int) (hh : 1 ≤ h) (a b : Nat × Nat) :
    CornersCoincide (boardSquare W h a) (boardSquare W h b) := by
  rw [boardSquare_offset W h a b]
  unfold boardSquare
  exact cornersCoincide_square_cells _ _ _ _ _ _ _ hh

lemma countP_product {α β : Type} (p : α → Bool) (q : β → Bool) (l1 : List α) (l2 : List β) :
    (l1.product l2).countP (fun ab => p ab.1 && q ab.2) = l1.countP p * l2.countP q := by
  induction l1 with
  | nil => simp
  | cons a t ih =>
    have hcons : (a :: t).product l2 = l2.map (fun b => (a, b)) ++ t.product l2 :=
      List.product_cons a t l2
    rw [hcons, List.countP_append, ih, List.countP_map, List.countP_cons]
    by_cases ha : p a = true
    · have hfun : ((fun ab : α × β => p ab.1 && q ab.2) ∘ fun b => (a, b)) = q := by
        funext b
        simp [ha]
      rw [hfun, if_pos ha]
      ring
    · have hfun : ((fun ab : α × β => p ab.1 && q ab.2) ∘ fun b => (a, b)) = fun _ => false := by
        funext b
        simp [ha]
      rw [hfun, if_neg ha]
      simp

/-- Number of rows next to row `r` among the first `n` rows. -/
lemma countP_touch_range (r n : Nat) :
    (List.range n).countP (fun t => decide (t = r + 1 ∨ r = t + 1))
      = (if 0 < r ∧ r ≤ n then 1 else 0) + (if r + 1 < n then 1 else 0) := by
  induction n with
  | zero =>
    simp only [List.range_zero, List.countP_nil]
    split_ifs <;> omega
  | succ n ih =>
    rw [List.range_succ, List.countP_append, ih]
    simp only [List.countP_cons, List.countP_nil, decide_eq_true_eq]
    split_ifs <;> omega

/-- Number of outer rows among the first `n` rows of a board of `K ≥ 2` rows. -/
lemma countP_outer_range (K n : Nat) (hK : 2 ≤ K) :
    (List.range n).countP (fun t => decide (t = 0 ∨ t + 1 = K))
      = (if 0 < n then 1 else 0) + (if K ≤ n then 1 else 0) := by
  induction n with
  | zero =>
    simp only [List.range_zero, List.countP_nil]
    split_ifs <;> omega
  | succ n ih =>
    rw [List.range_succ, List.countP_append, ih]
    simp only [List.countP_cons, List.countP_nil, decide_eq_true_eq]
    split_ifs <;> omega

lemma mem_darkCells (W H : Nat) (rc : Nat × Nat) :
    rc ∈ darkCells W H ↔ rc.1 < H ∧ rc.2 < W ∧ (rc.1 + rc.2) % 2 = 0 := by
  obtain ⟨r, c⟩ := rc
  simp [darkCells, List.mem_product, and_assoc]

/-- A dark cell of a board of at least two rows and columns touches as many
dark cells as its place on the board says. -/
lemma countP_cellsTouch_darkCells (W H : Nat) (hW : 2 ≤ W) (hH : 2 ≤ H) (rc : Nat × Nat)
    (hrc : rc ∈ darkCells W H) :
    ((darkCells W H).countP (cellsTouch rc) : Int) = gridDegree W H rc := by
  rw [mem_darkCells] at hrc
  obtain ⟨r, c⟩ := rc
  obtain ⟨hr, hc, hpar⟩ := hrc
  simp only at hr hc hpar
  have hfun : (fun b : Nat × Nat => cellsTouch (r, c) b && decide ((b.1 + b.2) % 2 = 0))
      = fun b => decide (b.1 = r + 1 ∨ r = b.1 + 1) && decide (b.2 = c + 1 ∨ c = b.2 + 1) := by
    funext b
    rw [Bool.eq_iff_iff]
    simp only [cellsTouch, Bool.and_eq_true, decide_eq_true_eq]
    omega
  have hprod := countP_product (fun t => decide (t = r + 1 ∨ r = t + 1))
    (fun t => decide (t = c + 1 ∨ c = t + 1)) (List.range H) (List.range W)
  beta_reduce at hprod
  unfold darkCells
  rw [List.countP_filter, hfun, hprod, countP_touch_range, countP_touch_range]
  simp only [gridDegree, onOuterRow, onOuterColumn, Bool.and_eq_true, Bool.or_eq_true,
    decide_eq_true_eq]
  split_ifs <;> first | rfl | omega

/-- On a board with an odd number of rows and of columns, each at least 3,
the four corner cells are dark and they are the only cells of degree 1. -/
lemma countP_corner_darkCells (W H : Nat) (hW : 2 ≤ W) (hH : 2 ≤ H) (hWodd : W % 2 = 1)
    (hHodd : H % 2 = 1) :
    (darkCells W H).countP (fun rc => decide (gridDegree W H rc = 1)) = 4 := by
  have hfun : (fun b : Nat × Nat => decide (gridDegree W H b = 1)
        && decide ((b.1 + b.2) % 2 = 0))
      = fun b => decide (b.1 = 0 ∨ b.1 + 1 = H) && decide (b.2 = 0 ∨ b.2 + 1 = W) := by
    funext b
    rw [Bool.eq_iff_iff]
    simp only [gridDegree, onOuterRow, onOuterColumn, Bool.and_eq_true, Bool.or_eq_true,
      decide_eq_true_eq]
    split_ifs <;> simp <;> omega
  have hprod := countP_product (fun t => decide (t = 0 ∨ t + 1 = H))
    (fun t => decide (t = 0 ∨ t + 1 = W)) (List.range H) (List.range W)
  beta_reduce at hprod
  unfold darkCells
  rw [List.countP_filter, hfun, hprod, countP_outer_range H H hH, countP_outer_range W W hW]
  simp only [le_refl, if_true]
  rw [if_pos (by omega), if_pos (by omega)]

lemma cellsTouch_comm (a b : Nat × Nat) : cellsTouch a b = cellsTouch b a := by
  unfold cellsTouch
  rw [decide_eq_decide]
  omega

lemma cellsTouch_self (a : Nat × Nat) : cellsTouch a a = false := by
  unfold cellsTouch
  rw [decide_eq_false_iff_not]
  omega

lemma degreeAt_eq_getElem (s : List Quad) (k : Nat) (hk : k < s.length) :
    degreeAt s k = (s.get ⟨k, hk⟩).numLinkedCorners := by
  simp [degreeAt, List.getD_eq_getElem?_getD, List.getElem?_eq_getElem hk]

/-- Link degree of the square at position `k` after the linking loop has run
on the dark squares of a board, listed in any order. -/
lemma degreeAt_linkCorners_board (W H : Nat) (h : Int) (cells : List (Nat × Nat))
    (hW : 2 ≤ W) (hH : 2 ≤ H) (hh : 1 ≤ h) (hcells : cells.Perm (darkCells W H))
    (k : Nat) (hk : k < cells.length) :
    degreeAt (linkCorners (cells.map (boardSquare W h))) k
      = gridDegree W H (cells.get ⟨k, hk⟩) := by
  have hco : ∀ q1 ∈ cells.map (boardSquare W h), ∀ q2 ∈ cells.map (boardSquare W h),
      CornersCoincide q1 q2 := by
    intro q1 h1 q2 h2
    obtain ⟨a, _, rfl⟩ := List.mem_map.mp h1
    obtain ⟨b, _, rfl⟩ := List.mem_map.mp h2
    exact cornersCoincide_boardSquare W h hh a b
  have hsymm : ∀ q1 ∈ cells.map (boardSquare W h), ∀ q2 ∈ cells.map (boardSquare W h),
      wouldLink q1 q2 = wouldLink q2 q1 := by
    intro q1 h1 q2 h2
    obtain ⟨a, _, rfl⟩ := List.mem_map.mp h1
    obtain ⟨b, _, rfl⟩ := List.mem_map.mp h2
    rw [wouldLink_boardSquare W h hh, wouldLink_boardSquare W h hh, cellsTouch_comm]
  have hirr : ∀ q ∈ cells.map (boardSquare W h), wouldLink q q = false := by
    intro q h1
    obtain ⟨a, _, rfl⟩ := List.mem_map.mp h1
    rw [wouldLink_boardSquare W h hh, cellsTouch_self]
  have hkq : k < (cells.map (boardSquare W h)).length := by
    rw [List.length_map]
    exact hk
  have hget : (cells.map (boardSquare W h)).get? k
      = some (boardSquare W h (cells.get ⟨k, hk⟩)) := by
    rw [List.get?_eq_getElem?, List.getElem?_map, List.getElem?_eq_getElem hk]
    rfl
  have hgetD := getD_of_get? hget
  have hzero : degreeAt (cells.map (boardSquare W h)) k = 0 := by
    unfold degreeAt
    rw [hgetD]
    rfl
  have hfun : ((fun q => wouldLink (boardSquare W h (cells.get ⟨k, hk⟩)) q) ∘ boardSquare W h)
      = cellsTouch (cells.get ⟨k, hk⟩) := by
    funext b
    exact wouldLink_boardSquare W h hh _ b
  rw [degreeAt_linkCorners _ hco k, sum_pairGain _ k hkq hsymm hirr, hzero, zero_add, hgetD,
    List.countP_map, hfun, hcells.countP_eq]
  exact countP_cellsTouch_darkCells W H hW hH _ (hcells.subset (List.get_mem cells k hk))

lemma map_degree_linkCorners_board (W H : Nat) (h : Int) (cells : List (Nat × Nat))
    (hW : 2 ≤ W) (hH : 2 ≤ H) (hh : 1 ≤ h) (hcells : cells.Perm (darkCells W H)) :
    (linkCorners (cells.map (boardSquare W h))).map (fun q => q.numLinkedCorners)
      = cells.map (gridDegree W H) := by
  have hlen : (linkCorners (cells.map (boardSquare W h))).length = cells.length := by
    rw [length_linkCorners, List.length_map]
  apply List.ext_getElem
  · rw [List.length_map, List.length_map, hlen]
  · intro n h1 h2
    have hn : n < cells.length := by
      rw [List.length_map] at h2
      exact h2
    have hn' : n < (linkCorners (cells.map (boardSquare W h))).length := by
      rw [hlen]
      exact hn
    have hd := degreeAt_linkCorners_board W H h cells hW hH hh hcells n hn
    rw [degreeAt_eq_getElem _ n hn'] at hd
    rw [List.getElem_map, List.getElem_map]
    exact hd

/-- C11, amended. Take the dark squares of a synthetic checkerboard of `H`
rows and `W` columns of cells (`W, H ≥ 2`, top-left cell dark, squares of side
`2 * h ≥ 2` that fill their cells and so meet their diagonal neighbours at a
corner), in any order, with empty association tables. After the
corner-linking loop of `CheckerDetection` the link degree of every square is
the one its cell calls for: `1` in a corner of the board, `2` elsewhere on
the border, `4` inside. When `W` and `H` are both odd, all four corner cells
are dark and exactly four quads have degree `1`. -/
theorem checkerboard_link_degrees (W H : Nat) (h : Int) (cells : List (Nat × Nat))
    (hW : 2 ≤ W) (hH : 2 ≤ H) (hh : 1 ≤ h) (hcells : cells.Perm (darkCells W H)) :
    (linkCorners (cells.map (boardSquare W h))).map (fun q => q.numLinkedCorners)
        = cells.map (gridDegree W H)
      ∧ (W % 2 = 1 → H % 2 = 1 →
          degreeOneCount (linkCorners (cells.map (boardSquare W h))) = 4) := by
  have hmap := map_degree_linkCorners_board W H h cells hW hH hh hcells
  refine ⟨hmap, fun hWodd hHodd => ?_⟩
  have hcount : degreeOneCount (linkCorners (cells.map (boardSquare W h)))
      = ((linkCorners (cells.map (boardSquare W h))).map (fun q => q.numLinkedCorners)).countP
          (fun d => decide (d = 1)) := by
    rw [List.countP_map]
    rfl
  rw [hcount, hmap, List.countP_map, hcells.countP_eq]
  exact countP_corner_darkCells W H hW hH hWodd hHodd

/-- Witness for `checkerboard_link_degrees`: the board of 3 rows and 5 columns
of cells of side 16, its eight dark squares listed from the last one to the
first. -/
theorem checkerboard_link_degrees_witness :
    (darkCells 5 3).reverse.Perm (darkCells 5 3)
      ∧ (linkCorners ((darkCells 5 3).reverse.map (boardSquare 5 8))).map
          (fun q => q.numLinkedCorners)
        = (darkCells 5 3).reverse.map (gridDegree 5 3)
      ∧ degreeOneCount (linkCorners ((darkCells 5 3).reverse.map (boardSquare 5 8))) = 4 :=
  ⟨List.reverse_perm _,
    (checkerboard_link_degrees 5 3 8 (darkCells 5 3).reverse (by decide) (by decide) (by decide)
      (List.reverse_perm _)).1,
    (checkerboard_link_degrees 5 3 8 (darkCells 5 3).reverse (by decide) (by decide) (by decide)
      (List.reverse_perm _)).2 (by decide) (by decide)⟩

/-- C11 as stated fails. On the checkerboard of 4 rows and 4 columns of cells
the squares meet at their corners and the tables start empty, the linking loop
gives every square the degree of its place (1, 2 or 4), but only two of the
four corner cells are dark: two quads have degree 1, not four. -/
theorem even_board_has_two_degree_one_quads :
    evenBoard.map (fun q => (q.centre.x, q.centre.y))
        = [(8, 8), (40, 8), (24, 24), (56, 24), (8, 40), (40, 40), (24, 56), (56, 56)]
      ∧ (linkCorners evenBoard).map (fun q => q.numLinkedCorners) = [1, 2, 4, 2, 2, 4, 2, 1]
      ∧ degreeOneCount (linkCorners evenBoard) = 2 := by
  decide

end Calibration
